import Mathlib

/-!
# stewelarend/config: value tree and resolver

A shallow embedding of `values.go`, `defaults.go` and `source.go`.

* Go `interface{}` values are `Any`: a `map[string]interface{}` is `Any.obj`, a
  `*values` is `Any.ptr`, every other Go value is an `Atom`.
* A Go map is an association list `Fields`; `range` visits it in list order, a
  write to a new key appends, a write to an existing key replaces in place.
  Go maps have pairwise distinct keys, which `Fields.valid` and `values.wf` state.
* Pointers are modelled by value: every method returns the receiver after the call.
* `panic` is the result `Res.panic`; an `error` is `Res.err` with the place that built
  it. Error texts are not modelled, and so neither is the field `values.name`, which
  only occurs in them.
-/

namespace Config

/-! ## Go values -/

/-- Go values that are neither `map[string]interface{}` nor `*values`. -/
inductive Atom where
  | null
  | bool (b : Bool)
  | int (i : Int)
  | str (s : String)
  | strs (l : List String)
  deriving DecidableEq, Repr

mutual
/-- A Go `interface{}` as this package tells them apart. -/
inductive Any where
  | atom (a : Atom)
  | obj (m : Fields)
  | ptr (v : values)
  deriving DecidableEq
/-- A Go `map[string]interface{}`. -/
inductive Fields where
  | nil
  | cons (k : String) (x : Any) (rest : Fields)
  deriving DecidableEq
/-- The struct `values` of values.go:16: the fields `value` and `locked` (the mutex
and the field `name`, used in error texts only, are not modelled). -/
inductive values where
  | mk (value : Fields) (locked : Bool)
  deriving DecidableEq
end

/-- The places where values.go, defaults.go and source.go build an `error`. -/
inductive Err where
  | missingName
  | invalidName
  | locked
  | alreadyDefined
  | failedToSet (e : Err)
  | cannotSetInside
  | notDefined
  | cannotFind
  | lockedDel
  | cannotDel
  | defaultAlreadyDefined
  | failedToSetDefault (e : Err)
  | structNotDefined
  | templateNotStruct
  | cannotEncode
  | cannotDecode
  | invalidStruct
  | namedNotDefined
  | unknownNamed
  deriving DecidableEq, Repr

/-- Result of a Go call: a normal return, a returned `error`, or a `panic`. -/
inductive Res (α : Type) where
  | ok (a : α)
  | err (e : Err)
  | panic
  deriving DecidableEq

/-- Field `value` of `values`. -/
def values.value : values → Fields
  | .mk m _ => m

/-- Field `locked` of `values`. -/
def values.locked : values → Bool
  | .mk _ l => l

/-- The receiver with field `value` replaced. -/
def values.withValue : values → Fields → values
  | .mk _ l, m => .mk m l

/-! ## Go maps as association lists -/

/-- Map lookup `m[k]` with the comma-ok form. -/
def Fields.find? (k : String) : Fields → Option Any
  | .nil => none
  | .cons k1 x rest => if k1 = k then some x else rest.find? k

/-- Map write `m[k] = x`. -/
def Fields.set (k : String) (x : Any) : Fields → Fields
  | .nil => .cons k x .nil
  | .cons k1 x1 rest => if k1 = k then .cons k x rest else .cons k1 x1 (rest.set k x)

/-- Map delete `delete(m, k)`. -/
def Fields.erase (k : String) : Fields → Fields
  | .nil => .nil
  | .cons k1 x1 rest => if k1 = k then rest.erase k else .cons k1 x1 (rest.erase k)

/-- The keys of a map, in list order. -/
def Fields.keys : Fields → List String
  | .nil => []
  | .cons k _ rest => k :: rest.keys

/-! ## The name pattern (values.go:39-41) -/

/-- Regular expressions, as far as `namePattern` needs them. -/
inductive Rx where
  | none
  | eps
  | range (lo hi : Char)
  | seq (a b : Rx)
  | alt (a b : Rx)
  | star (a : Rx)

/-- Whether the expression matches the empty string. -/
def Rx.nullable : Rx → Bool
  | .none => false
  | .eps => true
  | .range _ _ => false
  | .seq a b => a.nullable && b.nullable
  | .alt a b => a.nullable || b.nullable
  | .star _ => true

/-- Brzozowski derivative: what remains to be matched after reading `c`. -/
def Rx.deriv (c : Char) : Rx → Rx
  | .none => .none
  | .eps => .none
  | .range lo hi => if lo.toNat ≤ c.toNat ∧ c.toNat ≤ hi.toNat then .eps else .none
  | .seq a b => if a.nullable then .alt (.seq (a.deriv c) b) (b.deriv c) else .seq (a.deriv c) b
  | .alt a b => .alt (a.deriv c) (b.deriv c)
  | .star a => .seq (a.deriv c) (.star a)

/-- Anchored match (`^` ... `$`) of the whole input. -/
def Rx.fullMatch : Rx → List Char → Bool
  | r, [] => r.nullable
  | r, c :: cs => (r.deriv c).fullMatch cs

/-- `[a-zA-Z]`. -/
def rxLetter : Rx := .alt (.range 'a' 'z') (.range 'A' 'Z')

/-- `[a-zA-Z0-9]`. -/
def rxAlnum : Rx := .alt rxLetter (.range '0' '9')

/-- `[a-zA-Z0-9_-]`. -/
def rxWord : Rx := .alt rxAlnum (.alt (.range '_' '_') (.range '-' '-'))

/-- The constant `namePattern`: `[a-zA-Z]([a-zA-Z0-9_-]*[a-zA-Z0-9])*`. -/
def namePattern : Rx := .seq rxLetter (.star (.seq (.star rxWord) rxAlnum))

/-- `nameRegex.MatchString(s)` with `nameRegex = "^" + namePattern + "$"`. -/
def nameRegexMatch (s : String) : Bool := namePattern.fullMatch s.data

/-- `strings.Split(s, ".")` on the characters of `s`. -/
def splitDot : List Char → List (List Char)
  | [] => [[]]
  | c :: cs =>
    if c = '.' then [] :: splitDot cs
    else match splitDot cs with
      | [] => [[c]]
      | s :: ss => (c :: s) :: ss

/-- The segments of a dotted name. `Set`, `GetWithLock` and `Del` each take
`strings.SplitN(name, ".", 2)`, work on the first part and recurse on the second;
the model splits the whole name once and recurses on the list of segments. -/
def segments (name : String) : List String := (splitDot name.data).map String.mk

/-! ## values.go -/

/-- The fresh branch `NewValues(seg, nil)` of values.go:67 and 89: no value, not
locked. -/
def newSub : values := .mk .nil false

/-- The body of `values.Set` (values.go:45-96) on a split name. `store` is what lines
66-79 make of the value being set, which depends on that value only: the item to write
at `v.value[seg]`, or the failure of the expansion. It is looked at where the source
runs those lines, after the checks of lines 58-64. -/
def values.setWith (store : Res Any) : values → List String → values × Res Unit
  | v, [] => (v, .err .missingName)
  | v, [seg] =>
    if !nameRegexMatch seg then (v, .err .invalidName)
    else if v.locked then (v, .err .locked)
    else match v.value.find? seg with
      | some _ => (v, .err .alreadyDefined)
      | none =>
        match store with
        | .ok item => (v.withValue (v.value.set seg item), .ok ())
        | .err e => (v, .err (.failedToSet e))
        | .panic => (v, .panic)
  | v, seg :: rest =>
    if !nameRegexMatch seg then (v, .err .invalidName)
    else match v.value.find? seg with
      | some (.ptr sub) =>
        ((v.withValue (v.value.set seg (.ptr (values.setWith store sub rest).1))),
          (values.setWith store sub rest).2)
      | some _ => (v, .panic)
      | none =>
        ((v.withValue (v.value.set seg (.ptr (values.setWith store newSub rest).1))),
          (values.setWith store newSub rest).2)

mutual
/-- Lines 66-79 of `values.Set`: a map is expanded into a fresh branch by setting
every field in it, any other value is stored as it is. -/
def Any.store : Any → Res Any
  | .obj m =>
    match Fields.setAll m newSub with
    | .ok sub => .ok (.ptr sub)
    | .err e => .err e
    | .panic => .panic
  | .atom a => .ok (.atom a)
  | .ptr p => .ok (.ptr p)
/-- The loop `for fieldName, fieldValue := range obj` of values.go:71-75. -/
def Fields.setAll : Fields → values → Res values
  | .nil, sub => .ok sub
  | .cons k x rest, sub =>
    match values.setWith (Any.store x) sub (segments k) with
    | (sub1, .ok _) => Fields.setAll rest sub1
    | (_, .err e) => .err e
    | (_, .panic) => .panic
end

/-- The method `values.Set(name, value)`: the receiver after the call and the result. -/
def values.Set (v : values) (name : String) (value : Any) : values × Res Unit :=
  v.setWith value.store (segments name)

/-- The loop of `NewValues` (values.go:29-33): a failing `Set` panics. -/
def newValuesLoop : Fields → values → Res values
  | .nil, v => .ok v
  | .cons k x rest, v =>
    match v.Set k x with
    | (v1, .ok _) => newValuesLoop rest v1
    | (_, _) => .panic

/-- The constructor `NewValues(name, value)`. -/
def NewValues (value : Fields) : Res values :=
  newValuesLoop value (.mk .nil false)

mutual
/-- The method `values.Value()`: the materialised mapping. -/
def values.Value : values → Fields
  | .mk value _ => Fields.exported value
/-- The loop of `values.Value()` (values.go:150-156). -/
def Fields.exported : Fields → Fields
  | .nil => .nil
  | .cons k (.ptr sub) rest => .cons k (.obj sub.Value) rest.exported
  | .cons k (.atom a) rest => .cons k (.atom a) rest.exported
  | .cons k (.obj m) rest => .cons k (.obj m) rest.exported
end

mutual
/-- The method `values.SetLock()`. -/
def values.SetLock : values → values
  | .mk value _ => .mk (Fields.lockAll value) true
/-- The loop of `values.SetLock()` (values.go:162-166). -/
def Fields.lockAll : Fields → Fields
  | .nil => .nil
  | .cons k (.ptr sub) rest => .cons k (.ptr sub.SetLock) rest.lockAll
  | .cons k (.atom a) rest => .cons k (.atom a) rest.lockAll
  | .cons k (.obj m) rest => .cons k (.obj m) rest.lockAll
end

/-- The body of `values.GetWithLock` (values.go:112-146) on a split name. -/
def values.getSegs (setLocked : Bool) : values → List String → values × Res Any
  | v, [] => (v, .err .missingName)
  | v, [seg] =>
    if !nameRegexMatch seg then (v, .err .invalidName)
    else match v.value.find? seg with
      | none => (v, .err .notDefined)
      | some (.ptr sub) =>
        if setLocked then
          (v.withValue (v.value.set seg (.ptr sub.SetLock)), .ok (.obj sub.SetLock.Value))
        else (v, .ok (.obj sub.Value))
      | some x => (v, .ok x)
  | v, seg :: rest =>
    if !nameRegexMatch seg then (v, .err .invalidName)
    else match v.value.find? seg with
      | some (.ptr sub) =>
        ((v.withValue (v.value.set seg (.ptr (values.getSegs setLocked sub rest).1))),
          (values.getSegs setLocked sub rest).2)
      | some _ => (v, .err .cannotFind)
      | none => (v, .err .notDefined)

/-- The method `values.GetWithLock(name, setLocked)`. -/
def values.GetWithLock (v : values) (name : String) (setLocked : Bool) : values × Res Any :=
  v.getSegs setLocked (segments name)

/-- The method `values.GetAndLock(name)`. -/
def values.GetAndLock (v : values) (name : String) : values × Res Any :=
  v.GetWithLock name true

/-- The method `values.Get(name)`; `GetWithLock(name, false)` leaves the receiver as it
is (`getSegs_false_fst`), so only the result is returned. -/
def values.Get (v : values) (name : String) : Any × Bool :=
  match (v.GetWithLock name false).2 with
  | .ok x => (x, true)
  | _ => (.atom .null, false)

/-- The body of `values.Del` (values.go:180-207) on a split name. -/
def values.delSegs : values → List String → values × Res Unit
  | v, [] => (v, .err .missingName)
  | v, [seg] =>
    if !nameRegexMatch seg then (v, .err .invalidName)
    else if v.locked then (v, .err .lockedDel)
    else (v.withValue (v.value.erase seg), .ok ())
  | v, seg :: rest =>
    if !nameRegexMatch seg then (v, .err .invalidName)
    else match v.value.find? seg with
      | some (.ptr sub) =>
        ((v.withValue (v.value.set seg (.ptr (values.delSegs sub rest).1))),
          (values.delSegs sub rest).2)
      | some _ => (v, .panic)
      | none => (v, .ok ())

/-- The method `values.Del(name)`. -/
def values.Del (v : values) (name : String) : values × Res Unit :=
  v.delSegs (segments name)

/-- The loop of `values.Merge` (values.go:171-176): the result of `Del` is dropped, a
failing `Set` panics. -/
def mergeLoop : Fields → values → Res values
  | .nil, v => .ok v
  | .cons bn bv rest, v =>
    match v.Del bn with
    | (_, .panic) => .panic
    | (v1, _) =>
      match v1.Set bn bv with
      | (v2, .ok _) => mergeLoop rest v2
      | (_, _) => .panic

/-- The method `values.Merge(b)` for a non-nil `b`. -/
def values.Merge (v b : values) : Res values := mergeLoop b.value v

/-- The function `mergedObj(a, b)` (source.go:233-238). -/
def mergedObj (a b : Fields) : Res Fields :=
  match NewValues a with
  | .ok va =>
    match NewValues b with
    | .ok vb =>
      match va.Merge vb with
      | .ok va1 => .ok va1.Value
      | _ => .panic
    | _ => .panic
  | _ => .panic

/-! ## source.go and defaults.go -/

/-- An `ISource`. A source may be stateful: `answer asked name` is what its
`Get(name)` returns after it has been asked the names `asked`, `none` for
`ok = false`. -/
structure ISource where
  asked : List String
  answer : List String → String → Option Any

/-- A call `s.Get(name)`: the result and the source after the call. -/
def ISource.Get (s : ISource) (name : String) : Option Any × ISource :=
  (s.answer s.asked name, { s with asked := s.asked ++ [name] })

/-- A `*values` used as a source (`static.Add`, `configfile.Add`): its `Get` method. -/
def valuesSource (v : values) : ISource where
  asked := []
  answer := fun _ name => match v.Get name with
    | (x, true) => some x
    | _ => none

/-- The package variables `defined`, `defaults` and `sources`. -/
structure State where
  defined : values
  defaults : values
  sources : List ISource

/-- The package variables at program start. -/
def State.init : State where
  defined := .mk .nil false
  defaults := .mk .nil false
  sources := []

/-- The function `AddSource(s)` for a non-nil `s`. -/
def AddSource (st : State) (s : ISource) : State :=
  { st with sources := st.sources ++ [s] }

/-- The function `SetDefault(name, defaultValue)` (defaults.go:13-21). -/
def SetDefault (st : State) (name : String) (defaultValue : Any) : State × Res Unit :=
  match st.defined.Get name with
  | (_, true) => (st, .err .defaultAlreadyDefined)
  | _ =>
    match st.defaults.Set name defaultValue with
    | (d, .ok _) => ({ st with defaults := d }, .ok ())
    | (d, .err e) => ({ st with defaults := d }, .err (.failedToSetDefault e))
    | (d, .panic) => ({ st with defaults := d }, .panic)

/-- The loop `for _, s := range sources` of `Get` up to the first source that has
the name (source.go:96-97): the sources after the calls and the value found. -/
def scanSources (name : String) : List ISource → List ISource × Option Any
  | [] => ([], none)
  | s :: rest =>
    match (s.Get name).1 with
    | some v => ((s.Get name).2 :: rest, some v)
    | none => ((s.Get name).2 :: (scanSources name rest).1, (scanSources name rest).2)

/-- The merge with the defaults in `Get` (source.go:104-112). -/
def mergeWithDefaults (defaults : values) (name : String) (v : Any) : Res Any :=
  match v with
  | .obj sourceObj =>
    match defaults.Get name with
    | (.obj defaultObj, true) =>
      match mergedObj defaultObj sourceObj with
      | .ok m => .ok (.obj m)
      | .err e => .err e
      | .panic => .panic
    | _ => .ok v
  | _ => .ok v

/-- The copy to `defined` in `Get` (source.go:115-119 and 125-129): `Set`, panic
when it fails, then `GetAndLock` whose error is dropped. -/
def defineAndLock (st : State) (name : String) (v : Any) : State × Res (Any × Bool) :=
  match st.defined.Set name v with
  | (d, .ok _) =>
    match d.GetAndLock name with
    | (d1, .ok x) => ({ st with defined := d1 }, .ok (x, true))
    | (d1, _) => ({ st with defined := d1 }, .ok (.atom .null, true))
  | (d, _) => ({ st with defined := d }, .panic)

/-- The function `Get(name)` (source.go:86-134): the package variables after the call
and the result `(value, ok)`. -/
def Get (st : State) (name : String) : State × Res (Any × Bool) :=
  match st.defined.GetAndLock name with
  | (d, .ok v) => ({ st with defined := d }, .ok (v, true))
  | (d, _) =>
    match scanSources name st.sources with
    | (srcs, some v) =>
      match mergeWithDefaults st.defaults name v with
      | .ok v1 => defineAndLock { st with defined := d, sources := srcs } name v1
      | _ => ({ st with defined := d, sources := srcs }, .panic)
    | (srcs, none) =>
      match st.defaults.Get name with
      | (v, true) => defineAndLock { st with defined := d, sources := srcs } name v
      | _ => ({ st with defined := d, sources := srcs }, .ok (.atom .null, false))

/-- The length `len(m)` of a map. -/
def Fields.len : Fields → Nat
  | .nil => 0
  | .cons _ _ rest => rest.len + 1

/-- The function `GetNamed(name)` (source.go:168-182): the package variables after the
call and the result `(named, value, ok)`. -/
def GetNamed (st : State) (name : String) : State × Res (String × Any × Bool) :=
  match Get st name with
  | (st1, .ok (value, true)) =>
    match value with
    | .obj obj =>
      if obj.len ≠ 1 then (st1, .ok ("", .atom .null, false))
      else match obj with
        | .cons named v _ => (st1, .ok (named, v, true))
        | .nil => (st1, .ok ("", .atom .null, false))
    | _ => (st1, .ok ("", .atom .null, false))
  | (st1, .ok (_, false)) => (st1, .ok ("", .atom .null, false))
  | (st1, .err e) => (st1, .err e)
  | (st1, .panic) => (st1, .panic)

/-- What `reflect.TypeOf(tmpl)` tells `GetStruct` about a template: a nil interface, a
struct, a pointer to a struct, or anything else. -/
inductive TemplateKind where
  | nilValue
  | struct
  | ptrToStruct
  | other
  deriving DecidableEq

/-- The method `Validate() error` that makes the pointer to a new record an
`IValidator` (source.go:157): none, one with a value receiver, which works on a copy
of the record and returns whether it failed, or one with a pointer receiver, which
returns the record after the call and whether it failed. -/
inductive Validator (ρ : Type) where
  | none
  | byValue (f : ρ → Bool)
  | byPointer (f : ρ → ρ × Bool)

/-- A template of `GetStruct` for records of type `ρ`. The JSON round trip of
source.go:150-156 (`json.Marshal` of the value, `json.Unmarshal` into a new record) is
library code and a field of the template: it gives the new record, or fails with
`cannotEncode` or `cannotDecode`. -/
structure Template (ρ : Type) where
  kind : TemplateKind
  decode : Any → Res ρ
  validator : Validator ρ

/-- The `interface{}` that `GetStruct` returns: the pointer to the new record for a
pointer template, the record itself otherwise. -/
inductive Decoded (ρ : Type) where
  | ptr (r : ρ)
  | val (r : ρ)
  deriving DecidableEq

/-- Lines 142-165 of `GetStruct`, which `GetNamedStruct` repeats in lines 195-218:
check the template, decode the value into a new record, validate it, return it. -/
def decodeInto {ρ : Type} (tmpl : Template ρ) (value : Any) : Res (Decoded ρ) :=
  match tmpl.kind with
  | .nilValue => .panic
  | .other => .err .templateNotStruct
  | kind =>
    match tmpl.decode value with
    | .err e => .err e
    | .panic => .panic
    | .ok r =>
      match tmpl.validator with
      | .none => if kind = .ptrToStruct then .ok (.ptr r) else .ok (.val r)
      | .byValue f =>
        if f r then .err .invalidStruct
        else if kind = .ptrToStruct then .ok (.ptr r) else .ok (.val r)
      | .byPointer f =>
        if (f r).2 then .err .invalidStruct
        else if kind = .ptrToStruct then .ok (.ptr (f r).1) else .ok (.val (f r).1)

/-- The function `GetStruct(name, tmpl)` (source.go:137-166). -/
def GetStruct {ρ : Type} (st : State) (name : String) (tmpl : Template ρ) :
    State × Res (Decoded ρ) :=
  match Get st name with
  | (st1, .ok (value, true)) => (st1, decodeInto tmpl value)
  | (st1, .ok (_, false)) => (st1, .err .structNotDefined)
  | (st1, .err e) => (st1, .err e)
  | (st1, .panic) => (st1, .panic)

/-- The function `GetNamedStruct(name, templates)` (source.go:186-219); the map
`templates` is an association list. -/
def GetNamedStruct {ρ : Type} (st : State) (name : String)
    (templates : List (String × Template ρ)) : State × Res (String × Decoded ρ) :=
  match GetNamed st name with
  | (st1, .ok (named, value, true)) =>
    match templates.lookup named with
    | none => (st1, .err .unknownNamed)
    | some tmpl =>
      match decodeInto tmpl value with
      | .ok r => (st1, .ok (named, r))
      | .err e => (st1, .err e)
      | .panic => (st1, .panic)
  | (st1, .ok (_, _, false)) => (st1, .err .namedNotDefined)
  | (st1, .err e) => (st1, .err e)
  | (st1, .panic) => (st1, .panic)

/-! ## Sequences of calls -/

/-- A call of the package: `SetDefault`, `AddSource` or `Get`. -/
inductive Op where
  | setDefault (name : String) (value : Any)
  | addSource (s : ISource)
  | get (name : String)

/-- The package state after a call, `none` when the call panics. -/
def Op.apply (st : State) : Op → Option State
  | .setDefault name value =>
    match SetDefault st name value with
    | (_, .panic) => none
    | (st1, _) => some st1
  | .addSource s => some (AddSource st s)
  | .get name =>
    match Get st name with
    | (st1, .ok _) => some st1
    | (_, _) => none

/-- The package state after a sequence of calls, `none` when one of them panics. -/
def runOps : State → List Op → Option State
  | st, [] => some st
  | st, op :: ops =>
    match op.apply st with
    | some st1 => runOps st1 ops
    | none => none

/-- The names that the calls of `Get` in a sequence ask for, split into segments. -/
def requested : List Op → List (List String)
  | [] => []
  | .get name :: ops => segments name :: requested ops
  | .setDefault _ _ :: ops => requested ops
  | .addSource _ :: ops => requested ops

/-! ## Predicates used in the statements -/

/-- A grammar-valid single segment: it matches the name pattern and holds no `.`. -/
def segKey (k : String) : Bool := nameRegexMatch k && !k.data.contains '.'

mutual
/-- A plain value (scalar, list or mapping, no `*values` inside) whose mappings have,
at every level, pairwise distinct keys that are grammar-valid single segments. -/
def Any.valid : Any → Bool
  | .atom _ => true
  | .obj m => m.valid
  | .ptr _ => false
/-- See `Any.valid`. -/
def Fields.valid : Fields → Bool
  | .nil => true
  | .cons k x rest => segKey k && !rest.keys.contains k && x.valid && rest.valid
end

/-- The branch that a split name resolves to: the receiver for no segment, else the
branch found by following the segments through branches, as `GetWithLock` does. -/
def values.branchAt? : values → List String → Option values
  | v, [] => some v
  | v, seg :: rest =>
    if !nameRegexMatch seg then none
    else match v.value.find? seg with
      | some (.ptr sub) => sub.branchAt? rest
      | _ => none

/-- An ASCII letter, `a` to `z` or `A` to `Z`. -/
def isAsciiLetter (c : Char) : Bool :=
  decide ('a'.toNat ≤ c.toNat ∧ c.toNat ≤ 'z'.toNat) ||
    decide ('A'.toNat ≤ c.toNat ∧ c.toNat ≤ 'Z'.toNat)

/-- An ASCII digit, `0` to `9`. -/
def isAsciiDigit (c : Char) : Bool := decide ('0'.toNat ≤ c.toNat ∧ c.toNat ≤ '9'.toNat)

/-- A character that a name may hold: an ASCII letter, a digit, `_` or `-`. -/
def isNameChar (c : Char) : Bool :=
  isAsciiLetter c || isAsciiDigit c || decide (c = '_') || decide (c = '-')

/-- The name grammar in the words of the specification: the segment is not empty, its
first character is an ASCII letter, every character is an ASCII letter, a digit, `_`
or `-`, and its last character is a letter or a digit. -/
def validSegment (s : String) : Bool :=
  match s.data.head?, s.data.getLast? with
  | some first, some last =>
    isAsciiLetter first && s.data.all isNameChar && (isAsciiLetter last || isAsciiDigit last)
  | _, _ => false

mutual
/-- A plain Go value: a scalar, a list or a mapping of plain values, with no `*values`
inside. -/
def Any.plain : Any → Bool
  | .atom _ => true
  | .obj m => m.plainAll
  | .ptr _ => false
/-- See `Any.plain`. -/
def Fields.plainAll : Fields → Bool
  | .nil => true
  | .cons _ x rest => x.plain && rest.plainAll
end

mutual
/-- A tree as `Set` builds them: below every branch the keys are pairwise distinct
valid segments and every item is a leaf that is no map, or a branch. -/
def values.wf : values → Bool
  | .mk m _ => m.wfItems
/-- See `values.wf`. -/
def Fields.wfItems : Fields → Bool
  | .nil => true
  | .cons k (.ptr sub) rest => segKey k && !rest.keys.contains k && sub.wf && rest.wfItems
  | .cons k (.atom _) rest => segKey k && !rest.keys.contains k && rest.wfItems
  | .cons _ (.obj _) _ => false
end

mutual
/-- No branch of the tree is locked, the root included. -/
def values.noLock : values → Bool
  | .mk m l => !l && m.noLockItems
/-- See `values.noLock`. -/
def Fields.noLockItems : Fields → Bool
  | .nil => true
  | .cons _ (.ptr sub) rest => sub.noLock && rest.noLockItems
  | .cons _ (.atom _) rest => rest.noLockItems
  | .cons _ (.obj _) rest => rest.noLockItems
end

mutual
/-- Every node of the tree below `path` lies at or below a name of `R`, or is an
unlocked branch strictly above a name of `R`; the root of the tree is not locked. -/
def values.covered (R : List (List String)) : values → List String → Prop
  | .mk m l, path => l = false ∧ Fields.covered R m path
/-- See `values.covered`. -/
def Fields.covered (R : List (List String)) : Fields → List String → Prop
  | .nil, _ => True
  | .cons k (.ptr sub) rest, path =>
    ((∃ r ∈ R, r <+: path ++ [k]) ∨
      ((∃ r ∈ R, path ++ [k] <+: r) ∧ values.covered R sub (path ++ [k]))) ∧
    Fields.covered R rest path
  | .cons k (.atom _) rest, path => (∃ r ∈ R, r <+: path ++ [k]) ∧ Fields.covered R rest path
  | .cons k (.obj _) rest, path => (∃ r ∈ R, r <+: path ++ [k]) ∧ Fields.covered R rest path
end

/-- The condition of `values.covered` on one entry `k ↦ x` of the branch at `path`. -/
def entryCovered (R : List (List String)) (path : List String) (k : String) : Any → Prop
  | .ptr sub =>
    (∃ r ∈ R, r <+: path ++ [k]) ∨
      ((∃ r ∈ R, path ++ [k] <+: r) ∧ values.covered R sub (path ++ [k]))
  | .atom _ => ∃ r ∈ R, r <+: path ++ [k]
  | .obj _ => ∃ r ∈ R, r <+: path ++ [k]

/-- An item as `Set` stores them: a leaf that is no map, or a well-formed branch. -/
def Any.wfItem : Any → Bool
  | .ptr sub => sub.wf
  | .atom _ => true
  | .obj _ => false

/-- An item that is no branch, or a branch without a lock. -/
def Any.noLockItem : Any → Bool
  | .ptr sub => sub.noLock
  | .atom _ => true
  | .obj _ => true

/-- Concatenation of two association lists. -/
def Fields.append : Fields → Fields → Fields
  | .nil, b => b
  | .cons k x rest, b => .cons k x (rest.append b)

/-- What a read returns for a stored item: the materialised mapping of a branch,
the item itself otherwise (values.go:129-135). -/
def Any.read : Any → Any
  | .ptr sub => .obj sub.Value
  | .atom a => .atom a
  | .obj m => .obj m

/-! ## Example data -/

/-- The empty tree `NewValues("test", nil)`. -/
def emptyTree : values := .mk .nil false

/-- The Go value `int(n)`. -/
def intVal (n : Int) : Any := .atom (.int n)

/-- The Go value `string(s)`. -/
def strVal (s : String) : Any := .atom (.str s)

/-- The map `{"one": 1, "two": 2, "three": 3}` of values_test.go:53. -/
def objOneTwoThree : Any :=
  .obj (.cons "one" (intVal 1) (.cons "two" (intVal 2) (.cons "three" (intVal 3) .nil)))

/-- The map `{"a.b": 1}`, whose key is a dotted name. -/
def objDottedKey : Any := .obj (.cons "a.b" (intVal 1) .nil)

/-- The tree after `Set("p.a", 1)` on an empty tree. -/
def treePA : values := (emptyTree.Set "p.a" (intVal 1)).1

/-- The tree `treePA` after `GetAndLock("p")`. -/
def treePALocked : values := (treePA.GetAndLock "p").1

/-- The tree after `Set("s.p.a", 1)` on an empty tree. -/
def treeSPA : values := (emptyTree.Set "s.p.a" (intVal 1)).1

/-- The package state after `SetDefault("p.a", 1)`. -/
def statePA : State := (SetDefault State.init "p.a" (intVal 1)).1

/-- The package state `statePA` after `Get("p")`. -/
def statePAGot : State := (Get statePA "p").1

/-- The package state `statePAGot` after `SetDefault("p.x.y", 2)`. -/
def statePAGotXY : State := (SetDefault statePAGot "p.x.y" (intVal 2)).1

/-- The package state with one source, an empty `*values` (`static.Add` of an empty
map), and no defaults. -/
def stateEmptySource : State := AddSource State.init (valuesSource emptyTree)

/-- The map `{"http": {"port": 8000, "address": "localhost"}}`. -/
def mapHttpDefaults : Fields :=
  .cons "http" (.obj (.cons "port" (intVal 8000) (.cons "address" (strVal "localhost") .nil)))
    .nil

/-- The map `{"http": {"port": 9000}}`. -/
def mapHttpSource : Fields := .cons "http" (.obj (.cons "port" (intVal 9000) .nil)) .nil

/-- A source that has `a = 1`: the `*values` of `static.Add({"a": 1})`. -/
def sourceA1 : ISource := valuesSource (emptyTree.Set "a" (intVal 1)).1

/-- A source that has `a = 2`. -/
def sourceA2 : ISource := valuesSource (emptyTree.Set "a" (intVal 2)).1

/-- The package state `statePAGot` after `SetDefault("p.b", 2)`. -/
def statePAGotB : State := (SetDefault statePAGot "p.b" (intVal 2)).1

/-- The defaults registry after `SetDefault("abc", 123)`. -/
def defaultsAbc : values := (emptyTree.Set "abc" (intVal 123)).1

/-- The map `{"port": 8000, "address": "localhost"}`. -/
def mapPortAddress : Fields :=
  .cons "port" (intVal 8000) (.cons "address" (strVal "localhost") .nil)

/-- The defaults registry after `SetDefault("server.http", {port: 8000, address:
"localhost"})`. -/
def defaultsServerHttp : values := (emptyTree.Set "server.http" (.obj mapPortAddress)).1

/-- The source of `static.Add({"server": {"http": {"port": 9000}}})`. -/
def sourceServerHttp : ISource :=
  valuesSource (emptyTree.Set "server" (.obj mapHttpSource)).1

/-- A source that answers `server.http` with the map `{"x.y": 1}`, whose key is a
dotted name, and has no other name. -/
def sourceDottedKey : ISource where
  asked := []
  answer := fun _ name =>
    if name = "server.http" then some (.obj (.cons "x.y" (intVal 1) .nil)) else none

/-- A source that has `a = {b: 5, c: 6}`. -/
def sourceABC : ISource :=
  valuesSource (emptyTree.Set "a"
    (.obj (.cons "b" (intVal 5) (.cons "c" (intVal 6) .nil)))).1

/-- The calls `AddSource(sourceABC)`, `Get("a.b")`. -/
def opsGetAB : List Op := [.addSource sourceABC, .get "a.b"]

/-- The calls `SetDefault("a.b", 5)`, `Get("a")` and `AddSource` of a source with
`a.b = 7`. -/
def opsGetAncestor : List Op :=
  [.setDefault "a.b" (intVal 5), .get "a",
   .addSource (valuesSource (emptyTree.Set "a.b" (intVal 7)).1)]

/-- The package state after the calls `opsGetAB`. -/
def stateGotAB : State := (Get (AddSource State.init sourceABC) "a.b").1

/-- The package state after `SetDefault("rpc.server", {"http": {"port": 8000,
"address": "localhost"}})`, the first call of `TestDefaults`. -/
def stateRpcServer : State := (SetDefault State.init "rpc.server" (.obj mapHttpDefaults)).1

/-- The calls `SetDefault("server.http", {limit_tps: 10})`,
`SetDefault("server.batch", {})` of `TestContentiousStructs`, with maps for the structs. -/
def opsTwoVariants : List Op :=
  [.setDefault "server.http" (.obj (.cons "limit_tps" (intVal 10) .nil)),
   .setDefault "server.batch" (.obj .nil)]

/-- The calls `opsTwoVariants` followed by `Get("server.http")`. -/
def opsTwoVariantsGetOne : List Op := opsTwoVariants ++ [.get "server.http"]

/-- The package state after `SetDefault("sel.http", {port: 9000})`. -/
def stateSelHttp : State :=
  (SetDefault State.init "sel.http" (.obj (.cons "port" (intVal 9000) .nil))).1

/-- The record `httpServerConfig` of defaults_test.go:56-60. -/
structure HttpServerConfig where
  address : String
  port : Int
  limitTps : Int
  deriving DecidableEq

/-- The method `(c *httpServerConfig) Validate()` of defaults_test.go:62-73: the record
after the call and whether it returned an error. -/
def HttpServerConfig.Validate (c : HttpServerConfig) : HttpServerConfig × Bool :=
  let c1 := if c.address = "" then { c with address := "localhost" } else c
  let c2 := if c1.port = 0 then { c1 with port := 8000 } else c1
  if c2.port < 0 then (c2, true) else (c2, false)

/-- One field of type `string` in the JSON round trip: absent or `null` leaves the zero
value. -/
def jsonString (m : Fields) (key : String) : Option String :=
  match m.find? key with
  | none => some ""
  | some (.atom .null) => some ""
  | some (.atom (.str s)) => some s
  | some _ => none

/-- One field of type `int` in the JSON round trip: absent or `null` leaves the zero
value. -/
def jsonInt (m : Fields) (key : String) : Option Int :=
  match m.find? key with
  | none => some 0
  | some (.atom .null) => some 0
  | some (.atom (.int i)) => some i
  | some _ => none

/-- The JSON round trip into a new `httpServerConfig` for the values of the examples:
`nil` and maps with the keys `address`, `port` and `limit_tps` of the field tags. -/
def decodeHttpServerConfig : Any → Res HttpServerConfig
  | .atom .null => .ok ⟨"", 0, 0⟩
  | .obj m =>
    match jsonString m "address", jsonInt m "port", jsonInt m "limit_tps" with
    | some a, some p, some l => .ok ⟨a, p, l⟩
    | _, _, _ => .err .cannotDecode
  | _ => .err .cannotDecode

/-- The template `httpServerConfig{}` of `GetStruct("server.http", httpServerConfig{})`. -/
def templateHttp : Template HttpServerConfig where
  kind := .struct
  decode := decodeHttpServerConfig
  validator := .byPointer HttpServerConfig.Validate

/-- The package state after `SetDefault("server.http", {port: 0})`. -/
def statePortZero : State :=
  (SetDefault State.init "server.http" (.obj (.cons "port" (intVal 0) .nil))).1

/-- The package state after `SetDefault("server.http", {port: -1})`. -/
def statePortNegative : State :=
  (SetDefault State.init "server.http" (.obj (.cons "port" (intVal (-1)) .nil))).1

/-- The calls `SetDefault("p.a", 1)`, `Get("p")`, `SetDefault("p.b", 2)`. -/
def opsDefaultBelowLocked : List Op :=
  [.setDefault "p.a" (intVal 1), .get "p", .setDefault "p.b" (intVal 2)]

/-- A source that has `p = 5`: the `*values` of `static.Add({"p": 5})`. -/
def sourceP5 : ISource := valuesSource (emptyTree.Set "p" (intVal 5)).1

/-- The calls `AddSource(sourceP5)`, `Get("p")`, `SetDefault("p.x", 1)`. -/
def opsDefaultBelowLeaf : List Op :=
  [.addSource sourceP5, .get "p", .setDefault "p.x" (intVal 1)]

/-- The tree after `Set("a", 1)` on an empty tree: `a` holds a leaf. -/
def treeLeafA : values := (emptyTree.Set "a" (intVal 1)).1

/-- The defaults registry after `SetDefault("server.http", {limit_tps: 10})` and
`SetDefault("server.batch", {})` of `TestStructSelection`, with maps for the structs. -/
def defaultsTwoVariants : values :=
  ((emptyTree.Set "server.http" (.obj (.cons "limit_tps" (intVal 10) .nil))).1.Set
    "server.batch" (.obj .nil)).1

/-- The source `static.Add({"server": {"http": nil}})` of `TestStructSelection`. -/
def sourceSelectHttp : ISource :=
  valuesSource (emptyTree.Set "server" (.obj (.cons "http" (.atom .null) .nil))).1

/-- The calls `SetDefault("a.x", 1)`, `Get("a")`, `SetDefault("a.server.http",
{limit_tps: 10})`, `SetDefault("a.server.batch", {})` and `static.Add({"a": {"server":
{"http": nil}}})`. -/
def opsVariantsBelowLocked : List Op :=
  [.setDefault "a.x" (intVal 1), .get "a",
   .setDefault "a.server.http" (.obj (.cons "limit_tps" (intVal 10) .nil)),
   .setDefault "a.server.batch" (.obj .nil),
   .addSource (valuesSource
     (emptyTree.Set "a.server" (.obj (.cons "http" (.atom .null) .nil))).1)]

/-- A source that answers `server` with the map `{"http": {"port-": 1}}`, which names
the variant `http` with a value that has a key outside the name grammar, and has no
other name. -/
def sourceInvalidKey : ISource where
  asked := []
  answer := fun _ name =>
    if name = "server" then
      some (.obj (.cons "http" (.obj (.cons "port-" (intVal 1) .nil)) .nil))
    else none

/-! ## Lemmas on maps -/

/-- List induction on a map. -/
@[induction_eliminator]
theorem Fields.ind {P : Fields → Prop} (nil : P .nil)
    (cons : ∀ k x rest, P rest → P (.cons k x rest)) : ∀ m, P m
  | .nil => nil
  | .cons k x rest => cons k x rest (Fields.ind nil cons rest)

@[simp] theorem values.withValue_value (v : values) (m : Fields) : (v.withValue m).value = m := by
  cases v; rfl

@[simp] theorem values.withValue_locked (v : values) (m : Fields) :
    (v.withValue m).locked = v.locked := by
  cases v; rfl

@[simp] theorem values.withValue_self (v : values) : v.withValue v.value = v := by
  cases v; rfl

@[simp] theorem values.withValue_withValue (v : values) (m m1 : Fields) :
    (v.withValue m).withValue m1 = v.withValue m1 := by
  cases v; rfl

theorem values.eta (v : values) : values.mk v.value v.locked = v := by
  cases v; rfl

@[simp] theorem Fields.find?_set_self (m : Fields) (k : String) (x : Any) :
    (m.set k x).find? k = some x := by
  induction m with
  | nil => simp [Fields.set, Fields.find?]
  | cons k1 x1 rest ih =>
    by_cases h : k1 = k
    · simp [Fields.set, Fields.find?, h]
    · simp [Fields.set, Fields.find?, h, ih]

theorem Fields.find?_set_ne (m : Fields) {k k1 : String} (x : Any) (h : k1 ≠ k) :
    (m.set k x).find? k1 = m.find? k1 := by
  induction m with
  | nil => simp [Fields.set, Fields.find?, Ne.symm h]
  | cons k2 x2 rest ih =>
    by_cases h2 : k2 = k
    · subst h2
      simp [Fields.set, Fields.find?, Ne.symm h]
    · by_cases h3 : k2 = k1
      · subst h3
        simp [Fields.set, Fields.find?, h2]
      · simp [Fields.set, Fields.find?, h2, h3, ih]

theorem Fields.set_of_find? {m : Fields} {k : String} {x : Any} (h : m.find? k = some x) :
    m.set k x = m := by
  induction m with
  | nil => simp [Fields.find?] at h
  | cons k1 x1 rest ih =>
    by_cases h1 : k1 = k
    · simp [Fields.find?, h1] at h
      simp [Fields.set, h1, h]
    · simp [Fields.find?, h1] at h
      simp [Fields.set, h1, ih h]

@[simp] theorem Fields.set_set (m : Fields) (k : String) (x y : Any) :
    (m.set k x).set k y = m.set k y := by
  induction m with
  | nil => simp [Fields.set]
  | cons k1 x1 rest ih =>
    by_cases h1 : k1 = k
    · simp [Fields.set, h1]
    · simp [Fields.set, h1, ih]

theorem Fields.find?_eq_none_iff (m : Fields) (k : String) : m.find? k = none ↔ k ∉ m.keys := by
  induction m with
  | nil => simp [Fields.find?, Fields.keys]
  | cons k1 x1 rest ih =>
    by_cases h1 : k1 = k
    · simp [Fields.find?, Fields.keys, h1]
    · simp [Fields.find?, Fields.keys, h1, ih, Ne.symm h1]

theorem Fields.keys_set_of_mem {m : Fields} {k : String} (x : Any) (h : k ∈ m.keys) :
    (m.set k x).keys = m.keys := by
  induction m with
  | nil => simp [Fields.keys] at h
  | cons k1 x1 rest ih =>
    by_cases h1 : k1 = k
    · simp [Fields.set, Fields.keys, h1]
    · have : k ∈ rest.keys := by
        simp [Fields.keys] at h
        rcases h with h | h
        · exact absurd h.symm h1
        · exact h
      simp [Fields.set, Fields.keys, h1, ih this]

theorem Fields.keys_set_of_not_mem {m : Fields} {k : String} (x : Any) (h : k ∉ m.keys) :
    (m.set k x).keys = m.keys ++ [k] := by
  induction m with
  | nil => simp [Fields.set, Fields.keys]
  | cons k1 x1 rest ih =>
    simp [Fields.keys] at h
    have h1 : ¬ k1 = k := fun e => h.1 e.symm
    simp [Fields.set, Fields.keys, h1, ih h.2]

theorem Fields.mem_keys_set (m : Fields) (k k1 : String) (x : Any) :
    k1 ∈ (m.set k x).keys ↔ k1 = k ∨ k1 ∈ m.keys := by
  by_cases h : k ∈ m.keys
  · rw [Fields.keys_set_of_mem x h]
    constructor
    · exact Or.inr
    · rintro (h1 | h1)
      · exact h1 ▸ h
      · exact h1
  · rw [Fields.keys_set_of_not_mem x h]
    simp [or_comm]

@[simp] theorem Fields.find?_erase_self (m : Fields) (k : String) : (m.erase k).find? k = none := by
  induction m with
  | nil => simp [Fields.erase, Fields.find?]
  | cons k1 x1 rest ih =>
    by_cases h1 : k1 = k
    · simp [Fields.erase, h1, ih]
    · simp [Fields.erase, Fields.find?, h1, ih]

theorem Fields.find?_erase_ne (m : Fields) {k k1 : String} (h : k1 ≠ k) :
    (m.erase k).find? k1 = m.find? k1 := by
  induction m with
  | nil => simp [Fields.erase]
  | cons k2 x2 rest ih =>
    by_cases h2 : k2 = k
    · subst h2
      simp [Fields.erase, Fields.find?, Ne.symm h, ih]
    · by_cases h3 : k2 = k1
      · subst h3
        simp [Fields.erase, Fields.find?, h2]
      · simp [Fields.erase, Fields.find?, h2, h3, ih]

theorem Fields.mem_keys_erase (m : Fields) (k k1 : String) :
    k1 ∈ (m.erase k).keys ↔ k1 ≠ k ∧ k1 ∈ m.keys := by
  rw [← not_iff_not, ← Fields.find?_eq_none_iff]
  by_cases h : k1 = k
  · subst h
    simp
  · rw [Fields.find?_erase_ne m h, Fields.find?_eq_none_iff]
    simp [h]

/-! ## Lemmas on `SetLock`, `Value` and `GetWithLock` -/

mutual
theorem values.Value_SetLock : ∀ v : values, v.SetLock.Value = v.Value
  | .mk m l => by
    simp only [values.SetLock, values.Value]
    exact Fields.exported_lockAll m
theorem Fields.exported_lockAll : ∀ m : Fields, m.lockAll.exported = m.exported
  | .nil => by simp [Fields.lockAll]
  | .cons k (.atom a) rest => by
    simp only [Fields.lockAll, Fields.exported]
    rw [Fields.exported_lockAll rest]
  | .cons k (.obj o) rest => by
    simp only [Fields.lockAll, Fields.exported]
    rw [Fields.exported_lockAll rest]
  | .cons k (.ptr sub) rest => by
    simp only [Fields.lockAll, Fields.exported]
    rw [Fields.exported_lockAll rest, values.Value_SetLock sub]
end

mutual
theorem values.SetLock_SetLock : ∀ v : values, v.SetLock.SetLock = v.SetLock
  | .mk m l => by
    simp only [values.SetLock]
    rw [Fields.lockAll_lockAll m]
theorem Fields.lockAll_lockAll : ∀ m : Fields, m.lockAll.lockAll = m.lockAll
  | .nil => by simp [Fields.lockAll]
  | .cons k (.atom a) rest => by
    simp only [Fields.lockAll]
    rw [Fields.lockAll_lockAll rest]
  | .cons k (.obj o) rest => by
    simp only [Fields.lockAll]
    rw [Fields.lockAll_lockAll rest]
  | .cons k (.ptr sub) rest => by
    simp only [Fields.lockAll]
    rw [Fields.lockAll_lockAll rest, values.SetLock_SetLock sub]
end

@[simp] theorem values.SetLock_locked (v : values) : v.SetLock.locked = true := by
  cases v; rfl

theorem values.Value_eq (v : values) : v.Value = v.value.exported := by
  cases v; rfl

theorem values.getSegs_one (b : Bool) (v : values) (seg : String) :
    values.getSegs b v [seg] =
      if !nameRegexMatch seg then (v, .err .invalidName)
      else match v.value.find? seg with
        | none => (v, .err .notDefined)
        | some (.ptr sub) =>
          if b then
            (v.withValue (v.value.set seg (.ptr sub.SetLock)), .ok (.obj sub.SetLock.Value))
          else (v, .ok (.obj sub.Value))
        | some x => (v, .ok x) := by
  rw [values.getSegs]

theorem values.getSegs_cons (b : Bool) (v : values) (seg s2 : String) (r : List String) :
    values.getSegs b v (seg :: s2 :: r) =
      if !nameRegexMatch seg then (v, .err .invalidName)
      else match v.value.find? seg with
        | some (.ptr sub) =>
          ((v.withValue (v.value.set seg (.ptr (values.getSegs b sub (s2 :: r)).1))),
            (values.getSegs b sub (s2 :: r)).2)
        | some _ => (v, .err .cannotFind)
        | none => (v, .err .notDefined) := by
  rw [values.getSegs]
  simp

/-- A read without locking leaves the receiver as it is. -/
theorem values.getSegs_false_fst (segs : List String) :
    ∀ v : values, (values.getSegs false v segs).1 = v := by
  induction segs with
  | nil => intro v; rfl
  | cons seg rest ih =>
    intro v
    cases rest with
    | nil =>
      rw [values.getSegs_one]
      split
      · rfl
      · split <;> simp
    | cons s2 r =>
      rw [values.getSegs_cons]
      split
      · rfl
      · split
        · rename_i sub h
          simp only [ih sub]
          rw [Fields.set_of_find? h]
          simp
        · rfl
        · rfl

/-- A read that fails leaves the receiver as it is, with or without locking. -/
theorem values.getSegs_err_fst (b : Bool) (segs : List String) :
    ∀ (v : values) (e : Err), (values.getSegs b v segs).2 = .err e →
      (values.getSegs b v segs).1 = v := by
  induction segs with
  | nil => intro v e _; rfl
  | cons seg rest ih =>
    intro v e
    cases rest with
    | nil =>
      rw [values.getSegs_one]
      split
      · intro _; rfl
      · split
        · intro _; rfl
        · split <;> simp
        · intro _; rfl
    | cons s2 r =>
      rw [values.getSegs_cons]
      split
      · intro _; rfl
      · split
        · rename_i sub h
          intro h2
          simp only at h2
          simp only [ih sub e h2]
          rw [Fields.set_of_find? h]
          simp
        · intro _; rfl
        · intro _; rfl

/-- A read never panics. -/
theorem values.getSegs_ne_panic (b : Bool) (segs : List String) :
    ∀ v : values, (values.getSegs b v segs).2 ≠ .panic := by
  induction segs with
  | nil => intro v; simp [values.getSegs]
  | cons seg rest ih =>
    intro v
    cases rest with
    | nil =>
      rw [values.getSegs_one]
      split
      · simp
      · split
        · simp
        · split <;> simp
        · simp
    | cons s2 r =>
      rw [values.getSegs_cons]
      split
      · simp
      · split
        · exact ih _
        · simp
        · simp

/-- Locking does not change what a read returns. -/
theorem values.getSegs_lock_snd (segs : List String) :
    ∀ v : values, (values.getSegs true v segs).2 = (values.getSegs false v segs).2 := by
  induction segs with
  | nil => intro v; rfl
  | cons seg rest ih =>
    intro v
    cases rest with
    | nil =>
      rw [values.getSegs_one, values.getSegs_one]
      split
      · rfl
      · split
        · rfl
        · simp [values.Value_SetLock]
        · rfl
    | cons s2 r =>
      rw [values.getSegs_cons, values.getSegs_cons]
      split
      · rfl
      · split
        · exact ih _
        · rfl
        · rfl

/-- Reading with lock a second time changes nothing and returns the same. -/
theorem values.getSegs_true_idem (segs : List String) :
    ∀ v : values, values.getSegs true (values.getSegs true v segs).1 segs =
      values.getSegs true v segs := by
  induction segs with
  | nil => intro v; rfl
  | cons seg rest ih =>
    intro v
    cases rest with
    | nil =>
      by_cases hv : nameRegexMatch seg = true
      · cases hf : v.value.find? seg with
        | none => simp [values.getSegs_one, hv, hf]
        | some x =>
          cases x with
          | atom a => simp [values.getSegs_one, hv, hf]
          | obj m => simp [values.getSegs_one, hv, hf]
          | ptr sub => simp [values.getSegs_one, hv, hf, values.SetLock_SetLock]
      · simp [values.getSegs_one, hv]
    | cons s2 r =>
      by_cases hv : nameRegexMatch seg = true
      · cases hf : v.value.find? seg with
        | none => simp [values.getSegs_cons, hv, hf]
        | some x =>
          cases x with
          | atom a => simp [values.getSegs_cons, hv, hf]
          | obj m => simp [values.getSegs_cons, hv, hf]
          | ptr sub => simp [values.getSegs_cons, hv, hf, ih sub]
      · simp [values.getSegs_cons, hv]

/-! ## Lemmas on names -/

theorem splitDot_ne_nil (cs : List Char) : splitDot cs ≠ [] := by
  induction cs with
  | nil => simp [splitDot]
  | cons c cs ih =>
    unfold splitDot
    split
    · simp
    · split <;> simp

theorem splitDot_of_not_mem {cs : List Char} (h : '.' ∉ cs) : splitDot cs = [cs] := by
  induction cs with
  | nil => rfl
  | cons c cs ih =>
    simp only [List.mem_cons, not_or] at h
    have hc : ¬ c = '.' := fun e => h.1 e.symm
    simp [splitDot, hc, ih h.2]

theorem splitDot_append_dot (a b : List Char) :
    splitDot (a ++ '.' :: b) = splitDot a ++ splitDot b := by
  induction a with
  | nil => simp [splitDot]
  | cons c cs ih =>
    by_cases hc : c = '.'
    · simp [splitDot, hc, ih]
    · simp only [List.cons_append, splitDot, hc, if_false, ih]
      cases h : splitDot cs with
      | nil => exact absurd h (splitDot_ne_nil cs)
      | cons s ss => simp [ih, h]

theorem segments_ne_nil (name : String) : segments name ≠ [] := by
  simp [segments, splitDot_ne_nil]

/-- A name without a dot is its own single segment. -/
theorem segments_of_no_dot {k : String} (h : k.data.contains '.' = false) : segments k = [k] := by
  have h1 : '.' ∉ k.data := by simpa using h
  simp [segments, splitDot_of_not_mem h1]

theorem segments_of_segKey {k : String} (h : segKey k = true) : segments k = [k] := by
  simp only [segKey, Bool.and_eq_true, Bool.not_eq_true'] at h
  exact segments_of_no_dot h.2

theorem nameRegexMatch_of_segKey {k : String} (h : segKey k = true) : nameRegexMatch k = true := by
  simp only [segKey, Bool.and_eq_true] at h
  exact h.1

/-- The segments of `p.c` are those of `p` followed by those of `c`. -/
theorem segments_append_dot (p c : String) :
    segments (p ++ "." ++ c) = segments p ++ segments c := by
  have : (p ++ "." ++ c).data = p.data ++ '.' :: c.data := by
    simp [String.data_append]
  simp [segments, this, splitDot_append_dot]

/-! ## Lemmas on `Set` -/

theorem values.setWith_one (store : Res Any) (v : values) (seg : String) :
    values.setWith store v [seg] =
      if !nameRegexMatch seg then (v, .err .invalidName)
      else if v.locked then (v, .err .locked)
      else match v.value.find? seg with
        | some _ => (v, .err .alreadyDefined)
        | none =>
          match store with
          | .ok item => (v.withValue (v.value.set seg item), .ok ())
          | .err e => (v, .err (.failedToSet e))
          | .panic => (v, .panic) := by
  simp only [values.setWith]

theorem values.setWith_cons (store : Res Any) (v : values) (seg s2 : String) (r : List String) :
    values.setWith store v (seg :: s2 :: r) =
      if !nameRegexMatch seg then (v, .err .invalidName)
      else match v.value.find? seg with
        | some (.ptr sub) =>
          ((v.withValue (v.value.set seg (.ptr (values.setWith store sub (s2 :: r)).1))),
            (values.setWith store sub (s2 :: r)).2)
        | some _ => (v, .panic)
        | none =>
          ((v.withValue (v.value.set seg (.ptr (values.setWith store newSub (s2 :: r)).1))),
            (values.setWith store newSub (s2 :: r)).2) := by
  rw [values.setWith]
  simp

theorem Fields.append_nil (m : Fields) : m.append .nil = m := by
  induction m with
  | nil => rfl
  | cons k x rest ih => simp [Fields.append, ih]

theorem Fields.append_assoc (a b c : Fields) : (a.append b).append c = a.append (b.append c) := by
  induction a with
  | nil => rfl
  | cons k x rest ih => simp [Fields.append, ih]

theorem Fields.keys_append (a b : Fields) : (a.append b).keys = a.keys ++ b.keys := by
  induction a with
  | nil => rfl
  | cons k x rest ih => simp [Fields.append, Fields.keys, ih]

theorem Fields.set_of_not_mem {m : Fields} {k : String} (x : Any) (h : k ∉ m.keys) :
    m.set k x = m.append (.cons k x .nil) := by
  induction m with
  | nil => rfl
  | cons k1 x1 rest ih =>
    simp [Fields.keys] at h
    have h1 : ¬ k1 = k := fun e => h.1 e.symm
    simp [Fields.set, Fields.append, h1, ih h.2]

theorem Fields.exported_cons (k : String) (x : Any) (rest : Fields) :
    (Fields.cons k x rest).exported = .cons k x.read rest.exported := by
  cases x <;> simp [Fields.exported, Any.read]

theorem Fields.wfItems_cons (k : String) (x : Any) (rest : Fields) :
    (Fields.cons k x rest).wfItems =
      (segKey k && !rest.keys.contains k && x.wfItem && rest.wfItems) := by
  cases x <;> simp [Fields.wfItems, Any.wfItem]

theorem Fields.noLockItems_cons (k : String) (x : Any) (rest : Fields) :
    (Fields.cons k x rest).noLockItems = (x.noLockItem && rest.noLockItems) := by
  cases x <;> simp [Fields.noLockItems, Any.noLockItem]

theorem Fields.exported_append (a b : Fields) :
    (a.append b).exported = a.exported.append b.exported := by
  induction a with
  | nil => rfl
  | cons k x rest ih => simp [Fields.append, Fields.exported_cons, ih]

theorem Fields.keys_exported (m : Fields) : m.exported.keys = m.keys := by
  induction m with
  | nil => rfl
  | cons k x rest ih => simp [Fields.exported_cons, Fields.keys, ih]

theorem Fields.find?_exported (m : Fields) (k : String) :
    m.exported.find? k = (m.find? k).map Any.read := by
  induction m with
  | nil => rfl
  | cons k1 x rest ih =>
    by_cases h : k1 = k
    · simp [Fields.exported_cons, Fields.find?, h]
    · simp [Fields.exported_cons, Fields.find?, h, ih]

mutual
/-- Expanding a valid value succeeds; the item stored reads back as the value, is
well formed and holds no lock. -/
theorem Any.store_valid : ∀ x : Any, x.valid = true →
    ∃ item, x.store = .ok item ∧ item.read = x ∧ item.wfItem = true ∧ item.noLockItem = true
  | .atom a, _ => ⟨.atom a, rfl, rfl, rfl, rfl⟩
  | .ptr p, h => by simp [Any.valid] at h
  | .obj m, h => by
    have hm : m.valid = true := by simpa [Any.valid] using h
    obtain ⟨items, h1, h2, _, h4, h5⟩ :=
      Fields.setAll_valid m hm newSub rfl (by simp [newSub, values.value, Fields.keys])
    refine ⟨.ptr (newSub.withValue (newSub.value.append items)), ?_, ?_, ?_, ?_⟩
    · simp [Any.store, h1]
    · simp [Any.read, values.Value_eq, newSub, values.value, values.withValue, Fields.append, h2]
    · simp [Any.wfItem, newSub, values.withValue, values.value, Fields.append, values.wf, h4]
    · simp [Any.noLockItem, newSub, values.withValue, values.value, Fields.append,
        values.noLock, h5]
/-- Setting the fields of a valid map into an unlocked branch that has none of its
keys appends one item per field. -/
theorem Fields.setAll_valid : ∀ m : Fields, m.valid = true → ∀ sub : values,
    sub.locked = false → (∀ k ∈ m.keys, k ∉ sub.value.keys) →
    ∃ items, m.setAll sub = .ok (sub.withValue (sub.value.append items)) ∧
      items.exported = m ∧ items.keys = m.keys ∧ items.wfItems = true ∧
      items.noLockItems = true
  | .nil, _, sub, _, _ => ⟨.nil, by simp [Fields.setAll, Fields.append_nil], rfl, rfl, rfl, rfl⟩
  | .cons k x rest, h, sub, hl, hk => by
    simp only [Fields.valid, Bool.and_eq_true, Bool.not_eq_true'] at h
    obtain ⟨⟨⟨hseg, hnot⟩, hx⟩, hrest⟩ := h
    have hnot1 : k ∉ rest.keys := by simpa using hnot
    obtain ⟨item, hs, hr, hw, hn⟩ := Any.store_valid x hx
    have hk1 : k ∉ sub.value.keys := hk k (by simp [Fields.keys])
    have hf : sub.value.find? k = none := (Fields.find?_eq_none_iff _ _).2 hk1
    have hstep : values.setWith x.store sub (segments k) =
        (sub.withValue (sub.value.set k item), .ok ()) := by
      rw [segments_of_segKey hseg, values.setWith_one]
      simp [nameRegexMatch_of_segKey hseg, hl, hf, hs]
    have hk2 : ∀ k1 ∈ rest.keys, k1 ∉ (sub.withValue (sub.value.set k item)).value.keys := by
      intro k1 hk1m
      rw [values.withValue_value, Fields.mem_keys_set]
      rintro (e | e)
      · exact hnot1 (e ▸ hk1m)
      · exact hk k1 (by simp [Fields.keys, hk1m]) e
    obtain ⟨items, h1, h2, h3, h4, h5⟩ :=
      Fields.setAll_valid rest hrest (sub.withValue (sub.value.set k item)) (by simpa using hl) hk2
    refine ⟨.cons k item items, ?_, ?_, ?_, ?_, ?_⟩
    · simp only [Fields.setAll, hstep, h1]
      simp [Fields.set_of_not_mem item hk1, Fields.append_assoc, Fields.append]
    · simp [Fields.exported_cons, hr, h2]
    · simp [Fields.keys, h3]
    · rw [Fields.wfItems_cons]
      simp [hseg, h3, hnot1, hw, h4]
    · rw [Fields.noLockItems_cons]
      simp [hn, h5]
end


/-- After a successful `Set`, a second `Set` of the same name fails with
"already defined" and changes nothing. -/
theorem values.setWith_again (store store2 : Res Any) (segs : List String) :
    ∀ v : values, (values.setWith store v segs).2 = .ok () →
      values.setWith store2 (values.setWith store v segs).1 segs =
        ((values.setWith store v segs).1, .err .alreadyDefined) := by
  induction segs with
  | nil => intro v h; simp [values.setWith] at h
  | cons seg rest ih =>
    intro v
    cases rest with
    | nil =>
      by_cases hv : nameRegexMatch seg = true
      · cases hl : v.locked with
        | true => simp [values.setWith_one, hv, hl]
        | false =>
          cases hf : v.value.find? seg with
          | some x => simp [values.setWith_one, hv, hl, hf]
          | none =>
            cases store with
            | ok item => simp [values.setWith_one, hv, hl, hf]
            | err e => simp [values.setWith_one, hv, hl, hf]
            | panic => simp [values.setWith_one, hv, hl, hf]
      · simp [values.setWith_one, hv]
    | cons s2 r =>
      by_cases hv : nameRegexMatch seg = true
      · cases hf : v.value.find? seg with
        | none =>
          intro h
          simp only [values.setWith_cons, hv, hf, Bool.not_true, Bool.false_eq_true, if_false] at h ⊢
          simp [ih newSub h]
        | some x =>
          cases x with
          | atom a => simp [values.setWith_cons, hv, hf]
          | obj m => simp [values.setWith_cons, hv, hf]
          | ptr sub =>
            intro h
            simp only [values.setWith_cons, hv, hf, Bool.not_true, Bool.false_eq_true, if_false] at h ⊢
            simp [ih sub h]
      · simp [values.setWith_cons, hv]

/-- After a successful `Set`, a read of the same name returns what was stored. -/
theorem values.setWith_get (store : Res Any) (segs : List String) :
    ∀ v : values, (values.setWith store v segs).2 = .ok () →
      ∃ item, store = .ok item ∧
        (values.getSegs false (values.setWith store v segs).1 segs).2 = .ok item.read := by
  induction segs with
  | nil => intro v h; simp [values.setWith] at h
  | cons seg rest ih =>
    intro v
    cases rest with
    | nil =>
      by_cases hv : nameRegexMatch seg = true
      · cases hl : v.locked with
        | true => simp [values.setWith_one, hv, hl]
        | false =>
          cases hf : v.value.find? seg with
          | some x => simp [values.setWith_one, hv, hl, hf]
          | none =>
            cases store with
            | ok item =>
              cases item <;> simp [values.setWith_one, values.getSegs_one, hv, hl, hf, Any.read]
            | err e => simp [values.setWith_one, hv, hl, hf]
            | panic => simp [values.setWith_one, hv, hl, hf]
      · simp [values.setWith_one, hv]
    | cons s2 r =>
      by_cases hv : nameRegexMatch seg = true
      · cases hf : v.value.find? seg with
        | none =>
          intro h
          simp only [values.setWith_cons, hv, hf, Bool.not_true, Bool.false_eq_true, if_false] at h ⊢
          obtain ⟨item, h1, h2⟩ := ih newSub h
          exact ⟨item, h1, by simp [values.getSegs_cons, hv, h2]⟩
        | some x =>
          cases x with
          | atom a => simp [values.setWith_cons, hv, hf]
          | obj m => simp [values.setWith_cons, hv, hf]
          | ptr sub =>
            intro h
            simp only [values.setWith_cons, hv, hf, Bool.not_true, Bool.false_eq_true, if_false] at h ⊢
            obtain ⟨item, h1, h2⟩ := ih sub h
            exact ⟨item, h1, by simp [values.getSegs_cons, hv, h2]⟩
      · simp [values.setWith_cons, hv]


/-! ## Lemmas on locks -/

theorem values.getSegs_cons_ne (b : Bool) (v : values) (seg : String) {rest : List String}
    (h : rest ≠ []) :
    values.getSegs b v (seg :: rest) =
      if !nameRegexMatch seg then (v, .err .invalidName)
      else match v.value.find? seg with
        | some (.ptr sub) =>
          ((v.withValue (v.value.set seg (.ptr (values.getSegs b sub rest).1))),
            (values.getSegs b sub rest).2)
        | some _ => (v, .err .cannotFind)
        | none => (v, .err .notDefined) := by
  cases rest with
  | nil => exact absurd rfl h
  | cons s2 r => exact values.getSegs_cons b v seg s2 r

theorem values.setWith_cons_ne (store : Res Any) (v : values) (seg : String)
    {rest : List String} (h : rest ≠ []) :
    values.setWith store v (seg :: rest) =
      if !nameRegexMatch seg then (v, .err .invalidName)
      else match v.value.find? seg with
        | some (.ptr sub) =>
          ((v.withValue (v.value.set seg (.ptr (values.setWith store sub rest).1))),
            (values.setWith store sub rest).2)
        | some _ => (v, .panic)
        | none =>
          ((v.withValue (v.value.set seg (.ptr (values.setWith store newSub rest).1))),
            (values.setWith store newSub rest).2) := by
  cases rest with
  | nil => exact absurd rfl h
  | cons s2 r => exact values.setWith_cons store v seg s2 r

theorem values.wf_eq (v : values) : v.wf = v.value.wfItems := by
  cases v; rfl

theorem values.noLock_eq (v : values) : v.noLock = (!v.locked && v.value.noLockItems) := by
  cases v; rfl

theorem Fields.wfItem_of_find? {m : Fields} {k : String} {x : Any}
    (hm : m.wfItems = true) (h : m.find? k = some x) : x.wfItem = true := by
  induction m with
  | nil => simp [Fields.find?] at h
  | cons k1 x1 rest ih =>
    rw [Fields.wfItems_cons] at hm
    simp only [Bool.and_eq_true] at hm
    by_cases h1 : k1 = k
    · simp [Fields.find?, h1] at h
      exact h ▸ hm.1.2
    · simp [Fields.find?, h1] at h
      exact ih hm.2 h

theorem Fields.noLockItem_of_find? {m : Fields} {k : String} {x : Any}
    (hm : m.noLockItems = true) (h : m.find? k = some x) : x.noLockItem = true := by
  induction m with
  | nil => simp [Fields.find?] at h
  | cons k1 x1 rest ih =>
    rw [Fields.noLockItems_cons] at hm
    simp only [Bool.and_eq_true] at hm
    by_cases h1 : k1 = k
    · simp [Fields.find?, h1] at h
      exact h ▸ hm.1
    · simp [Fields.find?, h1] at h
      exact ih hm.2 h

/-- A read does not change the lock flag of the receiver itself. -/
theorem values.getSegs_locked (b : Bool) (segs : List String) (v : values) :
    (values.getSegs b v segs).1.locked = v.locked := by
  cases segs with
  | nil => rfl
  | cons seg rest =>
    cases rest with
    | nil =>
      rw [values.getSegs_one]
      split
      · rfl
      · split
        · rfl
        · split <;> simp
        · rfl
    | cons s2 r =>
      rw [values.getSegs_cons]
      split
      · rfl
      · split <;> simp

/-- After a read with lock that returned a mapping, `Set` of one more segment below
the name is refused. -/
theorem values.getSegs_lock_set_child (store : Res Any) (c : String) (segs : List String) :
    ∀ (t : values) (m : Fields), t.wf = true →
      (values.getSegs true t segs).2 = .ok (.obj m) →
      (values.setWith store (values.getSegs true t segs).1 (segs ++ [c])).2 =
        if nameRegexMatch c then .err .locked else .err .invalidName := by
  induction segs with
  | nil => intro t m _ h; simp [values.getSegs] at h
  | cons seg rest ih =>
    intro t m hwf
    rw [values.wf_eq] at hwf
    cases rest with
    | nil =>
      by_cases hv : nameRegexMatch seg = true
      · cases hf : t.value.find? seg with
        | none => simp [values.getSegs_one, hv, hf]
        | some x =>
          have hx := Fields.wfItem_of_find? hwf hf
          cases x with
          | atom a => simp [values.getSegs_one, hv, hf]
          | obj o => simp [Any.wfItem] at hx
          | ptr sub =>
            intro _
            by_cases hc : nameRegexMatch c = true
            · simp [values.getSegs_one, values.setWith_cons, values.setWith_one, hv, hf, hc]
            · simp [values.getSegs_one, values.setWith_cons, values.setWith_one, hv, hf, hc]
      · simp [values.getSegs_one, hv]
    | cons s2 r =>
      by_cases hv : nameRegexMatch seg = true
      · cases hf : t.value.find? seg with
        | none => simp [values.getSegs_cons, hv, hf]
        | some x =>
          have hx := Fields.wfItem_of_find? hwf hf
          cases x with
          | atom a => simp [values.getSegs_cons, hv, hf]
          | obj o => simp [Any.wfItem] at hx
          | ptr sub =>
            intro h
            simp only [values.getSegs_cons, hv, hf, Bool.not_true, Bool.false_eq_true,
              if_false] at h ⊢
            have := ih sub m (by simpa [Any.wfItem] using hx) h
            simpa [values.setWith_cons, hv] using this
      · simp [values.getSegs_cons, hv]

/-- After a read with lock in a tree without locks, `Set` of a leaf at a new name next
to the name that was read succeeds. -/
theorem values.getSegs_lock_set_sibling (a : Atom) (k c : String) (hc : nameRegexMatch c = true)
    (par : List String) :
    ∀ (t : values) (x : Any), t.noLock = true →
      (values.getSegs true t (par ++ [k])).2 = .ok x →
      (∀ y, (values.getSegs false (values.getSegs true t (par ++ [k])).1 (par ++ [c])).2 ≠ .ok y) →
      (values.setWith (.ok (.atom a)) (values.getSegs true t (par ++ [k])).1 (par ++ [c])).2 =
        .ok () := by
  induction par with
  | nil =>
    intro t x hnl _ hnew
    rw [values.noLock_eq] at hnl
    simp only [Bool.and_eq_true, Bool.not_eq_true'] at hnl
    simp only [List.nil_append] at hnew ⊢
    have hl := values.getSegs_locked true [k] t
    rw [hnl.1] at hl
    generalize (values.getSegs true t [k]).1 = T at hl hnew ⊢
    cases hf : T.value.find? c with
    | none => simp [values.setWith_one, hc, hl, hf]
    | some y =>
      exfalso
      cases y with
      | atom b => exact hnew (.atom b) (by simp [values.getSegs_one, hc, hf])
      | obj o => exact hnew (.obj o) (by simp [values.getSegs_one, hc, hf])
      | ptr sub => exact hnew (.obj sub.Value) (by simp [values.getSegs_one, hc, hf])
  | cons q par ih =>
    intro t x hnl
    rw [values.noLock_eq] at hnl
    simp only [Bool.and_eq_true, Bool.not_eq_true'] at hnl
    have hk : par ++ [k] ≠ [] := by simp
    have hcne : par ++ [c] ≠ [] := by simp
    simp only [List.cons_append]
    by_cases hv : nameRegexMatch q = true
    · cases hf : t.value.find? q with
      | none => simp [values.getSegs_cons_ne _ _ _ hk, hv, hf]
      | some y =>
        have hy := Fields.noLockItem_of_find? hnl.2 hf
        cases y with
        | atom b => simp [values.getSegs_cons_ne _ _ _ hk, hv, hf]
        | obj o => simp [values.getSegs_cons_ne _ _ _ hk, hv, hf]
        | ptr sub =>
          intro h hnew
          simp only [values.getSegs_cons_ne _ _ _ hk, hv, hf, Bool.not_true, Bool.false_eq_true,
            if_false] at h hnew ⊢
          simp only [values.getSegs_cons_ne _ _ _ hcne, values.setWith_cons_ne _ _ _ hcne, hv,
            values.withValue_value, Fields.find?_set_self, Bool.not_true, Bool.false_eq_true,
            if_false] at hnew ⊢
          exact ih sub x (by simpa [Any.noLockItem] using hy) h hnew
    · simp [values.getSegs_cons_ne _ _ _ hk, hv]

/-! ## C1: set-once -/

/-- C1, as stated, fails: `Set("x", {"a.b": 1})` on an empty tree succeeds, and `Get("x")`
then returns `{"a": {"b": 1}}`, which is not the value that was set. -/
theorem c1_counterexample_dotted_key :
    (emptyTree.Set "x" objDottedKey).2 = .ok () ∧
    (emptyTree.Set "x" objDottedKey).1.Get "x" =
      (.obj (.cons "a" (.obj (.cons "b" (intVal 1) .nil)) .nil), true) ∧
    (emptyTree.Set "x" objDottedKey).1.Get "x" ≠ (objDottedKey, true) := by
  decide

/-- C1 (amended): if `Set(p, v1)` succeeds on a tree then every following `Set(p, v2)`
returns the error "already defined" and leaves the tree as it is, and, when the keys of
`v1` are at every level grammar-valid single segments, `Get(p)` returns `(v1, true)`. -/
theorem c1_set_once (t t1 : values) (p : String) (v1 : Any)
    (h : t.Set p v1 = (t1, .ok ())) :
    (∀ v2 : Any, t1.Set p v2 = (t1, .err .alreadyDefined)) ∧
    (v1.valid = true → t1.Get p = (v1, true)) := by
  have h1 : (values.setWith v1.store t (segments p)).1 = t1 := congrArg Prod.fst h
  have h2 : (values.setWith v1.store t (segments p)).2 = .ok () := congrArg Prod.snd h
  constructor
  · intro v2
    have := values.setWith_again v1.store v2.store (segments p) t h2
    rw [h1] at this
    exact this
  · intro hv
    obtain ⟨item, hs, hg⟩ := values.setWith_get v1.store (segments p) t h2
    obtain ⟨item1, hs1, hr, _, _⟩ := Any.store_valid v1 hv
    rw [hs1] at hs
    cases hs
    rw [h1] at hg
    simp [values.Get, values.GetWithLock, hg, hr]

/-- C1 (witness): `Set("d", {"one": 1, "two": 2, "three": 3})` on an empty tree. -/
theorem c1_set_once_witness :
    (∀ v2 : Any, (emptyTree.Set "d" objOneTwoThree).1.Set "d" v2 =
      ((emptyTree.Set "d" objOneTwoThree).1, .err .alreadyDefined)) ∧
    (objOneTwoThree.valid = true →
      (emptyTree.Set "d" objOneTwoThree).1.Get "d" = (objOneTwoThree, true)) :=
  c1_set_once emptyTree (emptyTree.Set "d" objOneTwoThree).1 "d" objOneTwoThree (by decide)

/-! ## C2: a locked branch can still be extended -/

/-- C2: the code at the failing input. After `Set("p.a", 1)` and `GetAndLock("p")`, which
returns `{"a": 1}`, the call `Set("p.x.y", 2)` returns no error and `Get("p")` then
returns `{"a": 1, "x": {"y": 2}}`; `Set("p.x", 2)` is refused as locked. -/
theorem c2_set_below_locked_branch :
    (treePA.GetAndLock "p").2 = .ok (.obj (.cons "a" (intVal 1) .nil)) ∧
    treePALocked.Get "p" = (.obj (.cons "a" (intVal 1) .nil), true) ∧
    (treePALocked.Set "p.x" (intVal 2)).2 = .err .locked ∧
    (treePALocked.Set "p.x.y" (intVal 2)).2 = .ok () ∧
    (treePALocked.Set "p.x.y" (intVal 2)).1.Get "p" =
      (.obj (.cons "a" (intVal 1) (.cons "x" (.obj (.cons "y" (intVal 2) .nil)) .nil)), true) := by
  decide


/-! ## C3: lock propagation -/

/-- C3: in a tree without locks, after `GetAndLock(p)` has returned a mapping, `Set` of
`p.c` for a single segment `c` returns an error for every value (locked, or invalid
name when `c` is no valid segment), while `Set` of a leaf at a new name `s` that has
the same parent as `p` succeeds. -/
theorem c3_lock_propagation (t t1 : values) (p : String) (m : Fields)
    (hwf : t.wf = true) (hnl : t.noLock = true)
    (hget : t.GetAndLock p = (t1, .ok (.obj m))) :
    (∀ (c : String) (v : Any), c.data.contains '.' = false →
      (t1.Set (p ++ "." ++ c) v).2 =
        if nameRegexMatch c then .err .locked else .err .invalidName) ∧
    (∀ (s : String) (par : List String) (k c : String) (a : Atom),
      segments p = par ++ [k] → segments s = par ++ [c] → nameRegexMatch c = true →
      (t1.Get s).2 = false → (t1.Set s (.atom a)).2 = .ok ()) := by
  have h1 : (values.getSegs true t (segments p)).1 = t1 := congrArg Prod.fst hget
  have h2 : (values.getSegs true t (segments p)).2 = .ok (.obj m) := congrArg Prod.snd hget
  constructor
  · intro c v hc
    have := values.getSegs_lock_set_child v.store c (segments p) t m hwf h2
    rw [h1] at this
    simpa [values.Set, segments_append_dot, segments_of_no_dot hc] using this
  · intro s par k c a hp hs hc hnew
    rw [hp] at h1 h2
    have hnew1 : ∀ y, (values.getSegs false t1 (par ++ [c])).2 ≠ .ok y := by
      intro y hy
      simp [values.Get, values.GetWithLock, hs, hy] at hnew
    rw [← h1] at hnew1
    have := values.getSegs_lock_set_sibling a k c hc par t _ hnl h2 hnew1
    rw [h1] at this
    simpa [values.Set, hs, Any.store] using this

/-- C3 (witness): the tree with `s.p.a = 1`; after `GetAndLock("s.p")`, `Set("s.p.b", 2)`
is refused and `Set("s.q", 5)` succeeds. -/
theorem c3_lock_propagation_witness :
    ((treeSPA.GetAndLock "s.p").1.Set ("s.p" ++ "." ++ "b") (intVal 2)).2 =
      (if nameRegexMatch "b" then .err .locked else .err .invalidName) ∧
    ((treeSPA.GetAndLock "s.p").1.Set "s.q" (.atom (.int 5))).2 = .ok () :=
  ⟨(c3_lock_propagation treeSPA (treeSPA.GetAndLock "s.p").1 "s.p" (.cons "a" (intVal 1) .nil)
      (by decide) (by decide) (by decide)).1 "b" (intVal 2) (by decide),
   (c3_lock_propagation treeSPA (treeSPA.GetAndLock "s.p").1 "s.p" (.cons "a" (intVal 1) .nil)
      (by decide) (by decide) (by decide)).2 "s.q" ["s"] "p" "q" (.int 5)
      (by decide) (by decide) (by decide) (by decide)⟩

/-! ## C4: a resolved value changes -/

/-- C4: the code at the failing input. With the default `p.a = 1`, `Get("p")` returns
`({"a": 1}, true)`; then `SetDefault("p.x.y", 2)` and `Get("p.x.y")` both return
normally, and `Get("p")` now returns `({"a": 1, "x": {"y": 2}}, true)`. -/
theorem c4_resolved_value_changes :
    (Get statePA "p").2 = .ok (.obj (.cons "a" (intVal 1) .nil), true) ∧
    (SetDefault statePAGot "p.x.y" (intVal 2)).2 = .ok () ∧
    (Get statePAGotXY "p.x.y").2 = .ok (intVal 2, true) ∧
    (Get (Get statePAGotXY "p.x.y").1 "p").2 =
      .ok (.obj (.cons "a" (intVal 1) (.cons "x" (.obj (.cons "y" (intVal 2) .nil)) .nil)),
        true) := by
  decide

/-! ## C5: idempotent resolution -/

theorem State.eta_defined (st : State) : { st with defined := st.defined } = st := by
  cases st; rfl

/-- A name that the cache holds is answered from the cache, and the state stays as
it is when the read with lock changes nothing. -/
theorem Get_of_hit {st : State} {n : String} {x : Any}
    (h : st.defined.GetAndLock n = (st.defined, .ok x)) : Get st n = (st, .ok (x, true)) := by
  simp [Get, h, State.eta_defined]

/-- After the copy to the cache has returned, the cache answers the name, and the
read with lock changes nothing any more. -/
theorem defineAndLock_hit {st st1 : State} {n : String} {v x : Any} {b : Bool}
    (h : defineAndLock st n v = (st1, .ok (x, b))) :
    b = true ∧ st1.defined.GetAndLock n = (st1.defined, .ok x) := by
  unfold defineAndLock at h
  cases hs : st.defined.Set n v with
  | mk d r =>
    rw [hs] at h
    cases r with
    | err e => simp at h
    | panic => simp at h
    | ok u =>
      have hs2 : (values.setWith v.store st.defined (segments n)).2 = .ok () :=
        congrArg Prod.snd hs
      have hs1 : (values.setWith v.store st.defined (segments n)).1 = d :=
        congrArg Prod.fst hs
      obtain ⟨item, _, hg⟩ := values.setWith_get v.store (segments n) st.defined hs2
      rw [hs1, ← values.getSegs_lock_snd] at hg
      have hidem := values.getSegs_true_idem (segments n) d
      cases hd : d.GetAndLock n with
      | mk d1 r1 =>
        have hd1 : (values.getSegs true d (segments n)).1 = d1 := congrArg Prod.fst hd
        have hd2 : (values.getSegs true d (segments n)).2 = r1 := congrArg Prod.snd hd
        rw [hd1] at hidem
        rw [hg] at hd2
        subst hd2
        simp only [hd] at h
        simp only [Prod.mk.injEq, Res.ok.injEq] at h
        obtain ⟨h1, h2, h3⟩ := h
        subst h1
        subst h2
        refine ⟨h3.symm, ?_⟩
        simp only [values.GetAndLock, values.GetWithLock]
        rw [hidem]
        exact Prod.ext hd1 hg

/-- Whenever `Get` returns a value, the cache answers the name afterwards. -/
theorem Get_found_hit {st st1 : State} {n : String} {v : Any}
    (h : Get st n = (st1, .ok (v, true))) :
    st1.defined.GetAndLock n = (st1.defined, .ok v) := by
  unfold Get at h
  cases hg : st.defined.GetAndLock n with
  | mk d r =>
    have hidem := values.getSegs_true_idem (segments n) st.defined
    have hg1 : (values.getSegs true st.defined (segments n)).1 = d := congrArg Prod.fst hg
    have hg2 : (values.getSegs true st.defined (segments n)).2 = r := congrArg Prod.snd hg
    rw [hg] at h
    have key : ∀ (r0 : State × Res (Any × Bool)),
        (match scanSources n st.sources with
          | (srcs, some v) =>
            match mergeWithDefaults st.defaults n v with
            | .ok v1 => defineAndLock { st with defined := d, sources := srcs } n v1
            | _ => ({ st with defined := d, sources := srcs }, .panic)
          | (srcs, none) =>
            match st.defaults.Get n with
            | (v, true) => defineAndLock { st with defined := d, sources := srcs } n v
            | _ => ({ st with defined := d, sources := srcs }, .ok (.atom .null, false))) = r0 →
        r0 = (st1, .ok (v, true)) → st1.defined.GetAndLock n = (st1.defined, .ok v) := by
      intro r0 hr0 he
      subst he
      cases hsc : scanSources n st.sources with
      | mk srcs o =>
        rw [hsc] at hr0
        cases o with
        | some v0 =>
          simp only at hr0
          cases hm : mergeWithDefaults st.defaults n v0 with
          | ok v1 =>
            rw [hm] at hr0
            exact (defineAndLock_hit hr0).2
          | err e => rw [hm] at hr0; simp at hr0
          | panic => rw [hm] at hr0; simp at hr0
        | none =>
          simp only at hr0
          cases hdf : st.defaults.Get n with
          | mk v2 b =>
            rw [hdf] at hr0
            cases b with
            | true => exact (defineAndLock_hit hr0).2
            | false => simp at hr0
    cases r with
    | ok x =>
      simp only [Prod.mk.injEq, Res.ok.injEq] at h
      obtain ⟨h1, h2, _⟩ := h
      subst h1
      subst h2
      simp only [values.GetAndLock, values.GetWithLock]
      rw [← hg1, hidem]
      exact Prod.ext rfl hg2
    | err e => exact key _ rfl h
    | panic => exact key _ rfl h

/-- C5, as stated, fails: with one source that does not have the name and no default,
`Get("a")` returns `(nil, false)` and asks the source; a second `Get("a")` asks the
source again. -/
theorem c5_counterexample_asked_twice :
    (Get stateEmptySource "a").2 = .ok (.atom .null, false) ∧
    (Get stateEmptySource "a").1.sources.map ISource.asked = [["a"]] ∧
    (Get (Get stateEmptySource "a").1 "a").1.sources.map ISource.asked = [["a", "a"]] := by
  decide

/-- C5 (amended): if `Get(n)` returns `(v, true)` then a second `Get(n)` right after it
returns `(v, true)` again and leaves the package state as it is; in particular no source
is asked. -/
theorem c5_idempotent_resolution (st st1 : State) (n : String) (v : Any)
    (h : Get st n = (st1, .ok (v, true))) : Get st1 n = (st1, .ok (v, true)) :=
  Get_of_hit (Get_found_hit h)

/-- C5 (witness): `Get("p")` with the default `p.a = 1`, called twice. -/
theorem c5_idempotent_resolution_witness :
    (Get (Get statePA "p").1 "p").2 = .ok (.obj (.cons "a" (intVal 1) .nil), true) :=
  congrArg Prod.snd (c5_idempotent_resolution statePA (Get statePA "p").1 "p"
    (.obj (.cons "a" (intVal 1) .nil)) (Prod.ext rfl (by decide)))


/-! ## Lemmas on `NewValues` and `Merge` -/

theorem not_mem_of_contains_false {l : List String} {k : String}
    (h : l.contains k = false) : k ∉ l := by
  simpa using h

theorem Any.store_of_wfItem {x : Any} (h : x.wfItem = true) : x.store = .ok x := by
  cases x with
  | atom a => rfl
  | obj m => simp [Any.wfItem] at h
  | ptr p => rfl

theorem Fields.wfItems_erase (k : String) (m : Fields) (h : m.wfItems = true) :
    (m.erase k).wfItems = true := by
  induction m with
  | nil => rfl
  | cons k1 x rest ih =>
    rw [Fields.wfItems_cons] at h
    simp only [Bool.and_eq_true, Bool.not_eq_true'] at h
    obtain ⟨⟨⟨h1, h2⟩, h3⟩, h4⟩ := h
    by_cases hk : k1 = k
    · simp [Fields.erase, hk, ih h4]
    · simp only [Fields.erase, hk, if_false]
      rw [Fields.wfItems_cons]
      have : k1 ∉ (rest.erase k).keys := by
        rw [Fields.mem_keys_erase]
        intro hh
        simp [hh.2] at h2
      simp [h1, h3, ih h4, this]

theorem Fields.wfItems_set {k : String} {x : Any} (m : Fields) (h : m.wfItems = true)
    (hk : segKey k = true) (hx : x.wfItem = true) : (m.set k x).wfItems = true := by
  induction m with
  | nil =>
    simp only [Fields.set]
    rw [Fields.wfItems_cons]
    simp [hk, hx, Fields.keys, Fields.wfItems]
  | cons k1 x1 rest ih =>
    rw [Fields.wfItems_cons] at h
    simp only [Bool.and_eq_true, Bool.not_eq_true'] at h
    obtain ⟨⟨⟨h1, h2⟩, h3⟩, h4⟩ := h
    by_cases hk1 : k1 = k
    · subst hk1
      simp only [Fields.set, if_true]
      rw [Fields.wfItems_cons]
      simp [h1, not_mem_of_contains_false h2, hx, h4]
    · simp only [Fields.set, hk1, if_false]
      rw [Fields.wfItems_cons]
      have : k1 ∉ (rest.set k x).keys := by
        rw [Fields.mem_keys_set]
        rintro (e | e)
        · exact hk1 e
        · simp [e] at h2
      simp [h1, h3, ih h4, this]

mutual
/-- The materialised mapping of a well-formed tree is a valid value. -/
theorem values.Value_valid : ∀ v : values, v.wf = true → v.Value.valid = true
  | .mk m l, h => by
    simp only [values.wf] at h
    simp only [values.Value]
    exact Fields.exported_valid m h
theorem Fields.exported_valid : ∀ m : Fields, m.wfItems = true → m.exported.valid = true
  | .nil, _ => rfl
  | .cons k (.atom a) rest, h => by
    simp only [Fields.wfItems, Bool.and_eq_true, Bool.not_eq_true'] at h
    simp [Fields.exported, Fields.valid, Any.valid, h.1.1, not_mem_of_contains_false h.1.2,
      Fields.keys_exported, Fields.exported_valid rest h.2]
  | .cons k (.obj o) rest, h => by simp [Fields.wfItems] at h
  | .cons k (.ptr sub) rest, h => by
    simp only [Fields.wfItems, Bool.and_eq_true, Bool.not_eq_true'] at h
    simp [Fields.exported, Fields.valid, Any.valid, h.1.1.1,
      not_mem_of_contains_false h.1.1.2, Fields.keys_exported,
      Fields.exported_valid rest h.2, values.Value_valid sub h.1.2]
end

theorem newValuesLoop_of_setAll (m : Fields) : ∀ (v v1 : values),
    m.setAll v = .ok v1 → newValuesLoop m v = .ok v1 := by
  induction m with
  | nil => intro v v1 h; simpa [Fields.setAll, newValuesLoop] using h
  | cons k x rest ih =>
    intro v v1 h
    simp only [Fields.setAll] at h
    simp only [newValuesLoop, values.Set]
    cases hs : values.setWith x.store v (segments k) with
    | mk v2 r =>
      rw [hs] at h
      cases r with
      | ok u => exact ih v2 v1 h
      | err e => simp at h
      | panic => simp at h

/-- `NewValues` of a valid map returns an unlocked well-formed tree that
materialises to the map. -/
theorem NewValues_valid (m : Fields) (h : m.valid = true) :
    ∃ items, NewValues m = .ok (.mk items false) ∧ items.exported = m ∧
      items.keys = m.keys ∧ items.wfItems = true := by
  obtain ⟨items, h1, h2, h3, h4, _⟩ :=
    Fields.setAll_valid m h (.mk .nil false) rfl (by simp [values.value, Fields.keys])
  exact ⟨items, by simpa [NewValues, values.withValue, values.value, Fields.append] using
    newValuesLoop_of_setAll m _ _ h1, h2, h3, h4⟩

theorem values.delSegs_one (v : values) (seg : String) :
    values.delSegs v [seg] =
      if !nameRegexMatch seg then (v, .err .invalidName)
      else if v.locked then (v, .err .lockedDel)
      else (v.withValue (v.value.erase seg), .ok ()) := by
  simp only [values.delSegs]

/-- The loop of `Merge` over well-formed items into an unlocked tree: every key of
the items is replaced, every other key is kept. -/
theorem mergeLoop_spec (items : Fields) : ∀ v : values, items.wfItems = true →
    v.locked = false → v.value.wfItems = true →
    ∃ F, mergeLoop items v = .ok (v.withValue F) ∧ F.wfItems = true ∧
      ∀ k, F.find? k = match items.find? k with
        | some x => some x
        | none => v.value.find? k := by
  induction items with
  | nil =>
    intro v _ _ hw
    exact ⟨v.value, by simp [mergeLoop], hw, by simp [Fields.find?]⟩
  | cons bn bv rest ih =>
    intro v h hl hw
    rw [Fields.wfItems_cons] at h
    simp only [Bool.and_eq_true, Bool.not_eq_true'] at h
    obtain ⟨⟨⟨h1, h2⟩, h3⟩, h4⟩ := h
    have hreg := nameRegexMatch_of_segKey h1
    have hdel : v.Del bn = (v.withValue (v.value.erase bn), .ok ()) := by
      simp [values.Del, segments_of_segKey h1, values.delSegs_one, hreg, hl]
    have hset : (v.withValue (v.value.erase bn)).Set bn bv =
        (v.withValue ((v.value.erase bn).set bn bv), .ok ()) := by
      simp [values.Set, segments_of_segKey h1, values.setWith_one, hreg, hl,
        Any.store_of_wfItem h3]
    obtain ⟨F, hF, hFw, hFf⟩ := ih (v.withValue ((v.value.erase bn).set bn bv)) h4
      (by simpa using hl)
      (by simpa using Fields.wfItems_set _ (Fields.wfItems_erase bn _ hw) h1 h3)
    refine ⟨F, ?_, hFw, ?_⟩
    · simp only [mergeLoop, hdel, hset]
      simpa using hF
    · intro k
      rw [hFf k]
      by_cases hk : bn = k
      · subst hk
        have : rest.find? bn = none := by
          rw [Fields.find?_eq_none_iff]
          intro hm
          simp [hm] at h2
        simp [Fields.find?, this]
      · have hk1 : k ≠ bn := fun e => hk e.symm
        simp only [Fields.find?, hk, if_false, values.withValue_value]
        cases rest.find? k with
        | some y => rfl
        | none =>
          simp only
          rw [Fields.find?_set_ne _ _ hk1, Fields.find?_erase_ne _ hk1]

theorem Fields.mem_keys_iff_find? (m : Fields) (k : String) :
    k ∈ m.keys ↔ ∃ x, m.find? k = some x := by
  rw [← not_iff_not, ← Fields.find?_eq_none_iff]
  cases m.find? k <;> simp

/-- What `mergedObj` returns on valid maps. -/
theorem mergedObj_valid (a b : Fields) (ha : a.valid = true) (hb : b.valid = true) :
    ∃ m, mergedObj a b = .ok m ∧ m.valid = true ∧
      (∀ k, m.find? k = match b.find? k with
        | some x => some x
        | none => a.find? k) := by
  obtain ⟨ia, hna, hea, _, hwa⟩ := NewValues_valid a ha
  obtain ⟨ib, hnb, heb, _, hwb⟩ := NewValues_valid b hb
  obtain ⟨F, hF, hFw, hFf⟩ := mergeLoop_spec ib (.mk ia false) hwb rfl hwa
  refine ⟨F.exported, ?_, Fields.exported_valid F hFw, ?_⟩
  · simp [mergedObj, hna, hnb, values.Merge, values.value, hF, values.withValue, values.Value]
  · intro k
    rw [Fields.find?_exported, hFf k, ← heb, ← hea, Fields.find?_exported,
      Fields.find?_exported]
    simp only [values.value]
    cases ib.find? k <;> rfl


/-! ## `Set` builds well-formed trees -/

theorem splitDot_no_dot (cs : List Char) : ∀ s ∈ splitDot cs, '.' ∉ s := by
  induction cs with
  | nil => intro s hs; simp [splitDot] at hs; simp [hs]
  | cons c cs ih =>
    intro s hs
    by_cases hc : c = '.'
    · simp only [splitDot, hc, if_true, List.mem_cons] at hs
      rcases hs with hs | hs
      · simp [hs]
      · exact ih s hs
    · simp only [splitDot, hc, if_false] at hs
      cases h : splitDot cs with
      | nil => exact absurd h (splitDot_ne_nil cs)
      | cons s1 ss =>
        rw [h] at hs ih
        simp only [List.mem_cons] at hs
        rcases hs with hs | hs
        · subst hs
          have := ih s1 (by simp)
          simp only [List.mem_cons, not_or]
          exact ⟨fun e => hc e.symm, this⟩
        · exact ih s (by simp [hs])

theorem segments_no_dot (name : String) : ∀ s ∈ segments name, s.data.contains '.' = false := by
  intro s hs
  simp only [segments, List.mem_map] at hs
  obtain ⟨cs, hcs, rfl⟩ := hs
  simpa using splitDot_no_dot name.data cs hcs

theorem values.wf_newSub : newSub.wf = true := rfl

/-- Writing well-formed items along a path of segments keeps a tree well formed. -/
theorem values.setWith_wf (store : Res Any) (hstore : ∀ item, store = .ok item → item.wfItem = true)
    (segs : List String) (hsegs : ∀ s ∈ segs, s.data.contains '.' = false) :
    ∀ v : values, v.wf = true → (values.setWith store v segs).1.wf = true := by
  induction segs with
  | nil => intro v h; exact h
  | cons seg rest ih =>
    intro v h
    have hdot : seg.data.contains '.' = false := hsegs seg (by simp)
    have hrest : ∀ s ∈ rest, s.data.contains '.' = false := fun s hs => hsegs s (by simp [hs])
    have hw := h
    rw [values.wf_eq] at hw
    have hsk : nameRegexMatch seg = true → segKey seg = true := by
      intro h1
      simp only [segKey, h1, hdot, Bool.not_false, Bool.and_self]
    cases rest with
    | nil =>
      rw [values.setWith_one]
      by_cases hv : nameRegexMatch seg = true
      · cases hst : store with
        | ok item =>
          cases hl : v.locked with
          | true => simpa [hv, hl] using h
          | false =>
            cases hf : v.value.find? seg with
            | some y => simpa [hv, hl, hf] using h
            | none =>
              simp only [hv, hl, hf, Bool.not_true, Bool.false_eq_true, if_false]
              rw [values.wf_eq, values.withValue_value]
              exact Fields.wfItems_set _ hw (hsk hv) (hstore item hst)
        | err e =>
          cases hl : v.locked <;> cases hf : v.value.find? seg <;> simpa [hv, hl, hf] using h
        | panic =>
          cases hl : v.locked <;> cases hf : v.value.find? seg <;> simpa [hv, hl, hf] using h
      · simpa [hv] using h
    | cons s2 r =>
      rw [values.setWith_cons]
      by_cases hv : nameRegexMatch seg = true
      · cases hf : v.value.find? seg with
        | none =>
          simp only [hv, Bool.not_true, Bool.false_eq_true, if_false]
          rw [values.wf_eq, values.withValue_value]
          exact Fields.wfItems_set _ hw (hsk hv) (ih hrest newSub values.wf_newSub)
        | some y =>
          have hy := Fields.wfItem_of_find? hw hf
          cases y with
          | atom a => simpa [hv] using h
          | obj o => simpa [hv] using h
          | ptr sub =>
            simp only [hv, Bool.not_true, Bool.false_eq_true, if_false]
            rw [values.wf_eq, values.withValue_value]
            exact Fields.wfItems_set _ hw (hsk hv)
              (ih hrest sub (by simpa [Any.wfItem] using hy))
      · simpa [hv] using h

mutual
/-- What the expansion of a plain value stores is well formed. -/
theorem Any.store_wf : ∀ x : Any, x.plain = true → ∀ item, x.store = .ok item →
    item.wfItem = true
  | .atom a, _, item, h => by
    simp only [Any.store, Res.ok.injEq] at h
    subst h
    rfl
  | .ptr p, h, _, _ => by simp [Any.plain] at h
  | .obj m, h, item, hi => by
    have hm : m.plainAll = true := by simpa [Any.plain] using h
    simp only [Any.store] at hi
    cases hs : Fields.setAll m newSub with
    | ok sub =>
      rw [hs] at hi
      simp only [Res.ok.injEq] at hi
      subst hi
      exact Fields.setAll_wf m hm newSub sub values.wf_newSub hs
    | err e => rw [hs] at hi; simp at hi
    | panic => rw [hs] at hi; simp at hi
/-- Setting plain fields into a well-formed branch keeps it well formed. -/
theorem Fields.setAll_wf : ∀ m : Fields, m.plainAll = true → ∀ sub sub1 : values,
    sub.wf = true → m.setAll sub = .ok sub1 → sub1.wf = true
  | .nil, _, sub, sub1, hw, h => by
    simp only [Fields.setAll, Res.ok.injEq] at h
    subst h
    exact hw
  | .cons k x rest, hp, sub, sub1, hw, h => by
    simp only [Fields.plainAll, Bool.and_eq_true] at hp
    simp only [Fields.setAll] at h
    have hstep := values.setWith_wf x.store (Any.store_wf x hp.1) (segments k)
      (segments_no_dot k) sub hw
    cases hs : values.setWith x.store sub (segments k) with
    | mk sub2 r =>
      rw [hs] at h hstep
      cases r with
      | ok u => exact Fields.setAll_wf rest hp.2 sub2 sub1 hstep h
      | err e => simp at h
      | panic => simp at h
end

/-- `Set` of a plain value keeps a tree well formed, whatever it returns. -/
theorem values.Set_wf (v : values) (name : String) (x : Any) (hx : x.plain = true)
    (hv : v.wf = true) : (v.Set name x).1.wf = true :=
  values.setWith_wf x.store (Any.store_wf x hx) (segments name) (segments_no_dot name) v hv

/-! ## C8: merge is a shallow override -/

/-- C8: for maps `a` and `b` whose keys are at every level grammar-valid single
segments, `mergedObj(a, b)` returns a map whose keys are those of `a` and of `b`, that
has `b[k]` at every key `k` of `b` and `a[k]` at every key of `a` that `b` does not
have. -/
theorem c8_merge_shallow_override (a b : Fields) (ha : a.valid = true) (hb : b.valid = true) :
    ∃ m, mergedObj a b = .ok m ∧
      (∀ k, k ∈ m.keys ↔ k ∈ a.keys ∨ k ∈ b.keys) ∧
      (∀ k x, b.find? k = some x → m.find? k = some x) ∧
      (∀ k, k ∉ b.keys → m.find? k = a.find? k) := by
  obtain ⟨m, hm, _, hf⟩ := mergedObj_valid a b ha hb
  refine ⟨m, hm, ?_, ?_, ?_⟩
  · intro k
    simp only [Fields.mem_keys_iff_find?, hf k]
    cases b.find? k <;> simp
  · intro k x hx
    simp [hf k, hx]
  · intro k hk
    rw [← Fields.find?_eq_none_iff] at hk
    simp [hf k, hk]

/-- C8 (witness): `mergedObj({http: {port: 8000, address: "localhost"}},
{http: {port: 9000}})` is `{http: {port: 9000}}`. -/
theorem c8_merge_shallow_override_witness :
    mergedObj mapHttpDefaults mapHttpSource = .ok mapHttpSource ∧
    ∃ m, mergedObj mapHttpDefaults mapHttpSource = .ok m ∧
      (∀ k, k ∈ m.keys ↔ k ∈ mapHttpDefaults.keys ∨ k ∈ mapHttpSource.keys) ∧
      (∀ k x, mapHttpSource.find? k = some x → m.find? k = some x) ∧
      (∀ k, k ∉ mapHttpSource.keys → m.find? k = mapHttpDefaults.find? k) :=
  ⟨by decide, c8_merge_shallow_override mapHttpDefaults mapHttpSource (by decide) (by decide)⟩


/-! ## Lemmas on the resolver -/

/-- A name that `Get` of the tree does not find: the read with lock fails and leaves
the tree as it is. -/
theorem values.GetAndLock_of_not_found {d : values} {n : String} (h : (d.Get n).2 = false) :
    ∃ e, d.GetAndLock n = (d, .err e) := by
  simp only [values.Get, values.GetWithLock] at h
  cases hr : (values.getSegs true d (segments n)).2 with
  | ok x =>
    rw [values.getSegs_lock_snd] at hr
    simp [hr] at h
  | panic => exact absurd hr (values.getSegs_ne_panic _ _ _)
  | err e =>
    exact ⟨e, Prod.ext (values.getSegs_err_fst true _ d e hr) hr⟩

/-- The steps of `Get` after a miss in the cache. -/
theorem Get_of_miss (st : State) (n : String) (h : (st.defined.Get n).2 = false) :
    Get st n =
      match scanSources n st.sources with
      | (srcs, some v) =>
        match mergeWithDefaults st.defaults n v with
        | .ok v1 => defineAndLock { st with sources := srcs } n v1
        | _ => ({ st with sources := srcs }, .panic)
      | (srcs, none) =>
        match st.defaults.Get n with
        | (v, true) => defineAndLock { st with sources := srcs } n v
        | _ => ({ st with sources := srcs }, .ok (.atom .null, false)) := by
  obtain ⟨e, he⟩ := values.GetAndLock_of_not_found h
  cases st with
  | mk d df srcs => simp only [Get, he]

/-- The scan stops at the first source that has the name. -/
theorem scanSources_first (n : String) (v : Any) (s : ISource) (post : List ISource)
    (hs : (s.Get n).1 = some v) :
    ∀ pre : List ISource, (∀ s1 ∈ pre, (s1.Get n).1 = none) →
      scanSources n (pre ++ s :: post) =
        (pre.map (fun s1 => (s1.Get n).2) ++ (s.Get n).2 :: post, some v) := by
  intro pre
  induction pre with
  | nil => intro _; simp [scanSources, hs]
  | cons s1 pre ih =>
    intro h
    have h1 : (s1.Get n).1 = none := h s1 (by simp)
    have h2 := ih (fun s2 hs2 => h s2 (by simp [hs2]))
    simp [scanSources, h1, h2]

/-- The scan of sources that all lack the name asks each of them. -/
theorem scanSources_none (n : String) :
    ∀ srcs : List ISource, (∀ s1 ∈ srcs, (s1.Get n).1 = none) →
      scanSources n srcs = (srcs.map (fun s1 => (s1.Get n).2), none) := by
  intro srcs
  induction srcs with
  | nil => intro _; rfl
  | cons s1 rest ih =>
    intro h
    have h1 : (s1.Get n).1 = none := h s1 (by simp)
    have h2 := ih (fun s2 hs2 => h s2 (by simp [hs2]))
    simp [scanSources, h1, h2]

theorem defineAndLock_snd (st st1 : State) (n : String) (v : Any)
    (h : st.defined = st1.defined) : (defineAndLock st n v).2 = (defineAndLock st1 n v).2 := by
  simp only [defineAndLock, h]
  cases st1.defined.Set n v with
  | mk d r =>
    cases r with
    | ok u =>
      simp only
      cases d.GetAndLock n with
      | mk d1 r1 => cases r1 <;> rfl
    | err e => rfl
    | panic => rfl

theorem defineAndLock_sources (st : State) (n : String) (v : Any) :
    (defineAndLock st n v).1.sources = st.sources := by
  simp only [defineAndLock]
  cases st.defined.Set n v with
  | mk d r =>
    cases r with
    | ok u =>
      simp only
      cases d.GetAndLock n with
      | mk d1 r1 => cases r1 <;> rfl
    | err e => rfl
    | panic => rfl

/-! ## C9: first source wins -/

/-- C9: when the cache does not hold `n`, the sources `pre` do not have `n` and the
next source `s` has it with value `v`, then `Get(n)` asks `pre` and `s` and leaves the
later sources `post` as they are, its result is the same for every list of later
sources, and it is the result of copying `v`, merged with the defaults when both are
maps, to the cache. -/
theorem c9_first_source_wins (defined defaults : values) (n : String) (v : Any)
    (pre post : List ISource) (s : ISource)
    (hmiss : (defined.Get n).2 = false)
    (hpre : ∀ s1 ∈ pre, (s1.Get n).1 = none)
    (hs : (s.Get n).1 = some v) :
    (Get ⟨defined, defaults, pre ++ s :: post⟩ n).1.sources =
      pre.map (fun s1 => (s1.Get n).2) ++ (s.Get n).2 :: post ∧
    (∀ post1 : List ISource,
      (Get ⟨defined, defaults, pre ++ s :: post1⟩ n).2 =
        (Get ⟨defined, defaults, pre ++ s :: post⟩ n).2) ∧
    (Get ⟨defined, defaults, pre ++ s :: post⟩ n).2 =
      match mergeWithDefaults defaults n v with
      | .ok v1 => (defineAndLock ⟨defined, defaults, []⟩ n v1).2
      | _ => .panic := by
  have key : ∀ post0 : List ISource,
      (Get ⟨defined, defaults, pre ++ s :: post0⟩ n).1.sources =
        pre.map (fun s1 => (s1.Get n).2) ++ (s.Get n).2 :: post0 ∧
      (Get ⟨defined, defaults, pre ++ s :: post0⟩ n).2 =
        match mergeWithDefaults defaults n v with
        | .ok v1 => (defineAndLock ⟨defined, defaults, []⟩ n v1).2
        | _ => .panic := by
    intro post0
    rw [Get_of_miss ⟨defined, defaults, pre ++ s :: post0⟩ n hmiss]
    simp only [scanSources_first n v s post0 hs pre hpre]
    cases mergeWithDefaults defaults n v with
    | ok v1 =>
      exact ⟨defineAndLock_sources _ n v1, defineAndLock_snd _ _ n v1 rfl⟩
    | err e => exact ⟨rfl, rfl⟩
    | panic => exact ⟨rfl, rfl⟩
  refine ⟨(key post).1, ?_, (key post).2⟩
  intro post1
  rw [(key post1).2, (key post).2]

/-- C9 (witness): two sources that both have `a`, the first with 1, the second with 2:
`Get("a")` returns `(1, true)` and the second source has not been asked. -/
theorem c9_first_source_wins_witness :
    (Get ⟨emptyTree, emptyTree, [] ++ sourceA1 :: [sourceA2]⟩ "a").2 = .ok (intVal 1, true) ∧
    (Get ⟨emptyTree, emptyTree, [] ++ sourceA1 :: [sourceA2]⟩ "a").1.sources.map ISource.asked =
      [["a"], []] ∧
    (∀ post1 : List ISource,
      (Get ⟨emptyTree, emptyTree, [] ++ sourceA1 :: post1⟩ "a").2 =
        (Get ⟨emptyTree, emptyTree, [] ++ sourceA1 :: [sourceA2]⟩ "a").2) :=
  ⟨by decide, by decide,
    (c9_first_source_wins emptyTree emptyTree "a" (intVal 1) [] [sourceA2] sourceA1
      (by decide) (by simp) (by decide)).2.1⟩


/-! ## C10: defaults fallback -/

/-- What a read finds in a well-formed tree is a valid value. -/
theorem values.getSegs_valid (segs : List String) :
    ∀ (t : values) (x : Any), t.wf = true → (values.getSegs false t segs).2 = .ok x →
      x.valid = true := by
  induction segs with
  | nil => intro t x _ h; simp [values.getSegs] at h
  | cons seg rest ih =>
    intro t x hwf
    rw [values.wf_eq] at hwf
    cases rest with
    | nil =>
      by_cases hv : nameRegexMatch seg = true
      · cases hf : t.value.find? seg with
        | none => simp [values.getSegs_one, hv, hf]
        | some y =>
          have hy := Fields.wfItem_of_find? hwf hf
          cases y with
          | atom a =>
            intro h
            simp [values.getSegs_one, hv, hf] at h
            subst h
            rfl
          | obj o => simp [Any.wfItem] at hy
          | ptr sub =>
            intro h
            simp [values.getSegs_one, hv, hf] at h
            subst h
            simpa [Any.valid] using values.Value_valid sub (by simpa [Any.wfItem] using hy)
      · simp [values.getSegs_one, hv]
    | cons s2 r =>
      by_cases hv : nameRegexMatch seg = true
      · cases hf : t.value.find? seg with
        | none => simp [values.getSegs_cons, hv, hf]
        | some y =>
          have hy := Fields.wfItem_of_find? hwf hf
          cases y with
          | atom a => simp [values.getSegs_cons, hv, hf]
          | obj o => simp [Any.wfItem] at hy
          | ptr sub =>
            intro h
            simp only [values.getSegs_cons, hv, hf, Bool.not_true, Bool.false_eq_true,
              if_false] at h
            exact ih sub x (by simpa [Any.wfItem] using hy) h
      · simp [values.getSegs_cons, hv]

theorem values.Get_valid {t : values} {n : String} {x : Any} (hwf : t.wf = true)
    (h : t.Get n = (x, true)) : x.valid = true := by
  simp only [values.Get, values.GetWithLock] at h
  cases hr : (values.getSegs false t (segments n)).2 with
  | ok y =>
    rw [hr] at h
    simp only [Prod.mk.injEq, and_true] at h
    subst h
    exact values.getSegs_valid _ t y hwf hr
  | err e => rw [hr] at h; simp at h
  | panic => rw [hr] at h; simp at h

/-- The copy of a valid value to the cache returns the value when `Set` succeeds, and
panics when it does not. -/
theorem defineAndLock_valid (st : State) (n : String) (v : Any) (hv : v.valid = true) :
    (defineAndLock st n v).2 =
      if (st.defined.Set n v).2 = .ok () then .ok (v, true) else .panic := by
  simp only [defineAndLock]
  cases hs : st.defined.Set n v with
  | mk d r =>
    cases r with
    | err e => simp
    | panic => simp
    | ok u =>
      have hs2 : (values.setWith v.store st.defined (segments n)).2 = .ok () :=
        congrArg Prod.snd hs
      have hs1 : (values.setWith v.store st.defined (segments n)).1 = d :=
        congrArg Prod.fst hs
      obtain ⟨item, hst, hg⟩ := values.setWith_get v.store (segments n) st.defined hs2
      obtain ⟨item1, hst1, hr, _, _⟩ := Any.store_valid v hv
      rw [hst1] at hst
      cases hst
      rw [hs1, ← values.getSegs_lock_snd, hr] at hg
      cases hd : d.GetAndLock n with
      | mk d1 r1 =>
        have hd2 : (values.getSegs true d (segments n)).2 = r1 := congrArg Prod.snd hd
        rw [hg] at hd2
        subst hd2
        simp [hd]

/-- C10, as stated, fails: after `SetDefault("p.a", 1)`, `Get("p")` and
`SetDefault("p.b", 2)`, the cache does not hold `p.b`, there is no source and the
defaults hold `p.b = 2`, but `Get("p.b")` panics: the copy to the cache is refused
because `p` is locked. -/
theorem c10_counterexample_locked_parent :
    (statePAGotB.defined.Get "p.b").2 = false ∧
    statePAGotB.sources.length = 0 ∧
    statePAGotB.defaults.Get "p.b" = (intVal 2, true) ∧
    (statePAGotB.defined.Set "p.b" (intVal 2)).2 = .err .locked ∧
    (Get statePAGotB "p.b").2 = .panic := by
  decide

/-- C10 (amended): when the cache does not hold `n`, no source has `n` and the defaults
registry is well formed, then: if the defaults hold `v` at `n` and the copy of `v` to
the cache succeeds, `Get(n)` returns `(v, true)`; if the defaults do not hold `n`,
`Get(n)` returns `(nil, false)` and the cache is unchanged. -/
theorem c10_defaults_fallback (defined defaults : values) (srcs : List ISource) (n : String)
    (hwf : defaults.wf = true)
    (hmiss : (defined.Get n).2 = false)
    (hsrc : ∀ s ∈ srcs, (s.Get n).1 = none) :
    (∀ v, defaults.Get n = (v, true) → (defined.Set n v).2 = .ok () →
      (Get ⟨defined, defaults, srcs⟩ n).2 = .ok (v, true)) ∧
    ((defaults.Get n).2 = false →
      (Get ⟨defined, defaults, srcs⟩ n).2 = .ok (.atom .null, false) ∧
      (Get ⟨defined, defaults, srcs⟩ n).1.defined = defined) := by
  have hG := Get_of_miss ⟨defined, defaults, srcs⟩ n hmiss
  simp only [scanSources_none n srcs hsrc] at hG
  constructor
  · intro v hv hset
    rw [hG, hv]
    simp only
    rw [defineAndLock_valid _ n v (values.Get_valid hwf hv)]
    simp [hset]
  · intro hnf
    rw [hG]
    cases hd : defaults.Get n with
    | mk v b =>
      rw [hd] at hnf
      simp only at hnf
      subst hnf
      exact ⟨rfl, rfl⟩

/-- C10 (witness): the default `abc = 123` and no source: `Get("abc")` is `(123, true)`. -/
theorem c10_defaults_fallback_witness :
    (Get ⟨emptyTree, defaultsAbc, []⟩ "abc").2 = .ok (intVal 123, true) ∧
    (Get ⟨emptyTree, defaultsAbc, []⟩ "xyz").2 = .ok (.atom .null, false) :=
  ⟨(c10_defaults_fallback emptyTree defaultsAbc [] "abc" (by decide) (by decide)
      (by simp)).1 (intVal 123) (by decide) (by decide),
    ((c10_defaults_fallback emptyTree defaultsAbc [] "xyz" (by decide) (by decide)
      (by simp)).2 (by decide)).1⟩


/-! ## C7: a source map is merged over the default map -/

/-- C7, as stated, fails: with the default `server.http = {port: 8000, address:
"localhost"}` and a first source that answers `server.http` with `{"x.y": 1}`,
`Get("server.http")` returns a map that has the key `x` and not the key `x.y` of the
source map. -/
theorem c7_counterexample_dotted_key :
    (emptyTree.Get "server.http").2 = false ∧
    (sourceDottedKey.Get "server.http").1 = some (.obj (.cons "x.y" (intVal 1) .nil)) ∧
    defaultsServerHttp.Get "server.http" = (.obj mapPortAddress, true) ∧
    (Get ⟨emptyTree, defaultsServerHttp, [sourceDottedKey]⟩ "server.http").2 =
      .ok (.obj (.cons "port" (intVal 8000) (.cons "address" (strVal "localhost")
        (.cons "x" (.obj (.cons "y" (intVal 1) .nil)) .nil))), true) ∧
    Fields.find? "x.y" (.cons "port" (intVal 8000) (.cons "address" (strVal "localhost")
        (.cons "x" (.obj (.cons "y" (intVal 1) .nil)) .nil))) = none := by
  decide

/-- C7 (amended): when the cache does not hold `n`, the first source that has `n`
answers a map `s` whose keys are at every level grammar-valid single segments, and the
well-formed defaults registry holds a map `d` at `n`, then `mergedObj(d, s)` is a map `m`
with exactly the keys of `d` and `s`, with `s[k]` at every key of `s` and `d[k]` at every
key only in `d`, and `Get(n)` returns `(m, true)` when the copy of `m` to the cache
succeeds. -/
theorem c7_source_over_defaults (defined defaults : values) (n : String) (s d : Fields)
    (pre post : List ISource) (src : ISource)
    (hwf : defaults.wf = true)
    (hmiss : (defined.Get n).2 = false)
    (hpre : ∀ s1 ∈ pre, (s1.Get n).1 = none)
    (hs : (src.Get n).1 = some (.obj s))
    (hsv : s.valid = true)
    (hd : defaults.Get n = (.obj d, true)) :
    ∃ m, mergedObj d s = .ok m ∧
      (∀ k, k ∈ m.keys ↔ k ∈ d.keys ∨ k ∈ s.keys) ∧
      (∀ k x, s.find? k = some x → m.find? k = some x) ∧
      (∀ k, k ∉ s.keys → m.find? k = d.find? k) ∧
      ((defined.Set n (.obj m)).2 = .ok () →
        (Get ⟨defined, defaults, pre ++ src :: post⟩ n).2 = .ok (.obj m, true)) := by
  have hdv : d.valid = true := by simpa [Any.valid] using values.Get_valid hwf hd
  obtain ⟨m, hm, hmv, hf⟩ := mergedObj_valid d s hdv hsv
  refine ⟨m, hm, ?_, ?_, ?_, ?_⟩
  · intro k
    simp only [Fields.mem_keys_iff_find?, hf k]
    cases s.find? k <;> simp
  · intro k x hx
    simp [hf k, hx]
  · intro k hk
    rw [← Fields.find?_eq_none_iff] at hk
    simp [hf k, hk]
  · intro hset
    rw [Get_of_miss ⟨defined, defaults, pre ++ src :: post⟩ n hmiss]
    simp only [scanSources_first n (.obj s) src post hs pre hpre, mergeWithDefaults, hd, hm]
    rw [defineAndLock_valid _ n (.obj m) (by simpa [Any.valid] using hmv)]
    simp [hset]

/-- C7 (witness): the default `server.http = {port: 8000, address: "localhost"}` and a
source with `server.http.port = 9000`: `Get("server.http")` returns the map with
`port = 9000` and `address = "localhost"`. -/
theorem c7_source_over_defaults_witness :
    (Get ⟨emptyTree, defaultsServerHttp, [] ++ sourceServerHttp :: []⟩ "server.http").2 =
      .ok (.obj (.cons "address" (strVal "localhost") (.cons "port" (intVal 9000) .nil)),
        true) ∧
    ∃ m, mergedObj mapPortAddress (.cons "port" (intVal 9000) .nil) = .ok m ∧
      (∀ k, k ∈ m.keys ↔ k ∈ mapPortAddress.keys ∨
        k ∈ (Fields.cons "port" (intVal 9000) .nil).keys) ∧
      (∀ k x, (Fields.cons "port" (intVal 9000) .nil).find? k = some x → m.find? k = some x) ∧
      (∀ k, k ∉ (Fields.cons "port" (intVal 9000) .nil).keys →
        m.find? k = mapPortAddress.find? k) ∧
      ((emptyTree.Set "server.http" (.obj m)).2 = .ok () →
        (Get ⟨emptyTree, defaultsServerHttp, [] ++ sourceServerHttp :: []⟩ "server.http").2 =
          .ok (.obj m, true)) :=
  ⟨by decide,
    c7_source_over_defaults emptyTree defaultsServerHttp "server.http"
      (.cons "port" (intVal 9000) .nil) mapPortAddress [] [] sourceServerHttp
      (by decide) (by decide) (by simp) (by decide) (by decide) (by decide)⟩


/-! ## Lemmas on the cache along a sequence of calls -/

theorem values.covered_iff (R : List (List String)) (v : values) (path : List String) :
    values.covered R v path ↔ v.locked = false ∧ Fields.covered R v.value path := by
  cases v; simp [values.covered, values.locked, values.value]

theorem Fields.covered_cons (R : List (List String)) (k : String) (x : Any) (rest : Fields)
    (path : List String) :
    Fields.covered R (.cons k x rest) path ↔
      entryCovered R path k x ∧ Fields.covered R rest path := by
  cases x <;> simp [Fields.covered, entryCovered]

theorem entryCovered_of_above {R : List (List String)} {path : List String} {k : String}
    (x : Any) (h : ∃ r ∈ R, r <+: path ++ [k]) : entryCovered R path k x := by
  cases x with
  | atom a => exact h
  | obj m => exact h
  | ptr sub => exact Or.inl h

theorem Fields.covered_find? {R : List (List String)} {m : Fields} {path : List String}
    {k : String} {x : Any} (hm : Fields.covered R m path) (h : m.find? k = some x) :
    entryCovered R path k x := by
  induction m with
  | nil => simp [Fields.find?] at h
  | cons k1 x1 rest ih =>
    rw [Fields.covered_cons] at hm
    by_cases h1 : k1 = k
    · simp [Fields.find?, h1] at h
      subst h1
      subst h
      exact hm.1
    · simp [Fields.find?, h1] at h
      exact ih hm.2 h

theorem Fields.covered_set {R : List (List String)} {m : Fields} {path : List String}
    {k : String} {x : Any} (hm : Fields.covered R m path) (hx : entryCovered R path k x) :
    Fields.covered R (m.set k x) path := by
  induction m with
  | nil =>
    simp only [Fields.set]
    rw [Fields.covered_cons]
    exact ⟨hx, trivial⟩
  | cons k1 x1 rest ih =>
    rw [Fields.covered_cons] at hm
    by_cases h1 : k1 = k
    · subst h1
      simp only [Fields.set, if_true]
      rw [Fields.covered_cons]
      exact ⟨hx, hm.2⟩
    · simp only [Fields.set, h1, if_false]
      rw [Fields.covered_cons]
      exact ⟨hm.1, ih hm.2⟩

mutual
theorem values.covered_mono {R R1 : List (List String)} (hR : ∀ r ∈ R, r ∈ R1) :
    ∀ (v : values) (path : List String), values.covered R v path → values.covered R1 v path
  | .mk m _, path, h => ⟨h.1, Fields.coveredItems_mono hR m path h.2⟩
theorem Fields.coveredItems_mono {R R1 : List (List String)} (hR : ∀ r ∈ R, r ∈ R1) :
    ∀ (m : Fields) (path : List String), Fields.covered R m path → Fields.covered R1 m path
  | .nil, _, _ => trivial
  | .cons k (.atom a) rest, path, h => by
    obtain ⟨⟨r, hr, hp⟩, h2⟩ := h
    exact ⟨⟨r, hR r hr, hp⟩, Fields.coveredItems_mono hR rest path h2⟩
  | .cons k (.obj o) rest, path, h => by
    obtain ⟨⟨r, hr, hp⟩, h2⟩ := h
    exact ⟨⟨r, hR r hr, hp⟩, Fields.coveredItems_mono hR rest path h2⟩
  | .cons k (.ptr sub) rest, path, h => by
    obtain ⟨h1, h2⟩ := h
    refine ⟨?_, Fields.coveredItems_mono hR rest path h2⟩
    rcases h1 with ⟨r, hr, hp⟩ | ⟨⟨r, hr, hp⟩, h3⟩
    · exact Or.inl ⟨r, hR r hr, hp⟩
    · exact Or.inr ⟨⟨r, hR r hr, hp⟩, values.covered_mono hR sub _ h3⟩
end

theorem entryCovered_mono {R R1 : List (List String)} (hR : ∀ r ∈ R, r ∈ R1)
    {path : List String} {k : String} {x : Any} (h : entryCovered R path k x) :
    entryCovered R1 path k x := by
  cases x with
  | atom a => obtain ⟨r, hr, hp⟩ := h; exact ⟨r, hR r hr, hp⟩
  | obj m => obtain ⟨r, hr, hp⟩ := h; exact ⟨r, hR r hr, hp⟩
  | ptr sub =>
    rcases h with ⟨r, hr, hp⟩ | ⟨⟨r, hr, hp⟩, h3⟩
    · exact Or.inl ⟨r, hR r hr, hp⟩
    · exact Or.inr ⟨⟨r, hR r hr, hp⟩, values.covered_mono hR sub _ h3⟩

/-- `Set` does not change the lock flag of the receiver itself. -/
theorem values.setWith_locked (store : Res Any) (segs : List String) (v : values) :
    (values.setWith store v segs).1.locked = v.locked := by
  cases segs with
  | nil => rfl
  | cons seg rest =>
    cases rest with
    | nil =>
      rw [values.setWith_one]
      split
      · rfl
      · split
        · rfl
        · split
          · rfl
          · split <;> simp
    | cons s2 r =>
      rw [values.setWith_cons]
      split
      · rfl
      · split <;> simp

/-- A read with lock of the name `path ++ segs` keeps the tree covered once that name
is among the names. -/
theorem values.getSegs_covered (R : List (List String)) (segs : List String) :
    ∀ (v : values) (path : List String), values.covered R v path →
      values.covered ((path ++ segs) :: R) (values.getSegs true v segs).1 path := by
  induction segs with
  | nil =>
    intro v path h
    exact values.covered_mono (fun r hr => List.mem_cons_of_mem _ hr) v path h
  | cons seg rest ih =>
    intro v path h
    have hmono : ∀ r ∈ R, r ∈ (path ++ seg :: rest) :: R := fun r hr => List.mem_cons_of_mem _ hr
    have hv := values.covered_mono hmono v path h
    rw [values.covered_iff] at h
    have hv1 := (values.covered_iff _ _ _).1 hv
    cases rest with
    | nil =>
      rw [values.getSegs_one]
      split
      · exact hv
      · split
        · exact hv
        · rename_i sub hf
          rw [values.covered_iff]
          refine ⟨by simpa using hv1.1, ?_⟩
          rw [if_pos rfl]
          simp only [values.withValue_value]
          exact Fields.covered_set hv1.2
            (entryCovered_of_above _ ⟨path ++ [seg], by simp, List.prefix_refl _⟩)
        · exact hv
    | cons s2 r =>
      rw [values.getSegs_cons]
      split
      · exact hv
      · split
        · rename_i sub hf
          rw [values.covered_iff]
          refine ⟨by simpa using hv1.1, ?_⟩
          simp only [values.withValue_value]
          apply Fields.covered_set hv1.2
          have he := Fields.covered_find? h.2 hf
          rcases he with he | ⟨he1, he2⟩
          · exact Or.inl (by
              obtain ⟨r0, hr0, hp0⟩ := he
              exact ⟨r0, hmono r0 hr0, hp0⟩)
          · refine Or.inr ⟨?_, ?_⟩
            · obtain ⟨r0, hr0, hp0⟩ := he1
              exact ⟨r0, hmono r0 hr0, hp0⟩
            · have := ih sub (path ++ [seg]) he2
              simpa using this
        · exact hv
        · exact hv

/-- `Set` of the name `path ++ segs` keeps the tree covered once that name is among
the names. -/
theorem values.setWith_covered (store : Res Any) (R : List (List String)) (segs : List String) :
    ∀ (v : values) (path : List String), values.covered R v path →
      values.covered ((path ++ segs) :: R) (values.setWith store v segs).1 path := by
  induction segs with
  | nil =>
    intro v path h
    exact values.covered_mono (fun r hr => List.mem_cons_of_mem _ hr) v path h
  | cons seg rest ih =>
    intro v path h
    have hmono : ∀ r ∈ R, r ∈ (path ++ seg :: rest) :: R := fun r hr => List.mem_cons_of_mem _ hr
    have hv := values.covered_mono hmono v path h
    rw [values.covered_iff] at h
    have hv1 := (values.covered_iff _ _ _).1 hv
    cases rest with
    | nil =>
      rw [values.setWith_one]
      split
      · exact hv
      · split
        · exact hv
        · split
          · exact hv
          · split
            · rw [values.covered_iff]
              refine ⟨by simpa using hv1.1, ?_⟩
              simp only [values.withValue_value]
              exact Fields.covered_set hv1.2
                (entryCovered_of_above _ ⟨path ++ [seg], by simp, List.prefix_refl _⟩)
            · exact hv
            · exact hv
    | cons s2 r =>
      rw [values.setWith_cons]
      split
      · exact hv
      · split
        · rename_i sub hf
          rw [values.covered_iff]
          refine ⟨by simpa using hv1.1, ?_⟩
          simp only [values.withValue_value]
          apply Fields.covered_set hv1.2
          have he := Fields.covered_find? h.2 hf
          rcases he with he | ⟨he1, he2⟩
          · exact Or.inl (by
              obtain ⟨r0, hr0, hp0⟩ := he
              exact ⟨r0, hmono r0 hr0, hp0⟩)
          · refine Or.inr ⟨?_, ?_⟩
            · obtain ⟨r0, hr0, hp0⟩ := he1
              exact ⟨r0, hmono r0 hr0, hp0⟩
            · have := ih sub (path ++ [seg]) he2
              simpa using this
        · exact hv
        · rw [values.covered_iff]
          refine ⟨by simpa using hv1.1, ?_⟩
          simp only [values.withValue_value]
          apply Fields.covered_set hv1.2
          refine Or.inr ⟨⟨path ++ seg :: s2 :: r, by simp, ?_⟩, ?_⟩
          · have : path ++ seg :: s2 :: r = (path ++ [seg]) ++ (s2 :: r) := by simp
            rw [this]
            exact List.prefix_append _ _
          · have := ih newSub (path ++ [seg]) ⟨rfl, trivial⟩
            simpa using this


@[simp] theorem newSub_locked : newSub.locked = false := rfl

@[simp] theorem newSub_value : newSub.value = .nil := rfl

@[simp] theorem Fields.find?_nil (k : String) : Fields.find? k .nil = none := rfl

/-- In a covered tree, a name that is neither at, above nor below any of the names is
not found, and `Set` of it ends as it does on an empty tree. -/
theorem values.setWith_fresh (store : Res Any) (R : List (List String)) (segs : List String) :
    ∀ (v : values) (path : List String), values.covered R v path →
      (∀ r ∈ R, ¬ r <+: path ++ segs ∧ ¬ path ++ segs <+: r) →
      (values.setWith store v segs).2 = (values.setWith store newSub segs).2 ∧
      ∀ x, (values.getSegs false v segs).2 ≠ .ok x := by
  induction segs with
  | nil => intro v path _ _; simp [values.setWith, values.getSegs]
  | cons seg rest ih =>
    intro v path h hR
    rw [values.covered_iff] at h
    cases rest with
    | nil =>
      have hf : v.value.find? seg = none := by
        cases hf : v.value.find? seg with
        | none => rfl
        | some x =>
          exfalso
          have he := Fields.covered_find? h.2 hf
          have hA : ¬ ∃ r ∈ R, r <+: path ++ [seg] := fun ⟨r, hr, hp⟩ => (hR r hr).1 hp
          cases x with
          | atom a => exact hA he
          | obj m => exact hA he
          | ptr sub =>
            rcases he with he | ⟨⟨r, hr, hp⟩, _⟩
            · exact hA he
            · exact (hR r hr).2 hp
      constructor
      · by_cases hv : nameRegexMatch seg = true <;> cases store <;>
          simp [values.setWith_one, hf, h.1, hv]
      · intro x
        rw [values.getSegs_one]
        split
        · simp
        · simp [hf]
    | cons s2 r =>
      by_cases hv : nameRegexMatch seg = true
      · cases hf : v.value.find? seg with
        | none =>
          simp [values.setWith_cons, values.getSegs_cons, hv, hf]
        | some x =>
          have he := Fields.covered_find? h.2 hf
          have hpre : path ++ [seg] <+: path ++ seg :: s2 :: r := by
            have : path ++ seg :: s2 :: r = (path ++ [seg]) ++ (s2 :: r) := by simp
            rw [this]
            exact List.prefix_append _ _
          have hA : ¬ ∃ r0 ∈ R, r0 <+: path ++ [seg] :=
            fun ⟨r0, hr0, hp0⟩ => (hR r0 hr0).1 (hp0.trans hpre)
          cases x with
          | atom a => exact absurd he hA
          | obj m => exact absurd he hA
          | ptr sub =>
            rcases he with he | ⟨_, he2⟩
            · exact absurd he hA
            · have hih := ih sub (path ++ [seg]) he2 (by simpa using hR)
              constructor
              · simp [values.setWith_cons, hv, hf, hih.1]
              · intro y
                simpa [values.getSegs_cons, hv, hf] using hih.2 y
      · simp [values.setWith_cons, values.getSegs_cons, hv]

/-- The result of the copy to the cache depends on the cache only through the result
of `Set`. -/
theorem defineAndLock_snd_of_Set (st st1 : State) (n : String) (v : Any)
    (h : (st.defined.Set n v).2 = (st1.defined.Set n v).2) :
    (defineAndLock st n v).2 = (defineAndLock st1 n v).2 := by
  have key : ∀ s : State, (defineAndLock s n v).2 =
      match (s.defined.Set n v).2, v.store with
      | .ok _, .ok item => .ok (item.read, true)
      | .ok _, _ => .panic
      | _, _ => .panic := by
    intro s
    simp only [defineAndLock]
    cases hs : s.defined.Set n v with
    | mk d r =>
      cases r with
      | err e => cases v.store <;> rfl
      | panic => cases v.store <;> rfl
      | ok u =>
        have hs2 : (values.setWith v.store s.defined (segments n)).2 = .ok () :=
          congrArg Prod.snd hs
        have hs1 : (values.setWith v.store s.defined (segments n)).1 = d :=
          congrArg Prod.fst hs
        obtain ⟨item, hst, hg⟩ := values.setWith_get v.store (segments n) s.defined hs2
        rw [hs1, ← values.getSegs_lock_snd] at hg
        cases hd : d.GetAndLock n with
        | mk d1 r1 =>
          have hd2 : (values.getSegs true d (segments n)).2 = r1 := congrArg Prod.snd hd
          rw [hg] at hd2
          subst hd2
          simp [hst, hd]
  rw [key st, key st1, h]

/-- The cache after `Get(n)` is covered by the names so far and `n`. -/
theorem Get_covered (R : List (List String)) (st : State) (n : String)
    (h : values.covered R st.defined []) :
    values.covered (segments n :: R) (Get st n).1.defined [] := by
  have hmono : ∀ r ∈ R, r ∈ segments n :: R := fun r hr => List.mem_cons_of_mem _ hr
  have hdup : ∀ r ∈ segments n :: segments n :: R, r ∈ segments n :: R := by
    intro r hr
    simp only [List.mem_cons] at hr ⊢
    rcases hr with hr | hr | hr
    · exact Or.inl hr
    · exact Or.inl hr
    · exact Or.inr hr
  have hget : ∀ d : values, values.covered R d [] →
      values.covered (segments n :: R) (d.GetAndLock n).1 [] := by
    intro d hd
    simpa [values.GetAndLock, values.GetWithLock] using values.getSegs_covered R (segments n) d [] hd
  have hdef : ∀ (s : State) (v : Any), values.covered R s.defined [] →
      values.covered (segments n :: R) (defineAndLock s n v).1.defined [] := by
    intro s v hs
    have h1 : values.covered (segments n :: R) (s.defined.Set n v).1 [] := by
      simpa [values.Set] using values.setWith_covered v.store R (segments n) s.defined [] hs
    have h2 : values.covered (segments n :: R) ((s.defined.Set n v).1.GetAndLock n).1 [] := by
      have := values.getSegs_covered (segments n :: R) (segments n) (s.defined.Set n v).1 [] h1
      exact values.covered_mono hdup _ _
        (by simpa [values.GetAndLock, values.GetWithLock] using this)
    simp only [defineAndLock]
    cases hs1 : s.defined.Set n v with
    | mk d r =>
      rw [hs1] at h1 h2
      cases r with
      | err e => exact h1
      | panic => exact h1
      | ok u =>
        simp only
        cases hd : d.GetAndLock n with
        | mk d1 r1 =>
          rw [hd] at h2
          cases r1 <;> exact h2
  have h0 := hget st.defined h
  simp only [Get]
  cases hg : st.defined.GetAndLock n with
  | mk d r =>
    rw [hg] at h0
    have hg2 : (values.getSegs true st.defined (segments n)).2 = r := congrArg Prod.snd hg
    have hg1 : (values.getSegs true st.defined (segments n)).1 = d := congrArg Prod.fst hg
    cases r with
    | ok x => exact h0
    | panic => exact absurd hg2 (values.getSegs_ne_panic _ _ _)
    | err e =>
      have hd : d = st.defined := by
        rw [← hg1]
        exact values.getSegs_err_fst true _ _ e hg2
      subst hd
      simp only
      cases scanSources n st.sources with
      | mk srcs o =>
        cases o with
        | some v0 =>
          simp only
          cases mergeWithDefaults st.defaults n v0 with
          | ok v1 => exact hdef _ v1 h
          | err e1 => exact h0
          | panic => exact h0
        | none =>
          simp only
          cases st.defaults.Get n with
          | mk v2 b =>
            cases b with
            | true => exact hdef _ v2 h
            | false => exact h0


theorem SetDefault_defined (st : State) (n : String) (v : Any) :
    (SetDefault st n v).1.defined = st.defined := by
  simp only [SetDefault]
  cases st.defined.Get n with
  | mk x b =>
    cases b with
    | true => rfl
    | false =>
      simp only
      cases st.defaults.Set n v with
      | mk d r => cases r <;> rfl

theorem Op.apply_covered (R : List (List String)) (op : Op) (st st1 : State)
    (h : values.covered R st.defined []) (hop : op.apply st = some st1) :
    values.covered (requested [op] ++ R) st1.defined [] := by
  cases op with
  | setDefault name value =>
    simp only [Op.apply] at hop
    have hd := SetDefault_defined st name value
    cases hs : SetDefault st name value with
    | mk s2 r =>
      rw [hs] at hop hd
      cases r with
      | panic => simp at hop
      | ok u =>
        simp only [Option.some.injEq] at hop
        subst hop
        simp only at hd
        simpa [requested, hd] using h
      | err e =>
        simp only [Option.some.injEq] at hop
        subst hop
        simp only at hd
        simpa [requested, hd] using h
  | addSource s =>
    simp only [Op.apply, Option.some.injEq] at hop
    subst hop
    simpa [requested, AddSource] using h
  | get name =>
    simp only [Op.apply] at hop
    have hc := Get_covered R st name h
    cases hg : Get st name with
    | mk s2 r =>
      rw [hg] at hop hc
      cases r with
      | ok x =>
        simp only [Option.some.injEq] at hop
        subst hop
        simpa [requested] using hc
      | err e => simp at hop
      | panic => simp at hop

theorem requested_cons (op : Op) (ops : List Op) :
    requested (op :: ops) = requested [op] ++ requested ops := by
  cases op <;> simp [requested]

/-- Along every sequence of calls that return, the cache stays covered by the names
that `Get` was asked for. -/
theorem runOps_covered (ops : List Op) : ∀ (R : List (List String)) (st0 st : State),
    values.covered R st0.defined [] → runOps st0 ops = some st →
    values.covered (requested ops ++ R) st.defined [] := by
  induction ops with
  | nil =>
    intro R st0 st h hrun
    simp only [runOps, Option.some.injEq] at hrun
    subst hrun
    simpa [requested] using h
  | cons op ops ih =>
    intro R st0 st h hrun
    simp only [runOps] at hrun
    cases hop : op.apply st0 with
    | none => rw [hop] at hrun; simp at hrun
    | some st1 =>
      rw [hop] at hrun
      have h1 := Op.apply_covered R op st0 st1 h hop
      have h2 := ih _ st1 st h1 hrun
      refine values.covered_mono ?_ _ _ h2
      intro r hr
      rw [requested_cons]
      simp only [List.mem_append] at hr ⊢
      tauto

/-! ## C6: what a cache hit replays -/

/-- C6, as stated, fails: after `SetDefault("a.b", 5)`, `Get("a")`, which returns
`({b: 5}, true)`, and `AddSource` of a source with `a.b = 7`, the name `a.b` has not
been requested, only its ancestor `a`, but `Get("a.b")` returns `(5, true)` from the
cache, where with an empty cache it returns `(7, true)` from the source. -/
theorem c6_counterexample_ancestor_resolved :
    requested opsGetAncestor = [["a"]] ∧
    (Get (SetDefault State.init "a.b" (intVal 5)).1 "a").2 =
      .ok (.obj (.cons "b" (intVal 5) .nil), true) ∧
    (runOps State.init opsGetAncestor).map (fun st => (Get st "a.b").2) =
      some (.ok (intVal 5, true)) ∧
    (runOps State.init opsGetAncestor).map
      (fun st => (Get { st with defined := emptyTree } "a.b").2) =
      some (.ok (intVal 7, true)) := by
  decide

/-- C6 (amended): in every state reached from the start of the program through calls of
`SetDefault`, `AddSource` and `Get` that returned, and for every name `n` such that no
name requested from `Get` so far is `n`, a dot-prefix of `n` or has `n` as a dot-prefix,
`Get(n)` returns what it returns with an empty resolution cache. -/
theorem c6_fresh_name_as_empty_cache (ops : List Op) (st : State) (n : String)
    (hrun : runOps State.init ops = some st)
    (hnew : ∀ r ∈ requested ops, ¬ r <+: segments n ∧ ¬ segments n <+: r) :
    (Get st n).2 = (Get { st with defined := emptyTree } n).2 := by
  have hinit : values.covered [] State.init.defined [] := ⟨rfl, trivial⟩
  have hcov : values.covered (requested ops) st.defined [] := by
    simpa using runOps_covered ops [] State.init st hinit hrun
  have hempty : values.covered (requested ops) emptyTree [] := ⟨rfl, trivial⟩
  have hfresh : ∀ (store : Res Any) (d : values), values.covered (requested ops) d [] →
      (values.setWith store d (segments n)).2 = (values.setWith store newSub (segments n)).2 ∧
      (d.Get n).2 = false := by
    intro store d hd
    have := values.setWith_fresh store (requested ops) (segments n) d [] hd (by simpa using hnew)
    refine ⟨this.1, ?_⟩
    simp only [values.Get, values.GetWithLock]
    cases hr : (values.getSegs false d (segments n)).2 with
    | ok x => exact absurd hr (this.2 x)
    | err e => rfl
    | panic => rfl
  rw [Get_of_miss st n (hfresh (.ok (.atom .null)) st.defined hcov).2,
    Get_of_miss { st with defined := emptyTree } n
      (hfresh (.ok (.atom .null)) emptyTree hempty).2]
  simp only
  have hdef : ∀ (srcs : List ISource) (v : Any),
      (defineAndLock { st with sources := srcs } n v).2 =
        (defineAndLock { st with defined := emptyTree, sources := srcs } n v).2 := by
    intro srcs v
    apply defineAndLock_snd_of_Set
    simp only [values.Set]
    rw [(hfresh v.store st.defined hcov).1, (hfresh v.store emptyTree hempty).1]
  cases scanSources n st.sources with
  | mk srcs o =>
    cases o with
    | some v0 =>
      simp only
      cases mergeWithDefaults st.defaults n v0 with
      | ok v1 => exact hdef srcs v1
      | err e => rfl
      | panic => rfl
    | none =>
      simp only
      cases st.defaults.Get n with
      | mk v2 b =>
        cases b with
        | true => exact hdef srcs v2
        | false => rfl

/-- C6 (witness): after `AddSource` of a source with `a = {b: 5, c: 6}` and
`Get("a.b")`, the name `a.c` is fresh, and `Get("a.c")` returns `(6, true)` as it does
with an empty cache. -/
theorem c6_fresh_name_as_empty_cache_witness :
    (Get stateGotAB "a.c").2 = .ok (intVal 6, true) ∧
    (Get stateGotAB "a.c").2 = (Get { stateGotAB with defined := emptyTree } "a.c").2 :=
  ⟨by decide, c6_fresh_name_as_empty_cache opsGetAB stateGotAB "a.c" rfl (by decide)⟩


/-! ## C11: `SetDefault` is set-once -/

/-- `Set` of a name that the tree holds returns an error and leaves the tree as it is. -/
theorem values.setWith_of_found (store : Res Any) (segs : List String) :
    ∀ (v : values) (x : Any), (values.getSegs false v segs).2 = .ok x →
      ∃ e, values.setWith store v segs = (v, .err e) := by
  induction segs with
  | nil => intro v x h; simp [values.getSegs] at h
  | cons seg rest ih =>
    intro v x
    cases rest with
    | nil =>
      by_cases hv : nameRegexMatch seg = true
      · cases hf : v.value.find? seg with
        | none => simp [values.getSegs_one, hv, hf]
        | some y =>
          intro _
          cases hl : v.locked with
          | true => exact ⟨.locked, by simp [values.setWith_one, hv, hl]⟩
          | false => exact ⟨.alreadyDefined, by simp [values.setWith_one, hv, hl, hf]⟩
      · simp [values.getSegs_one, hv]
    | cons s2 r =>
      by_cases hv : nameRegexMatch seg = true
      · cases hf : v.value.find? seg with
        | none => simp [values.getSegs_cons, hv, hf]
        | some y =>
          cases y with
          | atom a => simp [values.getSegs_cons, hv, hf]
          | obj o => simp [values.getSegs_cons, hv, hf]
          | ptr sub =>
            intro h
            simp only [values.getSegs_cons, hv, hf, Bool.not_true, Bool.false_eq_true,
              if_false] at h
            obtain ⟨e, he⟩ := ih sub x h
            refine ⟨e, ?_⟩
            simp [values.setWith_cons, hv, hf, he, Fields.set_of_find? hf]
      · simp [values.getSegs_cons, hv]

theorem values.Get_found_iff (t : values) (n : String) :
    (t.Get n).2 = true ↔ ∃ x, (values.getSegs false t (segments n)).2 = .ok x := by
  simp only [values.Get, values.GetWithLock]
  cases (values.getSegs false t (segments n)).2 <;> simp

/-- C11: whenever the resolution cache or the defaults registry holds `n`,
`SetDefault(n, v)` returns an error and the package state, the defaults registry and
the resolution cache included, is as before the call. -/
theorem c11_set_default_once (st : State) (n : String) (v : Any)
    (h : (st.defined.Get n).2 = true ∨ (st.defaults.Get n).2 = true) :
    ∃ e, SetDefault st n v = (st, .err e) := by
  simp only [SetDefault]
  cases hd : st.defined.Get n with
  | mk x b =>
    cases b with
    | true => exact ⟨.defaultAlreadyDefined, rfl⟩
    | false =>
      rw [hd] at h
      simp only [Bool.false_eq_true, false_or] at h
      obtain ⟨y, hy⟩ := (values.Get_found_iff _ _).1 h
      obtain ⟨e, he⟩ := values.setWith_of_found v.store (segments n) st.defaults y hy
      refine ⟨.failedToSetDefault e, ?_⟩
      simp only [values.Set, he]

/-- C11 (witness): after `SetDefault("rpc.server", {http: {port: 8000, address:
"localhost"}})`, setting `rpc.server` again and setting `rpc.server.http.port` both
return an error. -/
theorem c11_set_default_once_witness :
    (∃ e, SetDefault stateRpcServer "rpc.server" (.obj mapHttpDefaults) =
      (stateRpcServer, .err e)) ∧
    (∃ e, SetDefault stateRpcServer "rpc.server.http.port" (intVal 9000) =
      (stateRpcServer, .err e)) :=
  ⟨c11_set_default_once stateRpcServer "rpc.server" (.obj mapHttpDefaults)
      (Or.inr (by decide)),
    c11_set_default_once stateRpcServer "rpc.server.http.port" (intVal 9000)
      (Or.inr (by decide))⟩


/-! ## C12: `GetNamed` selects exactly one variant -/

theorem Fields.len_eq_one_iff (m : Fields) : m.len = 1 ↔ ∃ k v, m = .cons k v .nil := by
  cases m with
  | nil => simp [Fields.len]
  | cons k v rest =>
    cases rest with
    | nil => simp [Fields.len]
    | cons k1 v1 r1 => simp [Fields.len]

/-- C12: `GetNamed(n)` returns `(k, v, true)` exactly when `Get(n)` returns `(obj, true)`
for a map `obj` with the one entry `k ↦ v`; whenever `Get(n)` returns anything else,
`GetNamed(n)` returns `("", nil, false)`; the package state after `GetNamed(n)` is the
one after `Get(n)`. -/
theorem c12_get_named_one_variant (st : State) (n : String) :
    (∀ k v, (GetNamed st n).2 = .ok (k, v, true) ↔
      (Get st n).2 = .ok (.obj (.cons k v .nil), true)) ∧
    (∀ x b, (Get st n).2 = .ok (x, b) →
      (¬ ∃ k v, b = true ∧ x = .obj (.cons k v .nil)) →
      (GetNamed st n).2 = .ok ("", .atom .null, false)) ∧
    (GetNamed st n).1 = (Get st n).1 := by
  simp only [GetNamed]
  cases hg : Get st n with
  | mk st1 r =>
    cases r with
    | err e => simp
    | panic => simp
    | ok p =>
      obtain ⟨x, b⟩ := p
      cases b with
      | false => simp
      | true =>
        cases x with
        | atom a => simp
        | ptr q => simp
        | obj m =>
          cases m with
          | nil => simp [Fields.len]
          | cons k1 v1 rest =>
            cases rest with
            | nil => simp [Fields.len]
            | cons k2 v2 r2 => simp [Fields.len]

/-- C12 (witness): with the default `sel.http = {port: 9000}`, `GetNamed("sel")` returns
`("http", {port: 9000}, true)`, and `GetNamed("sel.http.port")`, whose value is no map,
returns `("", nil, false)`. -/
theorem c12_get_named_one_variant_witness :
    (GetNamed stateSelHttp "sel").2 =
      .ok ("http", .obj (.cons "port" (intVal 9000) .nil), true) ∧
    (GetNamed stateSelHttp "sel.http.port").2 = .ok ("", .atom .null, false) :=
  ⟨((c12_get_named_one_variant stateSelHttp "sel").1 "http"
      (.obj (.cons "port" (intVal 9000) .nil))).2 (by decide),
    (c12_get_named_one_variant stateSelHttp "sel.http.port").2.1 (intVal 9000) true
      (by decide) (by simp [intVal])⟩

/-! ## C13: an ambiguous selection resolved from the cache -/

/-- C13: the code at the failing input. After `SetDefault("server.http", {limit_tps:
10})` and `SetDefault("server.batch", {})` there is no source, the defaults hold the two
variants `http` and `batch` below `server`, and `GetNamed("server")` returns
`("", nil, false)`; but after a further `Get("server.http")`, with the same defaults
and still no source, `GetNamed("server")` returns `("http", {limit_tps: 10}, true)`. -/
theorem c13_get_named_after_get_variant :
    (runOps State.init opsTwoVariants).map (fun st => (GetNamed st "server").2) =
      some (.ok ("", .atom .null, false)) ∧
    (runOps State.init opsTwoVariantsGetOne).map (fun st => st.sources.length) = some 0 ∧
    (runOps State.init opsTwoVariantsGetOne).map (fun st => st.defaults.Get "server") =
      some (.obj (.cons "http" (.obj (.cons "limit_tps" (intVal 10) .nil))
        (.cons "batch" (.obj .nil) .nil)), true) ∧
    (runOps State.init opsTwoVariantsGetOne).map (fun st => (GetNamed st "server").2) =
      some (.ok ("http", .obj (.cons "limit_tps" (intVal 10) .nil), true)) := by
  decide


/-! ## C14: decode, then validate -/

/-- C14: when `Get(n)` returns `(v, true)`, the template is a struct or a pointer to a
struct and `v` decodes into the record `r`, then: with a validation hook on a pointer
receiver that succeeds, `GetStruct(n, template)` returns the record as the hook left it;
with a hook, on either receiver, that fails, it returns an error. -/
theorem c14_decode_then_validate {ρ : Type} (st : State) (n : String) (tmpl : Template ρ)
    (v : Any) (r : ρ)
    (hget : (Get st n).2 = .ok (v, true))
    (hkind : tmpl.kind = .struct ∨ tmpl.kind = .ptrToStruct)
    (hdec : tmpl.decode v = .ok r) :
    (∀ f, tmpl.validator = .byPointer f → (f r).2 = false →
      (GetStruct st n tmpl).2 =
        if tmpl.kind = .ptrToStruct then .ok (.ptr (f r).1) else .ok (.val (f r).1)) ∧
    (∀ f, tmpl.validator = .byPointer f → (f r).2 = true →
      (GetStruct st n tmpl).2 = .err .invalidStruct) ∧
    (∀ g, tmpl.validator = .byValue g → g r = true →
      (GetStruct st n tmpl).2 = .err .invalidStruct) := by
  have hG : (GetStruct st n tmpl).2 = decodeInto tmpl v := by
    simp only [GetStruct]
    cases hg : Get st n with
    | mk st1 res =>
      rw [hg] at hget
      simp only at hget
      subst hget
      rfl
  rw [hG]
  refine ⟨?_, ?_, ?_⟩
  · intro f hf hok
    rcases hkind with hk | hk <;> simp [decodeInto, hk, hdec, hf, hok]
  · intro f hf hbad
    rcases hkind with hk | hk <;> simp [decodeInto, hk, hdec, hf, hbad]
  · intro g hg hbad
    rcases hkind with hk | hk <;> simp [decodeInto, hk, hdec, hg, hbad]

/-- C14 (witness): the default `server.http = {port: 0}` and the hook of
`httpServerConfig`, which puts 8000 for the port 0: `GetStruct` returns the record with
port 8000 and address `localhost`; with the port -1 the hook fails and `GetStruct`
returns an error. -/
theorem c14_decode_then_validate_witness :
    (GetStruct statePortZero "server.http" templateHttp).2 =
      .ok (.val ⟨"localhost", 8000, 0⟩) ∧
    (GetStruct statePortNegative "server.http" templateHttp).2 = .err .invalidStruct :=
  ⟨(c14_decode_then_validate statePortZero "server.http" templateHttp
      (.obj (.cons "port" (intVal 0) .nil)) ⟨"", 0, 0⟩ (by decide) (Or.inl rfl) (by decide)).1
      HttpServerConfig.Validate rfl (by decide),
    (c14_decode_then_validate statePortNegative "server.http" templateHttp
      (.obj (.cons "port" (intVal (-1)) .nil)) ⟨"", -1, 0⟩ (by decide) (Or.inl rfl)
      (by decide)).2.1 HttpServerConfig.Validate rfl (by decide)⟩

/-! ## C15: `GetNamedStruct` dispatches on the discriminator -/

/-- C15: `GetNamedStruct(n, T)` returns an error when `GetNamed(n)` returns `ok = false`,
and when the discriminator that `GetNamed(n)` returns is no key of `T`; when it
returns a name and a record, the name is the discriminator that `GetNamed(n)` returns
and is a key of `T`. -/
theorem c15_get_named_struct_dispatch {ρ : Type} (st : State) (n : String)
    (templates : List (String × Template ρ)) :
    (∀ k v, (GetNamed st n).2 = .ok (k, v, false) →
      (GetNamedStruct st n templates).2 = .err .namedNotDefined) ∧
    (∀ k v, (GetNamed st n).2 = .ok (k, v, true) → templates.lookup k = none →
      (GetNamedStruct st n templates).2 = .err .unknownNamed) ∧
    (∀ name r, (GetNamedStruct st n templates).2 = .ok (name, r) →
      (∃ v, (GetNamed st n).2 = .ok (name, v, true)) ∧
      (templates.lookup name).isSome = true) := by
  simp only [GetNamedStruct]
  cases hg : GetNamed st n with
  | mk st1 res =>
    cases res with
    | err e => simp
    | panic => simp
    | ok p =>
      obtain ⟨k, v, b⟩ := p
      cases b with
      | false => simp
      | true =>
        refine ⟨by simp, ?_, ?_⟩
        · intro k1 v1 h hl
          simp only [Res.ok.injEq, Prod.mk.injEq, and_true] at h
          obtain ⟨h1, _⟩ := h
          subst h1
          simp [hl]
        · intro name r
          simp only
          cases hl : templates.lookup k with
          | none => simp
          | some tmpl =>
            simp only
            cases decodeInto tmpl v with
            | err e => simp
            | panic => simp
            | ok r1 =>
              simp only [Res.ok.injEq, Prod.mk.injEq]
              rintro ⟨h1, _⟩
              subst h1
              exact ⟨by simp, by simp [hl]⟩

/-- C15 (witness): with the default `server.http = {port: 0}`, `GetNamed("server")`
returns the discriminator `http`; `GetNamedStruct` with a template for `http` returns
`http` and the validated record, and with a template for `batch` only it returns an
error. -/
theorem c15_get_named_struct_dispatch_witness :
    (GetNamed statePortZero "server").2 =
      .ok ("http", .obj (.cons "port" (intVal 0) .nil), true) ∧
    (GetNamedStruct statePortZero "server" [("http", templateHttp)]).2 =
      .ok ("http", .val ⟨"localhost", 8000, 0⟩) ∧
    (GetNamedStruct statePortZero "server" [("batch", templateHttp)]).2 =
      .err .unknownNamed :=
  ⟨by decide, by decide,
    (c15_get_named_struct_dispatch statePortZero "server" [("batch", templateHttp)]).2.1
      "http" (.obj (.cons "port" (intVal 0) .nil)) (by decide) rfl⟩

/-! ## C16: the name grammar -/

theorem Rx.fullMatch_none (x : List Char) : Rx.fullMatch .none x = false := by
  induction x with
  | nil => rfl
  | cons c cs ih => simpa [Rx.fullMatch, Rx.deriv] using ih

theorem Rx.fullMatch_eps (x : List Char) : Rx.fullMatch .eps x = true ↔ x = [] := by
  cases x with
  | nil => simp [Rx.fullMatch, Rx.nullable]
  | cons c cs => simp [Rx.fullMatch, Rx.deriv, Rx.fullMatch_none]

theorem Rx.fullMatch_range (lo hi : Char) (x : List Char) :
    Rx.fullMatch (.range lo hi) x = true ↔
      ∃ c, x = [c] ∧ lo.toNat ≤ c.toNat ∧ c.toNat ≤ hi.toNat := by
  cases x with
  | nil => simp [Rx.fullMatch, Rx.nullable]
  | cons c cs =>
    by_cases h : lo.toNat ≤ c.toNat ∧ c.toNat ≤ hi.toNat
    · simp only [Rx.fullMatch, Rx.deriv, h, and_self, if_true, Rx.fullMatch_eps]
      constructor
      · rintro rfl
        exact ⟨c, rfl, h⟩
      · rintro ⟨d, hd, _⟩
        simp only [List.cons.injEq] at hd
        exact hd.2
    · simp only [Rx.fullMatch, Rx.deriv, h, if_false, Rx.fullMatch_none, Bool.false_eq_true,
        false_iff]
      rintro ⟨d, hd, h1⟩
      simp only [List.cons.injEq] at hd
      exact h (hd.1 ▸ h1)

theorem Rx.fullMatch_alt (x : List Char) : ∀ a b : Rx,
    Rx.fullMatch (.alt a b) x = (Rx.fullMatch a x || Rx.fullMatch b x) := by
  induction x with
  | nil => intro a b; rfl
  | cons c cs ih => intro a b; simpa [Rx.fullMatch, Rx.deriv] using ih _ _

theorem Rx.fullMatch_seq (x : List Char) : ∀ a b : Rx,
    Rx.fullMatch (.seq a b) x = true ↔
      ∃ t u, x = t ++ u ∧ Rx.fullMatch a t = true ∧ Rx.fullMatch b u = true := by
  induction x with
  | nil =>
    intro a b
    simp only [Rx.fullMatch, Rx.nullable, Bool.and_eq_true]
    constructor
    · intro h
      exact ⟨[], [], rfl, h.1, h.2⟩
    · rintro ⟨t, u, h, ht, hu⟩
      have h1 : t = [] ∧ u = [] := by simpa using h.symm
      rw [h1.1] at ht
      rw [h1.2] at hu
      exact ⟨ht, hu⟩
  | cons c cs ih =>
    intro a b
    have step : Rx.fullMatch (.seq a b) (c :: cs) =
        (Rx.fullMatch (.seq (a.deriv c) b) cs || (a.nullable && Rx.fullMatch (b.deriv c) cs)) := by
      cases hn : a.nullable <;> simp [Rx.fullMatch, Rx.deriv, hn, Rx.fullMatch_alt]
    rw [step, Bool.or_eq_true, Bool.and_eq_true, ih]
    constructor
    · rintro (⟨t, u, h, ht, hu⟩ | ⟨hn, hb⟩)
      · exact ⟨c :: t, u, by simp [h], ht, hu⟩
      · exact ⟨[], c :: cs, rfl, hn, hb⟩
    · rintro ⟨t, u, h, ht, hu⟩
      cases t with
      | nil =>
        right
        simp only [List.nil_append] at h
        subst h
        exact ⟨ht, hu⟩
      | cons d t =>
        left
        simp only [List.cons_append, List.cons.injEq] at h
        obtain ⟨h1, h2⟩ := h
        subst h1
        exact ⟨t, u, h2, ht, hu⟩

theorem Rx.fullMatch_star (a : Rx) : ∀ (n : Nat) (x : List Char), x.length ≤ n →
    (Rx.fullMatch (.star a) x = true ↔
      ∃ S : List (List Char), x = S.flatten ∧ ∀ t ∈ S, t ≠ [] ∧ Rx.fullMatch a t = true) := by
  intro n
  induction n with
  | zero =>
    intro x hx
    have : x = [] := List.length_eq_zero.1 (Nat.le_zero.1 hx)
    subst this
    simp only [Rx.fullMatch, Rx.nullable, true_iff]
    exact ⟨[], rfl, by simp⟩
  | succ n ih =>
    intro x hx
    cases x with
    | nil =>
      simp only [Rx.fullMatch, Rx.nullable, true_iff]
      exact ⟨[], rfl, by simp⟩
    | cons c cs =>
      have step : Rx.fullMatch (.star a) (c :: cs) = Rx.fullMatch (.seq (a.deriv c) (.star a)) cs :=
        rfl
      rw [step, Rx.fullMatch_seq]
      constructor
      · rintro ⟨t, u, h, ht, hu⟩
        have hlen : u.length ≤ n := by
          have : cs.length ≤ n := by simpa using hx
          have h2 : cs.length = t.length + u.length := by simp [h]
          omega
        obtain ⟨S, hS, hall⟩ := (ih u hlen).1 hu
        refine ⟨(c :: t) :: S, by simp [h, hS], ?_⟩
        intro b hb
        simp only [List.mem_cons] at hb
        rcases hb with hb | hb
        · subst hb
          exact ⟨by simp, ht⟩
        · exact hall b hb
      · rintro ⟨S, hS, hall⟩
        cases S with
        | nil => simp at hS
        | cons b S =>
          have hb := hall b (by simp)
          cases b with
          | nil => exact absurd rfl hb.1
          | cons d t =>
            simp only [List.flatten, List.cons_append, List.cons.injEq] at hS
            obtain ⟨h1, h2⟩ := hS
            subst h1
            have hlen : S.flatten.length ≤ n := by
              have : cs.length ≤ n := by simpa using hx
              have h3 : cs.length = t.length + S.flatten.length := by simp [h2]
              omega
            refine ⟨t, S.flatten, h2, hb.2, (ih _ hlen).2 ⟨S, rfl, ?_⟩⟩
            intro b1 hb1
            exact hall b1 (by simp [hb1])

theorem Char.eq_of_toNat_eq {c d : Char} (h : c.toNat = d.toNat) : c = d := by
  rw [← Char.ofNat_toNat c, ← Char.ofNat_toNat d, h]

theorem fullMatch_rxLetter (x : List Char) :
    rxLetter.fullMatch x = true ↔ ∃ c, x = [c] ∧ isAsciiLetter c = true := by
  simp only [rxLetter, Rx.fullMatch_alt, Bool.or_eq_true, Rx.fullMatch_range, isAsciiLetter,
    decide_eq_true_eq]
  constructor
  · rintro (⟨c, h, hc⟩ | ⟨c, h, hc⟩)
    · exact ⟨c, h, Or.inl hc⟩
    · exact ⟨c, h, Or.inr hc⟩
  · rintro ⟨c, h, hc | hc⟩
    · exact Or.inl ⟨c, h, hc⟩
    · exact Or.inr ⟨c, h, hc⟩

theorem fullMatch_rxAlnum (x : List Char) :
    rxAlnum.fullMatch x = true ↔
      ∃ c, x = [c] ∧ (isAsciiLetter c || isAsciiDigit c) = true := by
  simp only [rxAlnum, Rx.fullMatch_alt, Bool.or_eq_true, fullMatch_rxLetter,
    Rx.fullMatch_range, isAsciiDigit, decide_eq_true_eq]
  constructor
  · rintro (⟨c, h, hc⟩ | ⟨c, h, hc⟩)
    · exact ⟨c, h, Or.inl hc⟩
    · exact ⟨c, h, Or.inr hc⟩
  · rintro ⟨c, h, hc | hc⟩
    · exact Or.inl ⟨c, h, hc⟩
    · exact Or.inr ⟨c, h, hc⟩

theorem fullMatch_rxWord (x : List Char) :
    rxWord.fullMatch x = true ↔ ∃ c, x = [c] ∧ isNameChar c = true := by
  simp only [rxWord, Rx.fullMatch_alt, Bool.or_eq_true, fullMatch_rxAlnum,
    Rx.fullMatch_range, isNameChar, decide_eq_true_eq]
  constructor
  · rintro (⟨c, h, hc⟩ | ⟨c, h, hc⟩ | ⟨c, h, hc⟩)
    · exact ⟨c, h, Or.inl (Or.inl hc)⟩
    · exact ⟨c, h, Or.inl (Or.inr (Char.eq_of_toNat_eq (Nat.le_antisymm hc.2 hc.1)))⟩
    · exact ⟨c, h, Or.inr (Char.eq_of_toNat_eq (Nat.le_antisymm hc.2 hc.1))⟩
  · rintro ⟨c, h, (hc | hc) | hc⟩
    · exact Or.inl ⟨c, h, hc⟩
    · exact Or.inr (Or.inl ⟨c, h, by simp [hc]⟩)
    · exact Or.inr (Or.inr ⟨c, h, by simp [hc]⟩)

/-- `[a-zA-Z0-9_-]*` matches the strings of name characters. -/
theorem fullMatch_star_rxWord (x : List Char) :
    (Rx.star rxWord).fullMatch x = true ↔ ∀ c ∈ x, isNameChar c = true := by
  rw [Rx.fullMatch_star rxWord x.length x (Nat.le_refl _)]
  constructor
  · rintro ⟨S, hS, hall⟩ c hc
    subst hS
    simp only [List.mem_flatten] at hc
    obtain ⟨b, hb, hcb⟩ := hc
    obtain ⟨d, hd, hdn⟩ := (fullMatch_rxWord b).1 (hall b hb).2
    subst hd
    simp only [List.mem_singleton] at hcb
    exact hcb ▸ hdn
  · intro h
    refine ⟨x.map (fun c => [c]), ?_, ?_⟩
    · have hx : ∀ y : List Char, y = (y.map (fun c => [c])).flatten := by
        intro y
        induction y with
        | nil => rfl
        | cons c cs ih => simpa [List.flatten] using ih
      exact hx x
    · intro b hb
      simp only [List.mem_map] at hb
      obtain ⟨c, hc, rfl⟩ := hb
      exact ⟨by simp, (fullMatch_rxWord _).2 ⟨c, rfl, h c hc⟩⟩

/-- `[a-zA-Z0-9_-]*[a-zA-Z0-9]` matches the strings of name characters that end in a
letter or a digit. -/
theorem fullMatch_block (x : List Char) :
    (Rx.seq (.star rxWord) rxAlnum).fullMatch x = true ↔
      ∃ w a, x = w ++ [a] ∧ (∀ c ∈ w, isNameChar c = true) ∧
        (isAsciiLetter a || isAsciiDigit a) = true := by
  rw [Rx.fullMatch_seq]
  constructor
  · rintro ⟨t, u, h, ht, hu⟩
    obtain ⟨a, ha, han⟩ := (fullMatch_rxAlnum u).1 hu
    subst ha
    exact ⟨t, a, h, (fullMatch_star_rxWord t).1 ht, han⟩
  · rintro ⟨w, a, h, hw, ha⟩
    exact ⟨w, [a], h, (fullMatch_star_rxWord w).2 hw, (fullMatch_rxAlnum _).2 ⟨a, rfl, ha⟩⟩

theorem isNameChar_of_alnum {a : Char} (h : (isAsciiLetter a || isAsciiDigit a) = true) :
    isNameChar a = true := by
  simp only [isNameChar, Bool.or_eq_true] at h ⊢
  exact Or.inl (Or.inl h)

/-- `([a-zA-Z0-9_-]*[a-zA-Z0-9])*` matches the empty string and the strings of name
characters that end in a letter or a digit. -/
theorem fullMatch_tail (x : List Char) :
    (Rx.star (.seq (.star rxWord) rxAlnum)).fullMatch x = true ↔
      (∀ c ∈ x, isNameChar c = true) ∧
      (x = [] ∨ ∃ w a, x = w ++ [a] ∧ (isAsciiLetter a || isAsciiDigit a) = true) := by
  rw [Rx.fullMatch_star _ x.length x (Nat.le_refl _)]
  constructor
  · rintro ⟨S, hS, hall⟩
    subst hS
    induction S with
    | nil => simp
    | cons b S ih =>
      obtain ⟨w, a, hb, hw, ha⟩ := (fullMatch_block b).1 (hall b (by simp)).2
      obtain ⟨ih1, ih2⟩ := ih (fun t ht => hall t (by simp [ht]))
      subst hb
      constructor
      · intro c hc
        simp only [List.flatten, List.mem_append, List.mem_singleton] at hc
        rcases hc with (hc | hc) | hc
        · exact hw c hc
        · exact hc ▸ isNameChar_of_alnum ha
        · exact ih1 c hc
      · right
        rcases ih2 with h0 | ⟨w1, a1, h1, ha1⟩
        · exact ⟨w, a, by simp [List.flatten, h0], ha⟩
        · exact ⟨(w ++ [a]) ++ w1, a1, by simp [List.flatten, h1], ha1⟩
  · rintro ⟨hall, h0 | ⟨w, a, h, ha⟩⟩
    · exact ⟨[], by simp [h0], by simp⟩
    · subst h
      refine ⟨[w ++ [a]], by simp [List.flatten], ?_⟩
      intro b hb
      simp only [List.mem_singleton] at hb
      subst hb
      exact ⟨by simp, (fullMatch_block _).2
        ⟨w, a, rfl, fun c hc => hall c (by simp [hc]), ha⟩⟩

theorem isAlnum_of_letter {a : Char} (h : isAsciiLetter a = true) :
    (isAsciiLetter a || isAsciiDigit a) = true := by
  simp [h]

/-- The name pattern accepts exactly the segments of the grammar. -/
theorem nameRegexMatch_eq_validSegment (s : String) : nameRegexMatch s = validSegment s := by
  rw [Bool.eq_iff_iff]
  simp only [nameRegexMatch, namePattern, Rx.fullMatch_seq, fullMatch_rxLetter, fullMatch_tail,
    validSegment]
  generalize s.data = x
  constructor
  · rintro ⟨t, u, h, ⟨c, hc, hl⟩, hall, hlast⟩
    subst hc
    subst h
    rcases hlast with h0 | ⟨w, a, hu, ha⟩
    · subst h0
      simp [hl, isNameChar, isAlnum_of_letter hl]
    · subst hu
      have h1 : ([c] ++ (w ++ [a])).getLast? = some a := by
        rw [← List.append_assoc, List.getLast?_append]
        simp
      have h2 : ([c] ++ (w ++ [a])).head? = some c := rfl
      rw [h1, h2]
      simp only [Bool.and_eq_true, List.all_eq_true]
      refine ⟨⟨hl, ?_⟩, ha⟩
      intro d hd
      simp only [List.singleton_append, List.mem_cons] at hd
      rcases hd with hd | hd
      · exact hd ▸ isNameChar_of_alnum (isAlnum_of_letter hl)
      · exact hall d hd
  · intro h
    cases x with
    | nil => simp at h
    | cons c u =>
      have hne : (c :: u) ≠ [] := by simp
      have hlast : (c :: u).getLast? = some ((c :: u).getLast hne) := List.getLast?_eq_getLast _ hne
      rw [hlast] at h
      simp only [List.head?_cons, Bool.and_eq_true, List.all_eq_true] at h
      obtain ⟨⟨hl, hall⟩, ha⟩ := h
      refine ⟨[c], u, rfl, ⟨c, rfl, hl⟩, fun d hd => hall d (by simp [hd]), ?_⟩
      cases u with
      | nil => exact Or.inl rfl
      | cons d u1 =>
        right
        have hne1 : (d :: u1) ≠ [] := by simp
        refine ⟨(d :: u1).dropLast, (d :: u1).getLast hne1,
          (List.dropLast_append_getLast hne1).symm, ?_⟩
        have : (c :: d :: u1).getLast hne = (d :: u1).getLast hne1 := by
          simp [List.getLast_cons]
        rw [← this]
        exact ha

theorem values.delSegs_cons (v : values) (seg s2 : String) (r : List String) :
    values.delSegs v (seg :: s2 :: r) =
      if !nameRegexMatch seg then (v, .err .invalidName)
      else match v.value.find? seg with
        | some (.ptr sub) =>
          ((v.withValue (v.value.set seg (.ptr (values.delSegs sub (s2 :: r)).1))),
            (values.delSegs sub (s2 :: r)).2)
        | some _ => (v, .panic)
        | none => (v, .ok ()) := by
  rw [values.delSegs]
  simp

/-- C16: the name check `nameRegex.MatchString` accepts a segment exactly when the
segment is not empty, starts with an ASCII letter, holds only ASCII letters, digits,
`_` and `-`, and ends in a letter or a digit; `Set`, `Get` and `Del` refuse a name
whose first segment is not of that form; the empty segment is not, and `Get("")`
returns `(nil, false)` on every tree. -/
theorem c16_name_grammar :
    (∀ s : String, nameRegexMatch s = validSegment s) ∧
    (∀ (t : values) (name seg : String) (rest : List String) (v : Any),
      segments name = seg :: rest → validSegment seg = false →
      t.Set name v = (t, .err .invalidName) ∧ t.Get name = (.atom .null, false) ∧
      t.Del name = (t, .err .invalidName)) ∧
    validSegment "" = false ∧
    (∀ t : values, t.Get "" = (.atom .null, false)) := by
  have key : ∀ (t : values) (name seg : String) (rest : List String) (v : Any),
      segments name = seg :: rest → validSegment seg = false →
      t.Set name v = (t, .err .invalidName) ∧ t.Get name = (.atom .null, false) ∧
      t.Del name = (t, .err .invalidName) := by
    intro t name seg rest v hseg hbad
    rw [← nameRegexMatch_eq_validSegment] at hbad
    simp only [values.Set, values.Get, values.GetWithLock, values.Del, hseg]
    cases rest with
    | nil => simp [values.setWith_one, values.getSegs_one, values.delSegs_one, hbad]
    | cons s2 r => simp [values.setWith_cons, values.getSegs_cons, values.delSegs_cons, hbad]
  refine ⟨nameRegexMatch_eq_validSegment, key, by decide, ?_⟩
  intro t
  exact (key t "" "" [] (.atom .null) (by decide) (by decide)).2.1


/-! ## C17: maps are expanded -/

/-- After a successful `Set` that stored a branch, a read below the name is a read in
that branch. -/
theorem values.setWith_get_below (sub : values) (more : List String) (hmore : more ≠ [])
    (segs : List String) :
    ∀ v : values, (values.setWith (.ok (.ptr sub)) v segs).2 = .ok () →
      (values.getSegs false (values.setWith (.ok (.ptr sub)) v segs).1 (segs ++ more)).2 =
        (values.getSegs false sub more).2 := by
  induction segs with
  | nil => intro v h; simp [values.setWith] at h
  | cons seg rest ih =>
    intro v
    cases rest with
    | nil =>
      by_cases hv : nameRegexMatch seg = true
      · cases hl : v.locked with
        | true => simp [values.setWith_one, hv, hl]
        | false =>
          cases hf : v.value.find? seg with
          | some x => simp [values.setWith_one, hv, hl, hf]
          | none =>
            intro _
            simp [values.setWith_one, values.getSegs_cons_ne _ _ _ hmore, hv, hl, hf]
      · simp [values.setWith_one, hv]
    | cons s2 r =>
      by_cases hv : nameRegexMatch seg = true
      · cases hf : v.value.find? seg with
        | none =>
          intro h
          simp only [values.setWith_cons, hv, hf, Bool.not_true, Bool.false_eq_true,
            if_false] at h ⊢
          simpa [values.getSegs_cons, hv] using ih newSub h
        | some x =>
          cases x with
          | atom a => simp [values.setWith_cons, hv, hf]
          | obj m => simp [values.setWith_cons, hv, hf]
          | ptr sub1 =>
            intro h
            simp only [values.setWith_cons, hv, hf, Bool.not_true, Bool.false_eq_true,
              if_false] at h ⊢
            simpa [values.getSegs_cons, hv] using ih sub1 h
      · simp [values.setWith_cons, hv]

theorem values.getSegs_one_read {sub : values} {k : String} {y : Any}
    (hk : nameRegexMatch k = true) (hf : sub.value.find? k = some y) (b : Bool) :
    (values.getSegs b sub [k]).2 = .ok y.read := by
  cases y with
  | atom a => simp [values.getSegs_one, hk, hf, Any.read]
  | obj m => simp [values.getSegs_one, hk, hf, Any.read]
  | ptr q => cases b <;> simp [values.getSegs_one, hk, hf, Any.read, values.Value_SetLock]

theorem Fields.segKey_of_valid {m : Fields} {k : String} {x : Any} (hm : m.valid = true)
    (h : m.find? k = some x) : segKey k = true := by
  induction m with
  | nil => simp at h
  | cons k1 x1 rest ih =>
    simp only [Fields.valid, Bool.and_eq_true] at hm
    by_cases h1 : k1 = k
    · exact h1 ▸ hm.1.1.1
    · simp only [Fields.find?, h1, if_false] at h
      exact ih hm.2 h

/-- C17: when `Set(p, obj)` succeeds for a map `obj` whose keys are at every level
grammar-valid single segments, `Get(p)` returns the map `obj`, and `Get(p.k)` returns
`(obj[k], true)` for every key `k` of `obj`. -/
theorem c17_object_expanded (t t1 : values) (p : String) (obj : Fields)
    (hv : obj.valid = true) (hset : t.Set p (.obj obj) = (t1, .ok ())) :
    t1.Get p = (.obj obj, true) ∧
    (∀ k x, obj.find? k = some x → t1.Get (p ++ "." ++ k) = (x, true)) := by
  have h1 : (values.setWith (Any.obj obj).store t (segments p)).1 = t1 := congrArg Prod.fst hset
  have h2 : (values.setWith (Any.obj obj).store t (segments p)).2 = .ok () :=
    congrArg Prod.snd hset
  obtain ⟨item, hs, hr, hw, _⟩ := Any.store_valid (.obj obj) (by simpa [Any.valid] using hv)
  obtain ⟨item1, hs1, hg⟩ := values.setWith_get _ (segments p) t h2
  rw [hs] at hs1
  cases hs1
  rw [h1] at hg
  constructor
  · simp [values.Get, values.GetWithLock, hg, hr]
  · intro k x hx
    cases item with
    | atom a => simp [Any.read] at hr
    | obj m => simp [Any.wfItem] at hw
    | ptr sub =>
      have hval : sub.value.exported = obj := by
        simpa [Any.read, values.Value_eq] using hr
      have hk := Fields.segKey_of_valid hv hx
      rw [← hval, Fields.find?_exported] at hx
      cases hf : sub.value.find? k with
      | none => rw [hf] at hx; simp at hx
      | some y =>
        rw [hf] at hx
        simp only [Option.map_some', Option.some.injEq] at hx
        rw [hs] at h1 h2
        have hb := values.setWith_get_below sub [k] (by simp) (segments p) t h2
        rw [h1, values.getSegs_one_read (nameRegexMatch_of_segKey hk) hf false, hx] at hb
        simp [values.Get, values.GetWithLock, segments_append_dot, segments_of_segKey hk, hb]

/-- C17 (witness): `Set("d", {"one": 1, "two": 2, "three": 3})` on an empty tree, as in
values_test.go:53-75. -/
theorem c17_object_expanded_witness :
    (emptyTree.Set "d" objOneTwoThree).1.Get "d" = (objOneTwoThree, true) ∧
    (emptyTree.Set "d" objOneTwoThree).1.Get ("d" ++ "." ++ "two") = (intVal 2, true) :=
  ⟨(c17_object_expanded emptyTree (emptyTree.Set "d" objOneTwoThree).1 "d"
      (.cons "one" (intVal 1) (.cons "two" (intVal 2) (.cons "three" (intVal 3) .nil)))
      (by decide) (by decide)).1,
    (c17_object_expanded emptyTree (emptyTree.Set "d" objOneTwoThree).1 "d"
      (.cons "one" (intVal 1) (.cons "two" (intVal 2) (.cons "three" (intVal 3) .nil)))
      (by decide) (by decide)).2 "two" (intVal 2) (by decide)⟩


/-! ## C18: partial extension -/

theorem Fields.find?_append_of_some {a b : Fields} {k : String} {x : Any}
    (h : a.find? k = some x) : (a.append b).find? k = some x := by
  induction a with
  | nil => simp at h
  | cons k1 x1 rest ih =>
    by_cases h1 : k1 = k
    · simpa [Fields.append, Fields.find?, h1] using h
    · simp only [Fields.find?, h1, if_false] at h
      simp [Fields.append, Fields.find?, h1, ih h]

/-- Along a name that resolves to an unlocked branch: the read returns the mapping of
the branch, `Set` of a leaf at a new valid key below it succeeds, and afterwards the
read returns the mapping of the branch with the key written and the read of the key
returns the leaf. -/
theorem values.setWith_extend (a : Atom) (k : String) (hk : nameRegexMatch k = true)
    (sub : values) (hl : sub.locked = false) (hnew : sub.value.find? k = none)
    (segs : List String) (hne : segs ≠ []) :
    ∀ t : values, t.branchAt? segs = some sub →
      (values.getSegs false t segs).2 = .ok (.obj sub.Value) ∧
      (values.setWith (.ok (.atom a)) t (segs ++ [k])).2 = .ok () ∧
      (values.getSegs false (values.setWith (.ok (.atom a)) t (segs ++ [k])).1 segs).2 =
        .ok (.obj (sub.withValue (sub.value.set k (.atom a))).Value) ∧
      (values.getSegs false (values.setWith (.ok (.atom a)) t (segs ++ [k])).1
        (segs ++ [k])).2 = .ok (.atom a) := by
  induction segs with
  | nil => exact absurd rfl hne
  | cons seg rest ih =>
    intro t
    by_cases hv : nameRegexMatch seg = true
    · cases hf : t.value.find? seg with
      | none => simp [values.branchAt?, hv, hf]
      | some x =>
        cases x with
        | atom b => simp [values.branchAt?, hv, hf]
        | obj m => simp [values.branchAt?, hv, hf]
        | ptr s1 =>
          cases rest with
          | nil =>
            intro h
            simp only [values.branchAt?, hv, hf, Bool.not_true, Bool.false_eq_true, if_false,
              Option.some.injEq] at h
            subst h
            simp [values.getSegs_one, values.getSegs_cons, values.setWith_cons,
              values.setWith_one, hv, hf, hk, hl, hnew]
          | cons s2 r =>
            intro h
            simp only [values.branchAt?, hv, hf, Bool.not_true, Bool.false_eq_true,
              if_false] at h
            have hih := ih (by simp) s1 h
            simp only [List.cons_append] at hih ⊢
            simp only [values.getSegs_cons, values.setWith_cons, hv, hf, Bool.not_true,
              Bool.false_eq_true, if_false, values.withValue_value, Fields.find?_set_self]
            exact hih
    · simp [values.branchAt?, hv]

/-- C18: when `p` resolves to an unlocked branch that has no key `k`, for a valid
single segment `k` and a leaf `a`: `Get(p)` returns the mapping of the branch,
`Set(p.k, a)` succeeds, and afterwards `Get(p)` returns that mapping extended with
`k ↦ a`, in which every earlier key has its earlier value, and `Get(p.k)` returns
`(a, true)`. -/
theorem c18_partial_extension (t sub : values) (p k : String) (a : Atom)
    (hp : t.branchAt? (segments p) = some sub)
    (hl : sub.locked = false)
    (hk : segKey k = true)
    (hnew : sub.value.find? k = none) :
    t.Get p = (.obj sub.Value, true) ∧
    (t.Set (p ++ "." ++ k) (.atom a)).2 = .ok () ∧
    (t.Set (p ++ "." ++ k) (.atom a)).1.Get p =
      (.obj (sub.Value.append (.cons k (.atom a) .nil)), true) ∧
    (∀ k1 x, sub.Value.find? k1 = some x →
      (sub.Value.append (.cons k (.atom a) .nil)).find? k1 = some x) ∧
    (t.Set (p ++ "." ++ k) (.atom a)).1.Get (p ++ "." ++ k) = (.atom a, true) := by
  obtain ⟨h1, h2, h3, h4⟩ := values.setWith_extend a k (nameRegexMatch_of_segKey hk) sub hl hnew
    (segments p) (segments_ne_nil p) t hp
  have hval : (sub.withValue (sub.value.set k (.atom a))).Value =
      sub.Value.append (.cons k (.atom a) .nil) := by
    have hnot : k ∉ sub.value.keys := (Fields.find?_eq_none_iff _ _).1 hnew
    rw [values.Value_eq, values.Value_eq, values.withValue_value,
      Fields.set_of_not_mem _ hnot, Fields.exported_append]
    rfl
  rw [hval] at h3
  have hsegs : segments (p ++ "." ++ k) = segments p ++ [k] := by
    rw [segments_append_dot, segments_of_segKey hk]
  refine ⟨?_, ?_, ?_, ?_, ?_⟩
  · simp [values.Get, values.GetWithLock, h1]
  · simpa [values.Set, hsegs, Any.store] using h2
  · simp only [values.Get, values.GetWithLock, values.Set, hsegs, Any.store, h3]
  · intro k1 x hx
    exact Fields.find?_append_of_some hx
  · simp only [values.Get, values.GetWithLock, values.Set, hsegs, Any.store, h4]

/-- C18 (witness): the tree with `d = {one: 1, two: 2, three: 3}`: `Set("d.four", 4)`
succeeds and `Get("d")` then has the four keys, as in values_test.go:84-99. -/
theorem c18_partial_extension_witness :
    ((emptyTree.Set "d" objOneTwoThree).1.Set ("d" ++ "." ++ "four") (.atom (.int 4))).2 =
      .ok () ∧
    ((emptyTree.Set "d" objOneTwoThree).1.Set ("d" ++ "." ++ "four") (.atom (.int 4))).1.Get
      "d" = (.obj (.cons "one" (intVal 1) (.cons "two" (intVal 2) (.cons "three" (intVal 3)
        (.cons "four" (intVal 4) .nil)))), true) :=
  ⟨(c18_partial_extension (emptyTree.Set "d" objOneTwoThree).1
      (.mk (.cons "one" (intVal 1) (.cons "two" (intVal 2) (.cons "three" (intVal 3) .nil)))
        false) "d" "four" (.int 4) (by decide) rfl (by decide) (by decide)).2.1,
    (c18_partial_extension (emptyTree.Set "d" objOneTwoThree).1
      (.mk (.cons "one" (intVal 1) (.cons "two" (intVal 2) (.cons "three" (intVal 3) .nil)))
        false) "d" "four" (.int 4) (by decide) rfl (by decide) (by decide)).2.2.1⟩

/-! ## C19: no lock on a leaf or a miss -/

/-- A read with lock that finds a leaf leaves the tree as it is. -/
theorem values.getSegs_atom_fst (a : Atom) (segs : List String) :
    ∀ t : values, (values.getSegs false t segs).2 = .ok (.atom a) →
      (values.getSegs true t segs).1 = t := by
  induction segs with
  | nil => intro t _; rfl
  | cons seg rest ih =>
    intro t
    cases rest with
    | nil =>
      by_cases hv : nameRegexMatch seg = true
      · cases hf : t.value.find? seg with
        | none => simp [values.getSegs_one, hv, hf]
        | some x => cases x <;> simp [values.getSegs_one, hv, hf]
      · simp [values.getSegs_one, hv]
    | cons s2 r =>
      by_cases hv : nameRegexMatch seg = true
      · cases hf : t.value.find? seg with
        | none => simp [values.getSegs_cons, hv, hf]
        | some x =>
          cases x with
          | atom b => simp [values.getSegs_cons, hv, hf]
          | obj m => simp [values.getSegs_cons, hv, hf]
          | ptr sub =>
            intro h
            simp only [values.getSegs_cons, hv, hf, Bool.not_true, Bool.false_eq_true,
              if_false] at h ⊢
            rw [ih sub h, Fields.set_of_find? hf]
            simp
      · simp [values.getSegs_cons, hv]

/-- C19: when `Get(p)` finds a leaf or finds nothing, `GetAndLock(p)` leaves the tree
as it is, values and lock flags, so every `Set` after it does what it does without
it. -/
theorem c19_no_lock_on_leaf_or_miss (t : values) (p : String)
    (h : (∃ a, t.Get p = (.atom a, true)) ∨ (t.Get p).2 = false) :
    (t.GetAndLock p).1 = t ∧
    (∀ (q : String) (v : Any), (t.GetAndLock p).1.Set q v = t.Set q v) := by
  have h1 : (t.GetAndLock p).1 = t := by
    rcases h with ⟨a, ha⟩ | hmiss
    · simp only [values.Get, values.GetWithLock] at ha
      cases hr : (values.getSegs false t (segments p)).2 with
      | ok x =>
        rw [hr] at ha
        simp only [Prod.mk.injEq, and_true] at ha
        subst ha
        exact values.getSegs_atom_fst a (segments p) t hr
      | err e => rw [hr] at ha; simp at ha
      | panic => rw [hr] at ha; simp at ha
    · obtain ⟨e, he⟩ := values.GetAndLock_of_not_found hmiss
      rw [he]
  exact ⟨h1, fun q v => by rw [h1]⟩

/-- C19 (witness): the tree with `p.a = 1`: `GetAndLock("p.a")` finds a leaf and
`GetAndLock("p.b")` finds nothing; the tree stays as it is and `Set("p.b", 2)` still
succeeds. -/
theorem c19_no_lock_on_leaf_or_miss_witness :
    (treePA.GetAndLock "p.a").1 = treePA ∧
    (treePA.GetAndLock "p.b").1 = treePA ∧
    ((treePA.GetAndLock "p.a").1.Set "p.b" (intVal 2)).2 = .ok () :=
  ⟨(c19_no_lock_on_leaf_or_miss treePA "p.a" (Or.inl ⟨.int 1, by decide⟩)).1,
    (c19_no_lock_on_leaf_or_miss treePA "p.b" (Or.inr (by decide))).1,
    by decide⟩

/-! ## C20: the resolver aborts -/

/-- C20: the code at the failing input. After `SetDefault("p.a", 1)`, `Get("p")` and
`SetDefault("p.b", 2)`, which all return, `Get("p.b")` panics: the default is found and
its copy to the cache is refused by the locked branch `p`. After `AddSource` of a source
with `p = 5`, `Get("p")` and `SetDefault("p.x", 1)`, `Get("p.x")` panics inside `Set`,
below the leaf `p`. All names and keys are grammar-valid. -/
theorem c20_get_panics :
    (runOps State.init opsDefaultBelowLocked).map (fun st => st.defaults.Get "p.b") =
      some (intVal 2, true) ∧
    (runOps State.init opsDefaultBelowLocked).map
      (fun st => (st.defined.Set "p.b" (intVal 2)).2) = some (.err .locked) ∧
    (runOps State.init opsDefaultBelowLocked).map (fun st => (Get st "p.b").2) =
      some .panic ∧
    (runOps State.init opsDefaultBelowLeaf).map
      (fun st => (st.defined.Set "p.x" (intVal 1)).2) = some .panic ∧
    (runOps State.init opsDefaultBelowLeaf).map (fun st => (Get st "p.x").2) = some .panic ∧
    (segments "p.b").all validSegment = true ∧ (segments "p.x").all validSegment = true := by
  decide

/-! ## C21: `Set` below a leaf -/

/-- In every tree, `Set` of a name below a name that holds a leaf panics, whatever the
value, and leaves the tree as it is. -/
theorem values.setWith_below_leaf (store : Res Any) (a : Atom) (m1 : String)
    (more : List String) (segs : List String) :
    ∀ t : values, (values.getSegs false t segs).2 = .ok (.atom a) →
      values.setWith store t (segs ++ m1 :: more) = (t, .panic) := by
  induction segs with
  | nil => intro t h; simp [values.getSegs] at h
  | cons seg rest ih =>
    intro t
    cases rest with
    | nil =>
      by_cases hv : nameRegexMatch seg = true
      · cases hf : t.value.find? seg with
        | none => simp [values.getSegs_one, hv, hf]
        | some x =>
          cases x with
          | atom b => simp [values.getSegs_one, values.setWith_cons, hv, hf]
          | obj m => simp [values.getSegs_one, values.setWith_cons, hv, hf]
          | ptr sub => simp [values.getSegs_one, hv, hf]
      · simp [values.getSegs_one, hv]
    | cons s2 r =>
      by_cases hv : nameRegexMatch seg = true
      · cases hf : t.value.find? seg with
        | none => simp [values.getSegs_cons, hv, hf]
        | some x =>
          cases x with
          | atom b => simp [values.getSegs_cons, hv, hf]
          | obj m => simp [values.getSegs_cons, hv, hf]
          | ptr sub =>
            intro h
            simp only [values.getSegs_cons, hv, hf, Bool.not_true, Bool.false_eq_true,
              if_false] at h
            have h1 := ih sub h
            simp only [List.cons_append] at h1 ⊢
            simp [values.setWith_cons, hv, hf, h1, Fields.set_of_find? hf]
      · simp [values.getSegs_cons, hv]

/-- C21: the code at the failing input. In the tree after `Set("a", 1)`, where `a` holds
the leaf `1`, `Set("a.b", 2)` with the valid segment `b` panics at the type assertion of
values.go:84 and returns no error; `Del("a.b")` panics at the same assertion of
values.go:201; the read `GetWithLock("a.b", false)`, which tests the assertion
(values.go:139), returns an error. -/
theorem c21_set_below_leaf_panics :
    treeLeafA.Get "a" = (intVal 1, true) ∧ validSegment "b" = true ∧
    treeLeafA.Set ("a" ++ "." ++ "b") (intVal 2) = (treeLeafA, .panic) ∧
    treeLeafA.Del ("a" ++ "." ++ "b") = (treeLeafA, .panic) ∧
    treeLeafA.GetWithLock ("a" ++ "." ++ "b") false = (treeLeafA, .err .cannotFind) := by
  decide

/-! ## C22: a source map keeps the default variants -/

/-- A name found below a parent name: the parent name is found as well, as the map of a
branch that has the last segment as a key. -/
theorem values.getSegs_parent (k : String) (segs : List String) (hne : segs ≠ []) :
    ∀ (t : values) (x : Any), (values.getSegs false t (segs ++ [k])).2 = .ok x →
      ∃ sub : values,
        (values.getSegs false t segs).2 = .ok (.obj sub.Value) ∧ k ∈ sub.Value.keys := by
  induction segs with
  | nil => exact absurd rfl hne
  | cons seg rest ih =>
    intro t x
    by_cases hv : nameRegexMatch seg = true
    · cases hf : t.value.find? seg with
      | none => cases rest <;> simp [values.getSegs_cons, hv, hf]
      | some y =>
        cases y with
        | atom b => cases rest <;> simp [values.getSegs_cons, hv, hf]
        | obj m => cases rest <;> simp [values.getSegs_cons, hv, hf]
        | ptr sub =>
          cases rest with
          | nil =>
            simp only [List.nil_append, List.cons_append, values.getSegs_cons,
              values.getSegs_one, hv, hf, Bool.not_true, Bool.false_eq_true, if_false]
            intro h
            refine ⟨sub, rfl, ?_⟩
            rw [values.Value_eq, Fields.keys_exported, Fields.mem_keys_iff_find?]
            by_cases hk : nameRegexMatch k = true
            · cases hfk : sub.value.find? k with
              | none => simp [hk, hfk] at h
              | some z => exact ⟨z, rfl⟩
            · simp [hk] at h
          | cons s2 r =>
            simp only [List.cons_append, values.getSegs_cons, hv, hf, Bool.not_true,
              Bool.false_eq_true, if_false]
            intro h
            exact ih (by simp) sub x (by simpa using h)
    · cases rest <;> simp [values.getSegs_cons, hv]

/-- A default found at `n.k`, for a key `k` without a dot: the defaults hold at `n` a
map that has the key `k`. -/
theorem values.Get_parent {t : values} {n k : String} (hk : k.data.contains '.' = false)
    (h : (t.Get (n ++ "." ++ k)).2 = true) :
    ∃ d, t.Get n = (.obj d, true) ∧ k ∈ d.keys := by
  rw [values.Get_found_iff, segments_append_dot, segments_of_no_dot hk] at h
  obtain ⟨x, hx⟩ := h
  obtain ⟨sub, h1, h2⟩ := values.getSegs_parent k (segments n) (segments_ne_nil n) t x hx
  exact ⟨sub.Value, by simp [values.Get, values.GetWithLock, h1], h2⟩

/-- `GetNamed` on a map with two keys or more selects nothing. -/
theorem GetNamed_of_two_keys {st : State} {n : String} {m : Fields} {k1 k2 : String}
    (hg : (Get st n).2 = .ok (.obj m, true)) (h1 : k1 ∈ m.keys) (h2 : k2 ∈ m.keys)
    (h12 : k1 ≠ k2) : (GetNamed st n).2 = .ok ("", .atom .null, false) := by
  simp only [GetNamed]
  cases hget : Get st n with
  | mk st1 r =>
    rw [hget] at hg
    simp only at hg
    subst hg
    cases m with
    | nil => simp [Fields.keys] at h1
    | cons k v rest =>
      cases rest with
      | nil =>
        simp only [Fields.keys, List.mem_singleton] at h1 h2
        exact absurd (h1.trans h2.symm) h12
      | cons k3 v3 r3 => simp [Fields.len]

/-- C22, as stated, fails: with the defaults `server.http` and `server.batch`, an empty
cache and a source that answers `server` with `{"http": {"port-": 1}}`, an object that
names only the variant `http`, `Get("server")` and `GetNamed("server")` panic in
`NewValues` and return nothing. With grammar-valid keys only: after `SetDefault("a.x",
1)`, `Get("a")`, `SetDefault` of `a.server.http` and `a.server.batch` and `static.Add`
of `{a: {server: {http: nil}}}`, the cache does not hold `a.server`, the source answers
`a.server` with `{http: nil}`, and `GetNamed("a.server")` panics, the copy to the cache
being refused by the locked branch `a`. -/
theorem c22_counterexample_get_aborts :
    (runOps State.init opsTwoVariants).map (fun st => (st.defaults.Get "server.http").2) =
      some true ∧
    (runOps State.init opsTwoVariants).map (fun st => (st.defaults.Get "server.batch").2) =
      some true ∧
    (runOps State.init opsTwoVariants).map (fun st => (st.defined.Get "server").2) =
      some false ∧
    (sourceInvalidKey.Get "server").1 =
      some (.obj (.cons "http" (.obj (.cons "port-" (intVal 1) .nil)) .nil)) ∧
    (runOps State.init opsTwoVariants).map
      (fun st => (Get ⟨st.defined, st.defaults, [sourceInvalidKey]⟩ "server").2) =
      some .panic ∧
    (runOps State.init opsTwoVariants).map
      (fun st => (GetNamed ⟨st.defined, st.defaults, [sourceInvalidKey]⟩ "server").2) =
      some .panic ∧
    (runOps State.init opsVariantsBelowLocked).map
      (fun st => ((st.defaults.Get "a.server.http").2, (st.defaults.Get "a.server.batch").2,
        (st.defined.Get "a.server").2)) = some (true, true, false) ∧
    (runOps State.init opsVariantsBelowLocked).map
      (fun st => st.sources.map (fun src => (src.Get "a.server").1)) =
      some [some (.obj (.cons "http" (.atom .null) .nil))] ∧
    (runOps State.init opsVariantsBelowLocked).map (fun st => (Get st "a.server").2) =
      some .panic ∧
    (runOps State.init opsVariantsBelowLocked).map (fun st => (GetNamed st "a.server").2) =
      some .panic := by
  decide

/-- C22 (amended): when the well-formed defaults registry defines `n.k1` and `n.k2` for
two different keys `k1`, `k2`, the cache does not hold `n`, and the first source that
has `n` answers a map `s` whose keys are at every level grammar-valid single segments,
then the defaults hold a map `d` at `n`, `mergedObj(d, s)` is a map `m` that has every
key of `d`, `k1` and `k2` among them, and, when the copy of `m` to the cache succeeds,
`Get(n)` returns `(m, true)` and `GetNamed(n)` returns `("", nil, false)`. -/
theorem c22_source_keeps_default_variants (defined defaults : values) (n k1 k2 : String)
    (s : Fields) (pre post : List ISource) (src : ISource)
    (hwf : defaults.wf = true)
    (h1 : (defaults.Get (n ++ "." ++ k1)).2 = true)
    (h2 : (defaults.Get (n ++ "." ++ k2)).2 = true)
    (hk1 : k1.data.contains '.' = false) (hk2 : k2.data.contains '.' = false)
    (h12 : k1 ≠ k2)
    (hmiss : (defined.Get n).2 = false)
    (hpre : ∀ s1 ∈ pre, (s1.Get n).1 = none)
    (hs : (src.Get n).1 = some (.obj s))
    (hsv : s.valid = true) :
    ∃ d m, defaults.Get n = (.obj d, true) ∧ mergedObj d s = .ok m ∧
      (∀ k ∈ d.keys, k ∈ m.keys) ∧ k1 ∈ m.keys ∧ k2 ∈ m.keys ∧
      ((defined.Set n (.obj m)).2 = .ok () →
        (Get ⟨defined, defaults, pre ++ src :: post⟩ n).2 = .ok (.obj m, true) ∧
        (GetNamed ⟨defined, defaults, pre ++ src :: post⟩ n).2 =
          .ok ("", .atom .null, false)) := by
  obtain ⟨d, hd, hd1⟩ := values.Get_parent hk1 h1
  obtain ⟨d2, hd2, hd3⟩ := values.Get_parent hk2 h2
  rw [hd] at hd2
  simp only [Prod.mk.injEq, Any.obj.injEq, and_true] at hd2
  subst hd2
  have hdv : d.valid = true := by simpa [Any.valid] using values.Get_valid hwf hd
  obtain ⟨m, hm, hmv, hf⟩ := mergedObj_valid d s hdv hsv
  have hkeys : ∀ k ∈ d.keys, k ∈ m.keys := by
    intro k hk
    rw [Fields.mem_keys_iff_find?] at hk ⊢
    obtain ⟨x, hx⟩ := hk
    rw [hf k, hx]
    cases s.find? k <;> simp
  refine ⟨d, m, hd, hm, hkeys, hkeys k1 hd1, hkeys k2 hd3, fun hset => ?_⟩
  have hget : (Get ⟨defined, defaults, pre ++ src :: post⟩ n).2 = .ok (.obj m, true) := by
    rw [Get_of_miss ⟨defined, defaults, pre ++ src :: post⟩ n hmiss]
    simp only [scanSources_first n (.obj s) src post hs pre hpre, mergeWithDefaults, hd, hm]
    rw [defineAndLock_valid _ n (.obj m) (by simpa [Any.valid] using hmv)]
    simp [hset]
  exact ⟨hget, GetNamed_of_two_keys hget (hkeys k1 hd1) (hkeys k2 hd3) h12⟩

/-- C22 (witness): `TestStructSelection`. `SetDefault` of `server.http` and
`server.batch` leaves the cache empty and gives the defaults `defaultsTwoVariants`; with
the source `{"server": {"http": nil}}`, `GetNamed("server")` returns `("", nil, false)`,
and the merged map has the keys `http` and `batch`. -/
theorem c22_source_keeps_default_variants_witness :
    (runOps State.init opsTwoVariants).map (fun st => (st.defined, st.defaults)) =
      some (emptyTree, defaultsTwoVariants) ∧
    (Get ⟨emptyTree, defaultsTwoVariants, [] ++ sourceSelectHttp :: []⟩ "server").2 =
      .ok (.obj (.cons "batch" (.obj .nil) (.cons "http" (.atom .null) .nil)), true) ∧
    (GetNamed ⟨emptyTree, defaultsTwoVariants, [] ++ sourceSelectHttp :: []⟩ "server").2 =
      .ok ("", .atom .null, false) ∧
    ∃ d m, defaultsTwoVariants.Get "server" = (.obj d, true) ∧
      mergedObj d (.cons "http" (.atom .null) .nil) = .ok m ∧
      (∀ k ∈ d.keys, k ∈ m.keys) ∧ "http" ∈ m.keys ∧ "batch" ∈ m.keys ∧
      ((emptyTree.Set "server" (.obj m)).2 = .ok () →
        (Get ⟨emptyTree, defaultsTwoVariants, [] ++ sourceSelectHttp :: []⟩ "server").2 =
          .ok (.obj m, true) ∧
        (GetNamed ⟨emptyTree, defaultsTwoVariants, [] ++ sourceSelectHttp :: []⟩ "server").2 =
          .ok ("", .atom .null, false)) :=
  ⟨by decide, by decide, by decide,
    c22_source_keeps_default_variants emptyTree defaultsTwoVariants "server" "http" "batch"
      (.cons "http" (.atom .null) .nil) [] [] sourceSelectHttp
      (by decide) (by decide) (by decide) (by decide) (by decide) (by decide) (by decide)
      (by simp) (by decide) (by decide)⟩

/-! ## C23: a failed `Set` -/

/-- `Set` on a branch that was just created returns neither "locked" nor "already
defined". -/
theorem values.setWith_newSub_err (store : Res Any) (segs : List String) :
    (values.setWith store newSub segs).2 ≠ .err .locked ∧
      (values.setWith store newSub segs).2 ≠ .err .alreadyDefined := by
  induction segs with
  | nil => simp [values.setWith]
  | cons seg rest ih =>
    cases rest with
    | nil =>
      by_cases hv : nameRegexMatch seg = true
      · cases store <;> simp [values.setWith_one, hv]
      · simp [values.setWith_one, hv]
    | cons s2 r =>
      by_cases hv : nameRegexMatch seg = true
      · simpa [values.setWith_cons, hv] using ih
      · simp [values.setWith_cons, hv]

/-- A `Set` that returns "locked" or "already defined" leaves the tree as it is. -/
theorem values.setWith_refused (store : Res Any) (segs : List String) :
    ∀ t : values,
      (values.setWith store t segs).2 = .err .locked ∨
        (values.setWith store t segs).2 = .err .alreadyDefined →
      (values.setWith store t segs).1 = t := by
  induction segs with
  | nil => intro t _; rfl
  | cons seg rest ih =>
    intro t
    cases rest with
    | nil =>
      by_cases hv : nameRegexMatch seg = true
      · cases hl : t.locked with
        | true => simp [values.setWith_one, hv, hl]
        | false =>
          cases hf : t.value.find? seg with
          | some y => simp [values.setWith_one, hv, hl, hf]
          | none => cases store <;> simp [values.setWith_one, hv, hl, hf]
      · simp [values.setWith_one, hv]
    | cons s2 r =>
      by_cases hv : nameRegexMatch seg = true
      · cases hf : t.value.find? seg with
        | none =>
          intro h
          simp only [values.setWith_cons, hv, hf, Bool.not_true, Bool.false_eq_true,
            if_false] at h
          have hn := values.setWith_newSub_err store (s2 :: r)
          rcases h with h | h
          · exact absurd h hn.1
          · exact absurd h hn.2
        | some x =>
          cases x with
          | atom b => simp [values.setWith_cons, hv, hf]
          | obj m => simp [values.setWith_cons, hv, hf]
          | ptr sub =>
            intro h
            simp only [values.setWith_cons, hv, hf, Bool.not_true, Bool.false_eq_true,
              if_false] at h ⊢
            rw [ih sub h, Fields.set_of_find? hf]
            simp
      · simp [values.setWith_cons, hv]

/-- `Set` of a name that runs through existing branches ends as the `Set` of the rest of
the name in the branch it reaches; when that one leaves the branch as it is, the tree is
as before. -/
theorem values.setWith_at_branch (store : Res Any) (k : String) (post : List String)
    (pre : List String) :
    ∀ t sub : values, t.branchAt? pre = some sub →
      (values.setWith store t (pre ++ k :: post)).2 =
          (values.setWith store sub (k :: post)).2 ∧
        ((values.setWith store sub (k :: post)).1 = sub →
          (values.setWith store t (pre ++ k :: post)).1 = t) := by
  induction pre with
  | nil =>
    intro t sub h
    simp only [values.branchAt?, Option.some.injEq] at h
    subst h
    simp
  | cons seg rest ih =>
    intro t sub h
    by_cases hv : nameRegexMatch seg = true
    · cases hf : t.value.find? seg with
      | none => simp [values.branchAt?, hv, hf] at h
      | some x =>
        cases x with
        | atom b => simp [values.branchAt?, hv, hf] at h
        | obj m => simp [values.branchAt?, hv, hf] at h
        | ptr q =>
          simp only [values.branchAt?, hv, hf, Bool.not_true, Bool.false_eq_true,
            if_false] at h
          obtain ⟨h1, h2⟩ := ih q sub h
          cases hr : rest ++ k :: post with
          | nil => simp at hr
          | cons s2 r =>
            rw [hr] at h1 h2
            simp only [List.cons_append, hr, values.setWith_cons, hv, hf, Bool.not_true,
              Bool.false_eq_true, if_false]
            refine ⟨h1, fun hs => ?_⟩
            rw [h2 hs, Fields.set_of_find? hf]
            simp
    · simp [values.branchAt?, hv] at h

/-- C23, as stated, fails: on the empty tree `Set("a.b-", 1)` returns the error "invalid
name" for the segment `b-`, and the tree then holds the empty branch `a`: `Value()` is
`{a: {}}` where it was `{}`, and `Get("a")` finds a value where it found none. -/
theorem c23_counterexample_invalid_later_segment :
    emptyTree.Set "a.b-" (intVal 1) =
      (.mk (.cons "a" (.ptr (.mk .nil false)) .nil) false, .err .invalidName) ∧
    emptyTree.Value = .nil ∧
    (emptyTree.Set "a.b-" (intVal 1)).1.Value = .cons "a" (.obj .nil) .nil ∧
    emptyTree.Get "a" = (.atom .null, false) ∧
    (emptyTree.Set "a.b-" (intVal 1)).1.Get "a" = (.obj .nil, true) := by
  decide

/-- C23 (amended): for every tree, path and value, when `Set(path, value)` returns the
error "already defined" or "locked", or returns any error at a segment `k` of the path
whose parent path is a branch of the tree, `k` being the last segment of the path or a
segment outside the name grammar, the tree after the call is the tree before it, values
and lock flags. -/
theorem c23_failed_set_without_new_branch (t : values) (path : String) (v : Any) (e : Err)
    (herr : (t.Set path v).2 = .err e)
    (hcase : e = .alreadyDefined ∨ e = .locked ∨
      ∃ pre k post sub, segments path = pre ++ k :: post ∧ t.branchAt? pre = some sub ∧
        (post = [] ∨ validSegment k = false)) :
    (t.Set path v).1 = t := by
  simp only [values.Set] at herr ⊢
  rcases hcase with h | h | ⟨pre, k, post, sub, hp, hb, hk⟩
  · subst h
    exact values.setWith_refused _ _ t (Or.inr herr)
  · subst h
    exact values.setWith_refused _ _ t (Or.inl herr)
  · rw [hp] at herr ⊢
    obtain ⟨h1, h2⟩ := values.setWith_at_branch v.store k post pre t sub hb
    rw [h1] at herr
    apply h2
    rcases hk with hk | hk
    · subst hk
      revert herr
      by_cases hv : nameRegexMatch k = true
      · cases hl : sub.locked with
        | true => simp [values.setWith_one, hv, hl]
        | false =>
          cases hf : sub.value.find? k with
          | some y => simp [values.setWith_one, hv, hl, hf]
          | none => cases v.store <;> simp [values.setWith_one, hv, hl, hf]
      · simp [values.setWith_one, hv]
    · rw [← nameRegexMatch_eq_validSegment] at hk
      cases post with
      | nil => simp [values.setWith_one, hk]
      | cons s2 r => simp [values.setWith_cons, hk]

/-- C23 (witness): in the tree `{p: {a: 1}}` with the branch `p` locked, `Set("p.a", 2)`
returns "locked"; in the same tree without a lock, `Set("p.b-", 2)` returns "invalid
name" at the last segment, whose parent `p` is a branch; both leave the tree as it
is. -/
theorem c23_failed_set_without_new_branch_witness :
    ((treePALocked.Set "p.a" (intVal 2)).2 = .err .locked ∧
      (treePALocked.Set "p.a" (intVal 2)).1 = treePALocked) ∧
    ((treePA.Set "p.b-" (intVal 2)).2 = .err .invalidName ∧
      (treePA.Set "p.b-" (intVal 2)).1 = treePA) :=
  ⟨⟨by decide,
      c23_failed_set_without_new_branch treePALocked "p.a" (intVal 2) .locked (by decide)
        (Or.inr (Or.inl rfl))⟩,
    ⟨by decide,
      c23_failed_set_without_new_branch treePA "p.b-" (intVal 2) .invalidName (by decide)
        (Or.inr (Or.inr ⟨["p"], "b-", [], .mk (.cons "a" (intVal 1) .nil) false,
          by decide, by decide, Or.inl rfl⟩))⟩⟩

end Config
